import Mathlib

/-!
A verification development for the skip-list repository (`xsf_skip_list.h`,
and the rand()-based variant with file persistence).  The heap of nodes is
modelled explicitly: addresses are naturals, the heap maps an address to a
node or `none` (unallocated / freed), and every pointer dereference or
forward-array index is checked, returning `none` on an access the C++ could
not perform safely.  Loops that follow pointers carry fuel (always supplied
as more than the number of allocated addresses); loops bounded by a level
counter are structурal.  The coin source `distribution_(gen_)` (or `rand()%2`)
is modelled as a boolean stream `flips` with a cursor `fpos`, both part of the
engine state, exactly as the generator object is.
-/

set_option linter.unusedSectionVars false

namespace xsf_skip_list

/-- A forward link: the null pointer or the address of a node. -/
inductive Ptr where
  | null : Ptr
  | addr : Nat → Ptr
deriving DecidableEq

/-- `Node<K, V>` (xsf_skip_list.h 10-26): key, value, forward array of
`node_level_ + 1` links. -/
structure HNode (K V : Type) where
  key : K
  value : V
  forward : List Ptr
  nodeLevel : Nat

/-- The store of nodes: `none` is unallocated or freed memory. -/
def Heap (K V : Type) : Type := Nat → Option (HNode K V)

/-- Write one cell of the heap. -/
def heapWrite {K V : Type} (h : Heap K V) (a : Nat) (n : Option (HNode K V)) : Heap K V :=
  fun b => if b = a then n else h b

/-- `XSFSkipList` state (xsf_skip_list.h 199-206): `max_level_`,
`skip_list_level_`, `header_`, `element_count_`, plus the heap holding the
nodes, the allocation cursor `next`, and the seeded coin stream of
`gen_` / `distribution_`. -/
structure SL (K V : Type) where
  maxLevel : Nat
  level : Nat
  header : Nat
  count : Nat
  heap : Heap K V
  next : Nat
  flips : Nat → Bool
  fpos : Nat

variable {K V : Type}

/-- `Node(key, value, level)`: `forward_ = new Node<K, V>*[level + 1]()`,
value-initialized to null links. -/
def create_node (key : K) (value : V) (level : Nat) : HNode K V :=
  { key := key, value := value, forward := List.replicate (level + 1) Ptr.null,
    nodeLevel := level }

/-- The constructor (xsf_skip_list.h 31-41): header node carrying
default-constructed key and value (`K k; V v;`), at level `max_level_`. -/
def mkSL (K V : Type) [Inhabited K] [Inhabited V] (maxLevel : Nat)
    (flips : Nat → Bool) : SL K V :=
  { maxLevel := maxLevel, level := 0, header := 0, count := 0,
    heap := heapWrite (fun _ => none) 0 (some (create_node default default maxLevel)),
    next := 1, flips := flips, fpos := 0 }

/-- `XSFSkipList(uint8_t max_level, unsigned int seed)`: the member
generator `gen_(seed)` with `distribution_(0.5)` is a deterministic
function of the seed; `stream seed` is the coin sequence that seeded
pipeline produces. -/
def mkSeeded (K V : Type) [Inhabited K] [Inhabited V] (stream : Nat → Nat → Bool)
    (maxLevel seed : Nat) : SL K V :=
  mkSL K V maxLevel (stream seed)

/-- The loop of `get_random_level` (xsf 173-183, part_000 119-130):
`while (distribution_(gen_) && k < max_level_) k++;` — a coin is drawn on
every test, including the final one; `rem = max_level_ - k` counts the
increments still permitted. Returns the level and the new stream cursor. -/
def get_random_level_go (flips : Nat → Bool) : Nat → Nat → Nat → Nat × Nat
  | k, p, 0 => (k, p + 1)
  | k, p, rem + 1 => if flips p then get_random_level_go flips (k + 1) (p + 1) rem
                     else (k, p + 1)

/-- `uint8_t get_random_level()` — consumes coins from the stream. -/
def get_random_level (S : SL K V) : Nat × SL K V :=
  let r := get_random_level_go S.flips 0 S.fpos S.maxLevel
  (r.1, { S with fpos := r.2 })

variable [LinearOrder K]

/-- Fuel for the pointer-following loops: strictly more than the number of
addresses ever allocated, hence than any chain length. -/
def searchFuel (S : SL K V) : Nat := S.next + 1

/-- One level of the search loop:
`while (current->forward_[i] != nullptr && current->forward_[i]->key_ < key)
current = current->forward_[i];` — returns the final `current`. -/
def advanceGo (S : SL K V) (key : K) (i : Nat) : Nat → Nat → Option Nat
  | _, 0 => none
  | a, fuel + 1 =>
    match S.heap a with
    | none => none
    | some n =>
      match n.forward.get? i with
      | none => none
      | some Ptr.null => some a
      | some (Ptr.addr b) =>
        match S.heap b with
        | none => none
        | some nb => if nb.key < key then advanceGo S key i b fuel else some a

/-- The descending for-loop of `put` / `remove`
(`for (int i = skip_list_level_; i >= 0; i--)`), recording
`update[i] = current` at each level.  `update` starts as the memset-to-null
array and is returned as a function from level to recorded pointer. -/
def searchGo (S : SL K V) (key : K) : Nat → Nat → (Nat → Ptr) → Option (Nat × (Nat → Ptr))
  | 0, a, upd =>
    (advanceGo S key 0 a (searchFuel S)).map
      (fun a2 => (a2, fun j => if j = 0 then Ptr.addr a2 else upd j))
  | i + 1, a, upd =>
    match advanceGo S key (i + 1) a (searchFuel S) with
    | none => none
    | some a2 => searchGo S key i a2 (fun j => if j = i + 1 then Ptr.addr a2 else upd j)

/-- The memset-initialized `update` array (all null). -/
def updInit : Nat → Ptr := fun _ => Ptr.null

/-- The descending loop of `get` (xsf 111-120), which records no update
array. -/
def getGo (S : SL K V) (key : K) : Nat → Nat → Option Nat
  | 0, a => advanceGo S key 0 a (searchFuel S)
  | i + 1, a =>
    match advanceGo S key (i + 1) a (searchFuel S) with
    | none => none
    | some a2 => getGo S key i a2

/-- `std::optional<V> get(const K& key)` (xsf 106-128; the same algorithm is
`SkipList::search_element`, part_000 153-179): search from
`skip_list_level_` down, then test the level-0 successor.  The outer `none`
models an unsafe memory access (shown impossible in reachable states). -/
def get (S : SL K V) (key : K) : Option (Option V) :=
  match getGo S key S.level S.header with
  | none => none
  | some a =>
    match S.heap a with
    | none => none
    | some n =>
      match n.forward.get? 0 with
      | none => none
      | some Ptr.null => some none
      | some (Ptr.addr b) =>
        match S.heap b with
        | none => none
        | some nb => if nb.key = key then some (some nb.value) else some none

/-- The two ways `put` continues after its search: the key exists at node
`b` (update in place), or it is absent and the recorded `update` array is
used to splice. -/
inductive PutPath (K V : Type) where
  | update : Nat → PutPath K V
  | insert : (Nat → Ptr) → PutPath K V

/-- The search phase of `put` (xsf 55-75): run the descending search, step to
`current->forward_[0]` and test `current != nullptr && current->key_ == key`. -/
def put_dispatch (S : SL K V) (key : K) : Option (PutPath K V) :=
  match searchGo S key S.level S.header updInit with
  | none => none
  | some (a, upd) =>
    match S.heap a with
    | none => none
    | some n =>
      match n.forward.get? 0 with
      | none => none
      | some Ptr.null => some (PutPath.insert upd)
      | some (Ptr.addr b) =>
        match S.heap b with
        | none => none
        | some nb =>
          if nb.key = key then some (PutPath.update b) else some (PutPath.insert upd)

/-- `current->value_ = value;` — overwrite the value of node `b` in place. -/
def writeValue (S : SL K V) (b : Nat) (value : V) : Option (SL K V) :=
  match S.heap b with
  | none => none
  | some nb =>
    some { S with heap := heapWrite S.heap b (some { nb with value := value }) }

/-- The bookkeeping of `put` that precedes `create_node` (xsf 81-91): draw
the level, and if it exceeds `skip_list_level_`, set `update[i] = header_`
for each new level and raise `skip_list_level_`.  Returns the state as
mutated so far, the update array, and the drawn level. -/
def insertPre (S : SL K V) (upd : Nat → Ptr) : SL K V × (Nat → Ptr) × Nat :=
  let r := get_random_level S
  let nl := r.1
  let S1 := r.2
  if S1.level < nl then
    ({ S1 with level := nl },
     fun j => if S1.level + 1 ≤ j ∧ j ≤ nl then Ptr.addr S1.header else upd j, nl)
  else (S1, upd, nl)

/-- Set `forward_[i]` of a node, checking the array bound. -/
def setForward (n : HNode K V) (i : Nat) (p : Ptr) : Option (HNode K V) :=
  if i < n.forward.length then some { n with forward := n.forward.set i p } else none

/-- One iteration of the splice loop (xsf 95-100):
`new_node->forward_[i] = update[i]->forward_[i];
 update[i]->forward_[i] = new_node;` with `w` the new node's address. -/
def spliceStep (upd : Nat → Ptr) (w : Nat) (h : Heap K V) (i : Nat) : Option (Heap K V) :=
  match upd i with
  | Ptr.null => none
  | Ptr.addr u =>
    match h u with
    | none => none
    | some un =>
      match un.forward.get? i with
      | none => none
      | some p =>
        match h w with
        | none => none
        | some wn =>
          match setForward wn i p with
          | none => none
          | some wn2 =>
            let h1 := heapWrite h w (some wn2)
            match h1 u with
            | none => none
            | some un1 =>
              match setForward un1 i (Ptr.addr w) with
              | none => none
              | some un2 => some (heapWrite h1 u (some un2))

/-- `for (i = 0; i <= new_node_level; i++)` — `rem` counts the remaining
iterations, starting at `new_node_level + 1`. -/
def spliceLoop (upd : Nat → Ptr) (w : Nat) : Nat → Nat → Heap K V → Option (Heap K V)
  | _, 0, h => some h
  | i, rem + 1, h =>
    match spliceStep upd w h i with
    | none => none
    | some h2 => spliceLoop upd w (i + 1) rem h2

/-- The insert branch of `put` (xsf 81-102): level bookkeeping, node
creation at the next free address, splice at levels `0..new_node_level`,
and `element_count_++`. -/
def insertFresh (S : SL K V) (key : K) (value : V) (upd : Nat → Ptr) : Option (SL K V) :=
  let pre := insertPre S upd
  let S2 := pre.1
  let upd2 := pre.2.1
  let nl := pre.2.2
  let w := S2.next
  let h1 := heapWrite S2.heap w (some (create_node key value nl))
  match spliceLoop upd2 w 0 (nl + 1) h1 with
  | none => none
  | some h2 => some { S2 with heap := h2, next := w + 1, count := S2.count + 1 }

/-- `void put(const K& key, const V& value)` (xsf 52-104; the same algorithm
is `SkipList::insert_element`, part_000 187-245). -/
def put (S : SL K V) (key : K) (value : V) : Option (SL K V) :=
  match put_dispatch S key with
  | none => none
  | some (PutPath.update b) => writeValue S b value
  | some (PutPath.insert upd) => insertFresh S key value upd

/-- The engine state at the moment `create_node` is about to run inside
`put`'s insert branch (`none` when `put` takes the update-in-place branch):
the search has run, the generator has been consumed and
`skip_list_level_` has been adjusted, but no node exists yet. -/
def put_preAllocState (S : SL K V) (key : K) : Option (SL K V) :=
  match put_dispatch S key with
  | none => none
  | some (PutPath.update _) => none
  | some (PutPath.insert upd) => some (insertPre S upd).1

/-- One iteration of the unlink loop of `remove` (xsf 151-157):
`if (update[i]->forward_[i] == current)
 update[i]->forward_[i] = current->forward_[i];` with `t` the node found. -/
def unlinkStep (upd : Nat → Ptr) (t : Nat) (h : Heap K V) (i : Nat) : Option (Heap K V) :=
  match upd i with
  | Ptr.null => none
  | Ptr.addr u =>
    match h u with
    | none => none
    | some un =>
      match un.forward.get? i with
      | none => none
      | some p =>
        if p = Ptr.addr t then
          match h t with
          | none => none
          | some tn =>
            match tn.forward.get? i with
            | none => none
            | some tp =>
              match setForward un i tp with
              | none => none
              | some un2 => some (heapWrite h u (some un2))
        else some h

/-- `for (i = 0; i <= skip_list_level_; i++)` of the unlink loop. -/
def unlinkLoop (upd : Nat → Ptr) (t : Nat) : Nat → Nat → Heap K V → Option (Heap K V)
  | _, 0, h => some h
  | i, rem + 1, h =>
    match unlinkStep upd t h i with
    | none => none
    | some h2 => unlinkLoop upd t (i + 1) rem h2

/-- `while (skip_list_level_ > 0 && header_->forward_[skip_list_level_] == nullptr)
skip_list_level_--;` (xsf 159-162). -/
def shrinkLoop (h : Heap K V) (hd : Nat) : Nat → Option Nat
  | 0 => some 0
  | l + 1 =>
    match h hd with
    | none => none
    | some hn =>
      match hn.forward.get? (l + 1) with
      | none => none
      | some Ptr.null => shrinkLoop h hd l
      | some (Ptr.addr _) => some (l + 1)

/-- `void remove(const K& key)` (xsf 130-168; the same algorithm is
`SkipList::delete_element`, part_000 251-291): search, and when the key is
found unlink at every level, shrink `skip_list_level_`, free the node and
decrement `element_count_`. -/
def remove (S : SL K V) (key : K) : Option (SL K V) :=
  match searchGo S key S.level S.header updInit with
  | none => none
  | some (a, upd) =>
    match S.heap a with
    | none => none
    | some n =>
      match n.forward.get? 0 with
      | none => none
      | some Ptr.null => some S
      | some (Ptr.addr t) =>
        match S.heap t with
        | none => none
        | some tn =>
          if tn.key = key then
            match unlinkLoop upd t 0 (S.level + 1) S.heap with
            | none => none
            | some h1 =>
              match shrinkLoop h1 S.header S.level with
              | none => none
              | some lvl2 =>
                some { S with heap := heapWrite h1 t none, level := lvl2,
                              count := S.count - 1 }
          else some S

/-- `size_t size()` (xsf 170): returns `element_count_`. -/
def size (S : SL K V) : Nat := S.count

/-- Walk the level-0 chain from a pointer, collecting address, key, value. -/
def chainGo (S : SL K V) : Ptr → Nat → Option (List (Nat × K × V))
  | Ptr.null, _ => some []
  | Ptr.addr _, 0 => none
  | Ptr.addr a, fuel + 1 =>
    match S.heap a with
    | none => none
    | some n =>
      match n.forward.get? 0 with
      | none => none
      | some p => (chainGo S p fuel).map (fun l => (a, n.key, n.value) :: l)

/-- The full level-0 chain from `header_->forward_[0]`. -/
def chainEnts (S : SL K V) : Option (List (Nat × K × V)) :=
  match S.heap S.header with
  | none => none
  | some hn =>
    match hn.forward.get? 0 with
    | none => none
    | some p => chainGo S p (searchFuel S)

/-- The level-0 chain as (key, value) pairs, in chain order. -/
def chain0 (S : SL K V) : Option (List (K × V)) :=
  (chainEnts S).map (List.map Prod.snd)

/-- The level-0 chain as addresses, in chain order. -/
def chainAddrs (S : SL K V) : Option (List Nat) :=
  (chainEnts S).map (List.map Prod.fst)

/-- `void clear(Node<K, V>* node)` (xsf 192-197, part_000 376-382):
`if (node->forward_[0] != nullptr) clear(node->forward_[0]); delete node;` —
a self-recursive call per node, then the delete.  Returns the depth of the
recursion (nested `clear` frames on the call stack) and the addresses in
the order they are freed. -/
def clearGo (h : Heap K V) : Nat → Nat → Option (Nat × List Nat)
  | _, 0 => none
  | a, fuel + 1 =>
    match h a with
    | none => none
    | some n =>
      match n.forward.get? 0 with
      | none => none
      | some Ptr.null => some (1, [a])
      | some (Ptr.addr b) =>
        match clearGo h b fuel with
        | none => none
        | some (d, l) => some (d + 1, l ++ [a])

/-- `~XSFSkipList()` (xsf 43-50): clear the chain starting at
`header_->forward_[0]` when it is non-null, then delete the header.
Returns the recursion depth reached inside `clear` and the free order. -/
def destructor (S : SL K V) : Option (Nat × List Nat) :=
  match S.heap S.header with
  | none => none
  | some hn =>
    match hn.forward.get? 0 with
    | none => none
    | some Ptr.null => some (0, [S.header])
    | some (Ptr.addr b) =>
      match clearGo S.heap b (searchFuel S) with
      | none => none
      | some (d, l) => some (d, l ++ [S.header])

/-- Replace the header node's placeholder key and value (the fields
default-constructed by the constructor), leaving the rest of the state
untouched. -/
def setHeaderKV (S : SL K V) (hk : K) (hv : V) : SL K V :=
  match S.heap S.header with
  | none => S
  | some hn =>
    { S with heap := heapWrite S.heap S.header (some { hn with key := hk, value := hv }) }

/-- An operation of a client sequence. -/
inductive Op (K V : Type) where
  | put : K → V → Op K V
  | remove : K → Op K V
  | get : K → Op K V

/-- Run one operation (a `get` leaves the state as it was). -/
def runOp (S : SL K V) : Op K V → Option (SL K V)
  | Op.put k v => put S k v
  | Op.remove k => remove S k
  | Op.get k => (get S k).map (fun _ => S)

/-- Run a sequence of operations. -/
def runOps (S : SL K V) : List (Op K V) → Option (SL K V)
  | [] => some S
  | o :: os =>
    match runOp S o with
    | none => none
    | some S2 => runOps S2 os

/-- The map each operation denotes: `put` binds, `remove` erases, `get`
changes nothing. -/
def specApply (m : K → Option V) : Op K V → (K → Option V)
  | Op.put k v => fun q => if q = k then some v else m q
  | Op.remove k => fun q => if q = k then none else m q
  | Op.get _ => m

/-- The key-to-value map denoted by a sequence of operations from empty. -/
def specOf (ops : List (Op K V)) : K → Option V :=
  ops.foldl specApply (fun _ => none)

/-- A state some operation sequence reaches from a freshly constructed
engine. -/
def Reachable [Inhabited K] [Inhabited V] (S : SL K V) : Prop :=
  ∃ (maxLevel : Nat) (flips : Nat → Bool) (ops : List (Op K V)),
    runOps (mkSL K V maxLevel flips) ops = some S

/-- Two states a caller cannot tell apart through `get`. -/
def sameContent (S1 S2 : SL K V) : Prop :=
  ∀ k : K, get S1 k = get S2 k

/-- The sequence of the first `n` levels the generator of a state yields. -/
def levelSeq (S : SL K V) : Nat → List Nat
  | 0 => []
  | n + 1 =>
    let r := get_random_level S
    r.1 :: levelSeq r.2 n

/-- A lock event on the one mutex of the engine. -/
inductive LockEv where
  | acquire : LockEv
  | release : LockEv
deriving DecidableEq

/-- Locking of `XSFSkipList::put` (xsf 52-53): `std::lock_guard` on entry,
released on return. -/
def put_lockEvents : List LockEv := [LockEv.acquire, LockEv.release]

/-- Locking of `XSFSkipList::remove` (xsf 130-131): `std::lock_guard` on
entry. -/
def remove_lockEvents : List LockEv := [LockEv.acquire, LockEv.release]

/-- Locking of `XSFSkipList::get` (xsf 106-128): the body has no
`std::lock_guard` and touches `mutex_` nowhere. -/
def get_lockEvents : List LockEv := []

/-- Locking of `XSFSkipList::size` (xsf 170): reads `element_count_` with no
lock (`momu::skip_list::SkipList::size`, line 282, likewise). -/
def size_lockEvents : List LockEv := []

/-- Locking of `SkipList::search_element` (part_000 153-179): no
`mtx.lock()` in the body. -/
def search_element_lockEvents : List LockEv := []

/-- Locking of `SkipList::dump_file` (part_000 316-333): walks and writes
the chain with no `mtx.lock()`. -/
def dump_file_lockEvents : List LockEv := []

/-- Locking of `SkipList::insert_element` (part_000 188-245): `mtx.lock()`
on entry, `mtx.unlock()` on both returns. -/
def insert_element_lockEvents : List LockEv := [LockEv.acquire, LockEv.release]

/-- Locking of `momu::skip_list::SkipList::get` (lines 260-264):
`std::lock_guard` on entry. -/
def momu_get_lockEvents : List LockEv := [LockEv.acquire, LockEv.release]

/-! ### The snapshot codec (part_000): dump_file / load_file over `int` keys
and values, lines modelled as lists of characters. -/

/-- The decimal digit characters written by `operator<<`. -/
def digitChar : Nat → Char
  | 0 => '0'
  | 1 => '1'
  | 2 => '2'
  | 3 => '3'
  | 4 => '4'
  | 5 => '5'
  | 6 => '6'
  | 7 => '7'
  | 8 => '8'
  | 9 => '9'
  | _ => '*'

/-- The value of a decimal digit character, `none` for a non-digit. -/
def charDigit (c : Char) : Option Nat :=
  if '0' ≤ c ∧ c ≤ '9' then some (c.toNat - 48) else none

/-- Decimal text of a natural, as `operator<<` writes it. -/
def natRepr (n : Nat) : List Char :=
  if n = 0 then ['0'] else (Nat.digits 10 n).reverse.map digitChar

/-- Decimal text of an `int`, as `operator<<` writes it: a minus sign,
then the digits of the magnitude. -/
def intRepr (n : Int) : List Char :=
  if n < 0 then '-' :: natRepr n.natAbs else natRepr n.toNat

/-- The value of a most-significant-first digit list. -/
def digitsVal (l : List Nat) : Nat := l.foldl (fun a d => 10 * a + d) 0

/-- Model of `std::stoi`: skip leading spaces, an optional sign, then the
longest prefix of decimal digits; `none` models the `std::invalid_argument`
throw when no digit follows. -/
def stoi (s : List Char) : Option Int :=
  match s.dropWhile (fun c => c = ' ') with
  | '-' :: rest =>
    let ds := rest.takeWhile (fun c => (charDigit c).isSome)
    if ds.isEmpty then none else some (-(digitsVal (ds.filterMap charDigit) : Int))
  | '+' :: rest =>
    let ds := rest.takeWhile (fun c => (charDigit c).isSome)
    if ds.isEmpty then none else some ((digitsVal (ds.filterMap charDigit) : Int))
  | s1 =>
    let ds := s1.takeWhile (fun c => (charDigit c).isSome)
    if ds.isEmpty then none else some ((digitsVal (ds.filterMap charDigit) : Int))

/-- `bool is_valid_string(const std::string&)` (part_000 336-339):
`!str.empty() && str.find(':') != std::string::npos`. -/
def is_valid_string (s : List Char) : Bool :=
  !s.isEmpty && s.any (fun c => c = ':')

/-- `void get_key_value_from_string(str, *key, *value)` (part_000 342-351):
splits at the FIRST ':' (`substr(0, find)` / `substr(find + 1)`); on an
invalid string it returns leaving the out-parameters at their previous
values. -/
def get_key_value_from_string (s key value : List Char) : List Char × List Char :=
  if is_valid_string s then
    (s.takeWhile (fun c => c ≠ ':'), (s.dropWhile (fun c => c ≠ ':')).tail)
  else (key, value)

/-- The loop state of `load_file`: the map, the `key` and `value` strings
declared OUTSIDE the loop (so they persist across iterations), and one
entry per executed `insert_element` — also one per `"Load key: ..."` line
printed, since that print shares the branch with the insert; a skipped
line prints nothing. -/
structure LoadState where
  sl : SL Int Int
  key : List Char
  value : List Char
  applied : List (Int × Int)

/-- One iteration of the `while (std::getline(...))` loop of `load_file`
(part_000 361-370): parse into the persistent `key`/`value`, skip when
either is empty, otherwise `insert_element(std::stoi(key), std::stoi(value))`.
`none` models a `std::stoi` throw escaping `load_file`. -/
def load_step (st : LoadState) (line : List Char) : Option LoadState :=
  let kv := get_key_value_from_string line st.key st.value
  if kv.1.isEmpty || kv.2.isEmpty then
    some { st with key := kv.1, value := kv.2 }
  else
    match stoi kv.1, stoi kv.2 with
    | some k, some v =>
      match put st.sl k v with
      | none => none
      | some S2 => some { sl := S2, key := kv.1, value := kv.2,
                          applied := st.applied ++ [(k, v)] }
    | _, _ => none

/-- `void load_file()` (part_000 354-373) over the file's lines, starting
from default-constructed `key`/`value` strings (empty). -/
def load_file (S : SL Int Int) (lines : List (List Char)) :
    Option (SL Int Int × List (Int × Int)) :=
  match lines.foldlM load_step { sl := S, key := [], value := [], applied := [] } with
  | none => none
  | some st => some (st.sl, st.applied)

/-- One line of the dump: `key` `:` `value`. -/
def line_of (k v : Int) : List Char := intRepr k ++ ':' :: intRepr v

/-- `void dump_file()` (part_000 316-333): walk the level-0 chain from
`header_->forward_[0]`, writing one `key:value` line per node. -/
def dump_file (S : SL Int Int) : Option (List (List Char)) :=
  (chainEnts S).map (List.map (fun e => line_of e.2.1 e.2.2))

/-- Spec-side reading of one line (used to compare `load_file` against the
spec's description): a line parses when it has a ':' with nonempty key and
value segments that `stoi` accepts. -/
def parseLine (line : List Char) : Option (Int × Int) :=
  if is_valid_string line then
    let key := line.takeWhile (fun c => c ≠ ':')
    let value := (line.dropWhile (fun c => c ≠ ':')).tail
    if key.isEmpty || value.isEmpty then none
    else
      match stoi key, stoi value with
      | some k, some v => some (k, v)
      | _, _ => none
  else none

/-- Spec-side map after loading: lines that parse are applied in file
order, last write wins; other lines change nothing. -/
def specLoad (m : Int → Option Int) : List (List Char) → (Int → Option Int)
  | [] => m
  | line :: rest =>
    match parseLine line with
    | none => specLoad m rest
    | some (k, v) => specLoad (fun q => if q = k then some v else m q) rest

/-! ### The abstraction: the chain as a list of entries, and well-formedness
of a state with respect to it. -/

/-- One node of the chain, abstractly: address, key, value, node level. -/
structure Ent (K V : Type) where
  addr : Nat
  key : K
  value : V
  lvl : Nat

/-- The addresses of a list of entries. -/
def addrsOf (l : List (Ent K V)) : List Nat := l.map Ent.addr

/-- The entries participating at level `i` (level contiguity: a node is in
every level up to its own). -/
def levelKeep (i : Nat) (ms : List (Ent K V)) : List (Ent K V) :=
  ms.filter (fun e => decide (i ≤ e.lvl))

/-- `IsChain h i p l`: following `forward_[i]` from pointer `p` in heap `h`
traverses exactly the entries `l` and ends at null; each entry's node
carries its key, value and level, with a full-size forward array. -/
inductive IsChain (h : Heap K V) (i : Nat) : Ptr → List (Ent K V) → Prop where
  | nil : IsChain h i Ptr.null []
  | cons {e : Ent K V} {fw : List Ptr} {p : Ptr} {l : List (Ent K V)} :
      h e.addr = some { key := e.key, value := e.value, forward := fw, nodeLevel := e.lvl } →
      fw.length = e.lvl + 1 →
      fw.get? i = some p →
      IsChain h i p l →
      IsChain h i (Ptr.addr e.addr) (e :: l)

/-- The node of an entry is in the heap with the entry's fields. -/
def EntOk (h : Heap K V) (e : Ent K V) : Prop :=
  ∃ fw, h e.addr = some { key := e.key, value := e.value, forward := fw, nodeLevel := e.lvl } ∧
    fw.length = e.lvl + 1

/-- Well-formedness of a state against its abstract chain `ms` (the level-0
sequence of entries).  Nothing here constrains the header's key or value. -/
structure Wf (S : SL K V) (ms : List (Ent K V)) : Prop where
  hdr_lt : S.header < S.next
  hdr : ∃ hn : HNode K V, S.heap S.header = some hn ∧
    hn.forward.length = S.maxLevel + 1 ∧ hn.nodeLevel = S.maxLevel
  chains : ∀ i, i ≤ S.maxLevel → ∃ hn p, S.heap S.header = some hn ∧
    hn.forward.get? i = some p ∧ IsChain S.heap i p (levelKeep i ms)
  lvl_le : S.level ≤ S.maxLevel
  count_eq : S.count = ms.length
  lvls_le : ∀ e ∈ ms, e.lvl ≤ S.level
  sorted : ms.Pairwise (fun d e => d.key < e.key)
  hdr_notin : S.header ∉ addrsOf ms
  nodup : (addrsOf ms).Nodup
  bounded : ∀ a ∈ addrsOf ms, a < S.next
  dom : ∀ a, S.heap a ≠ none → a = S.header ∨ a ∈ addrsOf ms
  top : S.level = 0 ∨ levelKeep S.level ms ≠ []

/-- Association lookup in the abstract chain. -/
def assocFind (ms : List (Ent K V)) (k : K) : Option V :=
  (ms.find? (fun e => decide (e.key = k))).map Ent.value

/-- The entries strictly below the search key (the chain's prefix the
search walks past). -/
def keyLtTake (ms : List (Ent K V)) (key : K) : List (Ent K V) :=
  ms.takeWhile (fun e => decide (e.key < key))

/-- The entries at or above the search key (the chain's suffix the search
stops in front of). -/
def keyGeDrop (ms : List (Ent K V)) (key : K) : List (Ent K V) :=
  ms.dropWhile (fun e => decide (e.key < key))

/-- The node where the search loop at level `i` ends: the last entry below
the key participating at level `i`, or the header. -/
def searchPred (S : SL K V) (ms : List (Ent K V)) (key : K) (i : Nat) : Nat :=
  (addrsOf (levelKeep i (keyLtTake ms key))).getLastD S.header

/-- The position invariant of the descending search, entering level `i`:
`a` splits the below-key prefix so that nothing of level `≥ i` follows it. -/
def PredSplit (S : SL K V) (ms : List (Ent K V)) (key : K) (i : Nat) (a : Nat) : Prop :=
  ∃ preA preB, keyLtTake ms key = preA ++ preB ∧ levelKeep i preB = [] ∧
    ((a = S.header ∧ preA = []) ∨
      ∃ e : Ent K V, preA.getLast? = some e ∧ e.addr = a ∧ i ≤ e.lvl)

/-- The entry `put` creates when the key is absent: next free address, the
drawn level. -/
def putEnt (S : SL K V) (key : K) (value : V) : Ent K V :=
  { addr := S.next, key := key, value := value, lvl := (get_random_level S).1 }

/-- A line whose nonempty segments `std::stoi` accepts (a line violating
this makes `load_file` propagate `std::invalid_argument`). -/
def lineSafe (line : List Char) : Prop :=
  is_valid_string line = true →
    (line.takeWhile (fun c => c ≠ ':')).isEmpty = false →
    ((line.dropWhile (fun c => c ≠ ':')).tail).isEmpty = false →
    (stoi (line.takeWhile (fun c => c ≠ ':'))).isSome ∧
      (stoi ((line.dropWhile (fun c => c ≠ ':')).tail)).isSome

/-- Replace the value of the entry at address `b` (abstract image of the
in-place `current->value_ = value`). -/
def updVal (b : Nat) (v : V) : Ent K V → Ent K V :=
  fun x => if x.addr = b then Ent.mk x.addr x.key v x.lvl else x

/-- A concrete coin stream: one head, then tails forever. -/
def flipsOne : Nat → Bool := fun i => i = 0

/-- A concrete coin stream: tails forever. -/
def flipsZero : Nat → Bool := fun _ => false

/-! ### Lemmas -/

theorem length_le_of_nodup_lt {l : List Nat} {n : Nat} (hn : l.Nodup)
    (hb : ∀ x ∈ l, x < n) : l.length ≤ n := by
  classical
  have h1 : l.toFinset.card = l.length := List.toFinset_card_of_nodup hn
  have h2 : l.toFinset ⊆ Finset.range n := by
    intro x hx
    simp only [List.mem_toFinset] at hx
    simpa using hb x hx
  calc l.length = l.toFinset.card := h1.symm
    _ ≤ (Finset.range n).card := Finset.card_le_card h2
    _ = n := Finset.card_range n

theorem takeWhile_append_of_all {α : Type} {p : α → Bool} {A B : List α}
    (hA : ∀ x ∈ A, p x = true) (hB : ∀ x ∈ B, p x = false) :
    (A ++ B).takeWhile p = A ∧ (A ++ B).dropWhile p = B := by
  induction A with
  | nil =>
    simp only [List.nil_append]
    constructor
    · cases B with
      | nil => rfl
      | cons b bs =>
        simp [List.takeWhile_cons, hB b (List.mem_cons_self b bs)]
    · cases B with
      | nil => rfl
      | cons b bs =>
        simp [List.dropWhile_cons, hB b (List.mem_cons_self b bs)]
  | cons a as ih =>
    have ha : p a = true := hA a (List.mem_cons_self a as)
    have ih2 := ih (fun x hx => hA x (List.mem_cons_of_mem a hx))
    simp [List.takeWhile_cons, List.dropWhile_cons, ha, ih2.1, ih2.2]

theorem mem_takeWhile_pred {α : Type} {p : α → Bool} :
    ∀ {l : List α} {x : α}, x ∈ l.takeWhile p → p x = true := by
  intro l
  induction l with
  | nil => intro x hx; simp [List.takeWhile] at hx
  | cons a as ih =>
    intro x hx
    by_cases ha : p a = true
    · rw [List.takeWhile_cons, if_pos ha] at hx
      rcases List.mem_cons.mp hx with h | h
      · exact h ▸ ha
      · exact ih h
    · rw [List.takeWhile_cons, if_neg ha] at hx
      simp at hx

theorem getLast?_cons_ne_nil {α : Type} {a : α} {l : List α} (h : l ≠ []) :
    (a :: l).getLast? = l.getLast? := by
  cases l with
  | nil => exact absurd rfl h
  | cons b bs => exact List.getLast?_cons_cons

theorem getLastD_append_right {α : Type} (A B : List α) (d : α) :
    (A ++ B).getLastD d = B.getLastD (A.getLastD d) := by
  induction A generalizing d with
  | nil => rfl
  | cons a as ih =>
    rw [List.cons_append, List.getLastD_cons, ih, List.getLastD_cons]

theorem getLast?_of_filter {α : Type} {p : α → Bool} {l : List α} {e : α}
    (hl : l.getLast? = some e) (hp : p e = true) :
    (l.filter p).getLast? = some e := by
  rw [List.getLast?_eq_head?_reverse] at hl ⊢
  rw [← List.filter_reverse]
  cases hrev : l.reverse with
  | nil => rw [hrev] at hl; simp at hl
  | cons a t =>
    rw [hrev] at hl
    simp only [List.head?_cons, Option.some_inj] at hl
    subst hl
    simp [List.filter_cons, hp]

theorem head?_filter_split {α : Type} {p : α → Bool} :
    ∀ {r : List α} {e : α}, (r.filter p).head? = some e →
      ∃ r1 r2, r = r1 ++ e :: r2 ∧ r1.filter p = [] := by
  intro r
  induction r with
  | nil => intro e he; simp at he
  | cons a t ih =>
    intro e he
    rw [List.filter_cons] at he
    by_cases ha : p a = true
    · rw [if_pos ha] at he
      simp only [List.head?_cons, Option.some_inj] at he
      subst he
      exact ⟨[], t, by simp, by simp⟩
    · rw [if_neg ha] at he
      obtain ⟨r1, r2, h1, h2⟩ := ih he
      exact ⟨a :: r1, r2, by rw [h1, List.cons_append],
        by simp [List.filter_cons, ha, h2]⟩

theorem filter_getLast?_split {α : Type} {p : α → Bool} {l : List α} {e : α}
    (hl : (l.filter p).getLast? = some e) :
    ∃ l1 l2, l = l1 ++ e :: l2 ∧ l2.filter p = [] := by
  rw [List.getLast?_eq_head?_reverse, ← List.filter_reverse] at hl
  obtain ⟨r1, r2, h1, h2⟩ := head?_filter_split hl
  refine ⟨r2.reverse, r1.reverse, ?_, ?_⟩
  · have h3 := congrArg List.reverse h1
    simpa using h3
  · rw [List.filter_reverse, h2, List.reverse_nil]

theorem pairwise_dropWhile_not_lt {ms : List (Ent K V)} {key : K}
    (hs : ms.Pairwise (fun d e => d.key < e.key)) :
    ∀ e ∈ keyGeDrop ms key, (decide (e.key < key)) = false := by
  induction ms with
  | nil => intro e he; simp [keyGeDrop] at he
  | cons a as ih =>
    intro e he
    rw [keyGeDrop, List.dropWhile_cons] at he
    by_cases ha : a.key < key
    · rw [if_pos (by simpa using ha)] at he
      exact ih hs.of_cons e he
    · rw [if_neg (by simpa using ha)] at he
      rcases List.mem_cons.mp he with h | h
      · subst h; simpa using ha
      · have hak := (List.pairwise_cons.mp hs).1 e h
        have hka : key ≤ a.key := not_lt.mp ha
        simp only [decide_eq_false_iff_not, not_lt]
        exact le_of_lt (lt_of_le_of_lt hka hak)

theorem IsChain.entOk {h : Heap K V} {i : Nat} {p : Ptr} {l : List (Ent K V)}
    (hc : IsChain h i p l) : ∀ e ∈ l, EntOk h e := by
  induction hc with
  | nil => intro e he; simp at he
  | cons hn hlen hget _ ih =>
    intro e2 he2
    rcases List.mem_cons.mp he2 with h2 | h2
    · subst h2; exact ⟨_, hn, hlen⟩
    · exact ih e2 h2

theorem IsChain.append_split {h : Heap K V} {i : Nat} :
    ∀ {l1 l2 : List (Ent K V)} {p : Ptr}, IsChain h i p (l1 ++ l2) →
      ∃ q, IsChain h i q l2 ∧
        ((l1 = [] ∧ q = p) ∨
          ∃ e fw, l1.getLast? = some e ∧
            h e.addr = some { key := e.key, value := e.value, forward := fw, nodeLevel := e.lvl } ∧
            fw.length = e.lvl + 1 ∧ fw.get? i = some q) := by
  intro l1
  induction l1 with
  | nil =>
    intro l2 p hc
    exact ⟨p, by simpa using hc, Or.inl ⟨rfl, rfl⟩⟩
  | cons a as ih =>
    intro l2 p hc
    rw [List.cons_append] at hc
    cases hc with
    | cons hn hlen hget htail =>
      obtain ⟨q, hq, hpos⟩ := ih htail
      refine ⟨q, hq, Or.inr ?_⟩
      rcases hpos with ⟨has, hqp⟩ | ⟨e, fw, hlast, he1, he2, he3⟩
      · subst has
        subst hqp
        exact ⟨a, _, by simp, hn, hlen, hget⟩
      · refine ⟨e, fw, ?_, he1, he2, he3⟩
        have hne : as ≠ [] := by
          intro hnil
          rw [hnil] at hlast
          simp at hlast
        rw [getLast?_cons_ne_nil hne]
        exact hlast

theorem IsChain.congr {h h2 : Heap K V} {i : Nat} {p : Ptr} {l : List (Ent K V)}
    (hc : IsChain h i p l)
    (hagree : ∀ e ∈ l, ∀ n, h e.addr = some n →
      ∃ n2, h2 e.addr = some n2 ∧ n2.key = n.key ∧ n2.value = n.value ∧
        n2.nodeLevel = n.nodeLevel ∧ n2.forward.length = n.forward.length ∧
        n2.forward.get? i = n.forward.get? i) :
    IsChain h2 i p l := by
  induction hc with
  | nil => exact IsChain.nil
  | @cons e fw p' l' hn hlen hget htail ih =>
    obtain ⟨n2, hn2, hk, hv, hl, hflen, hfget⟩ := hagree e (List.mem_cons_self e l') _ hn
    have hn2eq : h2 e.addr = some (HNode.mk e.key e.value n2.forward e.lvl) := by
      rw [hn2]
      congr 1
      cases n2
      simp_all
    exact IsChain.cons hn2eq (by rw [hflen]; exact hlen) (by rw [hfget]; exact hget)
      (ih (fun e2 he2 => hagree e2 (List.mem_cons_of_mem e he2)))

theorem addrsOf_cons_getLastD (e : Ent K V) (l : List (Ent K V)) (d : Nat) :
    (addrsOf (e :: l)).getLastD d = (addrsOf l).getLastD e.addr := by
  show (List.map Ent.addr (e :: l)).getLastD d = _
  rw [List.map_cons, List.getLastD_cons]
  rfl

theorem advanceGo_spec {S : SL K V} (key : K) {i : Nat} :
    ∀ {es : List (Ent K V)} {a : Nat} {na : HNode K V} {p : Ptr} {fuel : Nat},
      S.heap a = some na → na.forward.get? i = some p →
      IsChain S.heap i p es → es.length < fuel →
      ∃ (a2 : Nat) (n2 : HNode K V) (p2 : Ptr),
        advanceGo S key i a fuel = some a2 ∧
        a2 = (addrsOf (es.takeWhile (fun e => decide (e.key < key)))).getLastD a ∧
        S.heap a2 = some n2 ∧ n2.forward.get? i = some p2 ∧
        IsChain S.heap i p2 (es.dropWhile (fun e => decide (e.key < key))) := by
  intro es
  induction es with
  | nil =>
    intro a na p fuel hna hfp hch hfuel
    cases hch
    cases fuel with
    | zero => simp at hfuel
    | succ fuel2 =>
      refine ⟨a, na, Ptr.null, ?_, by simp [addrsOf], hna, hfp, IsChain.nil⟩
      simp only [advanceGo, hna, hfp]
  | cons e rest ih =>
    intro a na p fuel hna hfp hch hfuel
    cases hch with
    | cons hne hlen hget htail =>
      cases fuel with
      | zero => simp at hfuel
      | succ fuel2 =>
      by_cases hlt : e.key < key
      · obtain ⟨a2, n2, p2, hrun, ha2, hn2, hp2, hch2⟩ :=
          ih hne hget htail (by simpa using Nat.lt_of_succ_lt_succ hfuel)
        refine ⟨a2, n2, p2, ?_, ?_, hn2, hp2, ?_⟩
        · simp only [advanceGo, hna, hfp, hne]
          rw [if_pos hlt]
          exact hrun
        · rw [List.takeWhile_cons, if_pos (by simpa using hlt), addrsOf_cons_getLastD]
          exact ha2
        · rw [List.dropWhile_cons, if_pos (by simpa using hlt)]
          exact hch2
      · refine ⟨a, na, Ptr.addr e.addr, ?_, ?_, hna, hfp, ?_⟩
        · simp only [advanceGo, hna, hfp, hne]
          rw [if_neg hlt]
        · rw [List.takeWhile_cons, if_neg (by simpa using hlt)]
          simp [addrsOf]
        · rw [List.dropWhile_cons, if_neg (by simpa using hlt)]
          exact IsChain.cons hne hlen hget htail

theorem levelKeep_append (i : Nat) (A B : List (Ent K V)) :
    levelKeep i (A ++ B) = levelKeep i A ++ levelKeep i B :=
  List.filter_append A B

theorem levelKeep_zero (l : List (Ent K V)) : levelKeep 0 l = l :=
  List.filter_eq_self.mpr (fun e _ => by simp)

theorem levelKeep_nil_of_lt {l : List (Ent K V)} {L i : Nat}
    (hl : ∀ e : Ent K V, e ∈ l → e.lvl ≤ L) (hi : L < i) : levelKeep i l = [] :=
  List.filter_eq_nil_iff.mpr (fun e he => by
    have := hl e he
    simp only [decide_eq_true_eq]
    omega)

theorem mem_levelKeep {l : List (Ent K V)} {i : Nat} {e : Ent K V}
    (he : e ∈ levelKeep i l) : e ∈ l ∧ i ≤ e.lvl := by
  have := List.mem_filter.mp he
  exact ⟨this.1, by simpa using this.2⟩

theorem levelKeep_mem_of {l : List (Ent K V)} {i : Nat} {e : Ent K V}
    (he : e ∈ l) (hi : i ≤ e.lvl) : e ∈ levelKeep i l :=
  List.mem_filter.mpr ⟨he, by simpa using hi⟩

theorem keyLt_of_mem_keyLtTake {ms : List (Ent K V)} {key : K} {e : Ent K V}
    (he : e ∈ keyLtTake ms key) : e.key < key := by
  have := mem_takeWhile_pred (p := fun e : Ent K V => decide (e.key < key)) he
  simpa using this

theorem ms_eq_take_append_drop (ms : List (Ent K V)) (key : K) :
    ms = keyLtTake ms key ++ keyGeDrop ms key :=
  (List.takeWhile_append_dropWhile _ _).symm

/-- Full fuel bound: a chain drawn from distinct allocated addresses is
shorter than the search fuel. -/
theorem wf_ms_length_lt {S : SL K V} {ms : List (Ent K V)} (hwf : Wf S ms) :
    ms.length < searchFuel S := by
  have h1 : (addrsOf ms).length ≤ S.next :=
    length_le_of_nodup_lt hwf.nodup hwf.bounded
  have h2 : (addrsOf ms).length = ms.length := List.length_map ms Ent.addr
  have : ms.length ≤ S.next := h2 ▸ h1
  simp only [searchFuel]
  omega

/-- The result of one level of the descending search: starting from a
position satisfying the `PredSplit` invariant for level `i + 1`, the
advance at level `i` succeeds, lands on `searchPred ... i`, re-establishes
the invariant at level `i`, and stands immediately before the level-`i`
chain of the at-or-above-key suffix. -/
theorem advance_level {S : SL K V} {ms : List (Ent K V)} (hwf : Wf S ms)
    (key : K) {i : Nat} (hi : i ≤ S.maxLevel) {a : Nat}
    (hsp : PredSplit S ms key (i + 1) a) :
    ∃ (a2 : Nat) (n2 : HNode K V) (p2 : Ptr),
      advanceGo S key i a (searchFuel S) = some a2 ∧
      a2 = searchPred S ms key i ∧
      PredSplit S ms key i a2 ∧
      S.heap a2 = some n2 ∧ n2.forward.get? i = some p2 ∧
      IsChain S.heap i p2 (levelKeep i (keyGeDrop ms key)) := by
  classical
  obtain ⟨preA, preB, hsplit, hB, hpos⟩ := hsp
  obtain ⟨hn, p0, hheap, hget0, hchain⟩ := hwf.chains i hi
  -- decompose the full level-i chain
  have hms : ms = preA ++ preB ++ keyGeDrop ms key := by
    have := ms_eq_take_append_drop ms key
    rw [hsplit] at this
    simpa [List.append_assoc] using this
  have hLK : levelKeep i ms =
      levelKeep i preA ++ (levelKeep i preB ++ levelKeep i (keyGeDrop ms key)) := by
    conv_lhs => rw [hms]
    rw [levelKeep_append, levelKeep_append, List.append_assoc]
  rw [hLK] at hchain
  obtain ⟨q, hq, hqpos⟩ := IsChain.append_split hchain
  -- the entering position carries a node whose level-i link heads the rest
  have hstart : ∃ na : HNode K V, S.heap a = some na ∧ na.forward.get? i = some q := by
    rcases hpos with ⟨rfl, rfl⟩ | ⟨e, hlast, rfl, hlvl⟩
    · rcases hqpos with ⟨_, rfl⟩ | ⟨e, fw, hlast, _, _, _⟩
      · exact ⟨hn, hheap, hget0⟩
      · simp [levelKeep] at hlast
    · have hlastf : (levelKeep i preA).getLast? = some e :=
        getLast?_of_filter hlast (by simpa using le_trans (Nat.le_succ i) hlvl)
      rcases hqpos with ⟨hnil, rfl⟩ | ⟨f, fw, hlastg, hfheap, hflen, hfget⟩
      · rw [hnil] at hlastf; simp at hlastf
      · rw [hlastg] at hlastf
        obtain rfl : f = e := by injection hlastf
        exact ⟨_, hfheap, hfget⟩
  obtain ⟨na, hna, hnaq⟩ := hstart
  -- fuel
  have hlen : (levelKeep i preB ++ levelKeep i (keyGeDrop ms key)).length < searchFuel S := by
    have h1 : (levelKeep i preB).length ≤ preB.length := List.length_filter_le _ _
    have h2 : (levelKeep i (keyGeDrop ms key)).length ≤ (keyGeDrop ms key).length :=
      List.length_filter_le _ _
    have h3 : ms.length = preA.length + (preB.length + (keyGeDrop ms key).length) := by
      have := congrArg List.length hms
      simpa [List.length_append] using this
    have h4 := wf_ms_length_lt hwf
    rw [List.length_append]
    omega
  obtain ⟨a2, n2, p2, hrun, ha2, hn2, hp2, hch2⟩ :=
    advanceGo_spec key hna hnaq hq hlen
  -- identify the takeWhile and dropWhile parts
  have htw := takeWhile_append_of_all (p := fun e => decide (e.key < key))
    (A := levelKeep i preB) (B := levelKeep i (keyGeDrop ms key))
    (fun x hx => by
      have hx2 := (mem_levelKeep hx).1
      have : x ∈ keyLtTake ms key := by
        rw [hsplit]
        exact List.mem_append_right _ hx2
      simpa using keyLt_of_mem_keyLtTake this)
    (fun x hx => pairwise_dropWhile_not_lt hwf.sorted x (mem_levelKeep hx).1)
  rw [htw.1] at ha2
  rw [htw.2] at hch2
  -- the landing point is searchPred i
  have hpredA : (addrsOf (levelKeep i preA)).getLastD S.header = a := by
    rcases hpos with ⟨rfl, rfl⟩ | ⟨e, hlast, rfl, hlvl⟩
    · simp [levelKeep, addrsOf]
    · have hlastf : (levelKeep i preA).getLast? = some e :=
        getLast?_of_filter hlast (by simpa using le_trans (Nat.le_succ i) hlvl)
      rw [List.getLastD_eq_getLast?, addrsOf, List.getLast?_map, hlastf]
      rfl
  have hsp2 : a2 = searchPred S ms key i := by
    rw [searchPred, hsplit, levelKeep_append, addrsOf, List.map_append,
      getLastD_append_right]
    rw [ha2]
    congr 1
    exact hpredA.symm
  -- re-establish the invariant at level i
  have hinv : PredSplit S ms key i a2 := by
    cases hkb : levelKeep i preB with
    | nil =>
      rw [hkb] at ha2
      simp only [addrsOf, List.map_nil, List.getLastD_nil] at ha2
      refine ⟨preA, preB, hsplit, hkb, ?_⟩
      rcases hpos with ⟨h1, h2⟩ | ⟨e, hlast, he, hlvl⟩
      · exact Or.inl ⟨ha2 ▸ h1, h2⟩
      · exact Or.inr ⟨e, hlast, by rw [ha2, he], le_trans (Nat.le_succ i) hlvl⟩
    | cons f fs =>
      have hne : levelKeep i preB ≠ [] := by rw [hkb]; simp
      obtain ⟨g, hg⟩ := Option.isSome_iff_exists.mp (List.getLast?_isSome.mpr hne)
      have hmem := mem_levelKeep (List.mem_of_mem_getLast? hg)
      obtain ⟨pb1, pb2, hpb, hpb2⟩ := filter_getLast?_split (l := preB) hg
      have ha2g : a2 = g.addr := by
        rw [ha2, List.getLastD_eq_getLast?, addrsOf, List.getLast?_map, hg]
        rfl
      refine ⟨preA ++ pb1 ++ [g], pb2, ?_, hpb2, Or.inr ⟨g, ?_, ha2g.symm, hmem.2⟩⟩
      · rw [hsplit, hpb]
        simp [List.append_assoc]
      · rw [List.append_assoc, List.getLast?_append_of_ne_nil _ (by simp)]
        simp
  exact ⟨a2, n2, p2, hrun, hsp2, hinv, hn2, hp2, hch2⟩

/-- The descending search: from any level `i ≤ skip_list_level_` and a
position satisfying the invariant, it lands on the level-0 predecessor and
fills `update[j]` with the level-`j` predecessor for every `j ≤ i`. -/
theorem searchGo_spec {S : SL K V} {ms : List (Ent K V)} (hwf : Wf S ms) (key : K) :
    ∀ (i : Nat), i ≤ S.level → ∀ (a : Nat) (upd : Nat → Ptr),
      PredSplit S ms key (i + 1) a →
      ∃ (upd2 : Nat → Ptr) (n2 : HNode K V) (p2 : Ptr),
        searchGo S key i a upd = some (searchPred S ms key 0, upd2) ∧
        S.heap (searchPred S ms key 0) = some n2 ∧
        n2.forward.get? 0 = some p2 ∧
        IsChain S.heap 0 p2 (keyGeDrop ms key) ∧
        ∀ j, upd2 j = if j ≤ i then Ptr.addr (searchPred S ms key j) else upd j := by
  intro i
  induction i with
  | zero =>
    intro _ a upd hsp
    obtain ⟨a2, n2, p2, hrun, ha2, hinv, hn2, hp2, hch2⟩ :=
      advance_level hwf key (Nat.zero_le _) hsp
    subst ha2
    rw [levelKeep_zero] at hch2
    refine ⟨fun j => if j = 0 then Ptr.addr (searchPred S ms key 0) else upd j,
      n2, p2, ?_, hn2, hp2, hch2, ?_⟩
    · simp only [searchGo, hrun, Option.map_some]
      rfl
    · intro j
      by_cases hj : j = 0
      · subst hj
        simp
      · show (if j = 0 then Ptr.addr (searchPred S ms key 0) else upd j) = _
        rw [if_neg hj, if_neg (by omega)]
  | succ i ih =>
    intro hle a upd hsp
    obtain ⟨a2, n2, p2, hrun, ha2, hinv, hn2, hp2, hch2⟩ :=
      advance_level hwf key (le_trans hle hwf.lvl_le) hsp
    obtain ⟨upd2, n3, p3, hrun2, h1, h2, h3, h4⟩ :=
      ih (le_trans (Nat.le_succ i) hle)
        a2 (fun j => if j = i + 1 then Ptr.addr a2 else upd j) hinv
    refine ⟨upd2, n3, p3, ?_, h1, h2, h3, ?_⟩
    · simp only [searchGo, hrun]
      exact hrun2
    · intro j
      rw [h4 j]
      by_cases hji : j ≤ i
      · rw [if_pos hji, if_pos (by omega)]
      · rw [if_neg hji]
        by_cases hj1 : j = i + 1
        · subst hj1
          simp [ha2]
        · rw [if_neg hj1, if_neg (by omega)]

/-- The complete search as `put` and `remove` run it (from
`skip_list_level_` down, starting at the header, update memset to null). -/
theorem search_full {S : SL K V} {ms : List (Ent K V)} (hwf : Wf S ms) (key : K) :
    ∃ (upd2 : Nat → Ptr) (n2 : HNode K V) (p2 : Ptr),
      searchGo S key S.level S.header updInit = some (searchPred S ms key 0, upd2) ∧
      S.heap (searchPred S ms key 0) = some n2 ∧
      n2.forward.get? 0 = some p2 ∧
      IsChain S.heap 0 p2 (keyGeDrop ms key) ∧
      ∀ j, upd2 j = if j ≤ S.level then Ptr.addr (searchPred S ms key j) else Ptr.null := by
  have hsp : PredSplit S ms key (S.level + 1) S.header := by
    refine ⟨[], keyLtTake ms key, by simp, ?_, Or.inl ⟨rfl, rfl⟩⟩
    refine levelKeep_nil_of_lt (fun e he => ?_) (Nat.lt_succ_self S.level)
    exact hwf.lvls_le e ((List.takeWhile_sublist _).subset he)
  obtain ⟨upd2, n2, p2, hrun, h1, h2, h3, h4⟩ :=
    searchGo_spec hwf key S.level le_rfl S.header updInit hsp
  exact ⟨upd2, n2, p2, hrun, h1, h2, h3, fun j => by rw [h4 j]; rfl⟩

/-- `get`'s loop is the common search without the update array. -/
theorem getGo_eq_searchGo {S : SL K V} {key : K} :
    ∀ (i a : Nat) (upd : Nat → Ptr),
      getGo S key i a = (searchGo S key i a upd).map Prod.fst := by
  intro i
  induction i with
  | zero =>
    intro a upd
    simp only [getGo, searchGo]
    cases advanceGo S key 0 a (searchFuel S) <;> simp
  | succ i ih =>
    intro a upd
    simp only [getGo, searchGo]
    cases advanceGo S key (i + 1) a (searchFuel S) with
    | none => rfl
    | some a2 => exact ih a2 _

/-- `assocFind` reads off the head of the at-or-above-key suffix. -/
theorem assocFind_eq_drop_head {ms : List (Ent K V)} {key : K}
    (hs : ms.Pairwise (fun d e => d.key < e.key)) :
    assocFind ms key =
      match keyGeDrop ms key with
      | [] => none
      | e :: _ => if e.key = key then some e.value else none := by
  classical
  have hsplit := ms_eq_take_append_drop ms key
  rw [assocFind]
  conv_lhs => rw [hsplit]
  rw [List.find?_append]
  have htake : (keyLtTake ms key).find? (fun e => decide (e.key = key)) = none := by
    rw [List.find?_eq_none]
    intro x hx
    have := keyLt_of_mem_keyLtTake hx
    simp only [decide_eq_true_eq]
    exact ne_of_lt this
  rw [htake, Option.none_or]
  cases hd : keyGeDrop ms key with
  | nil => simp
  | cons e rest =>
    show Option.map Ent.value (List.find? (fun x => decide (x.key = key)) (e :: rest)) =
      if e.key = key then some e.value else none
    by_cases hk : e.key = key
    · rw [List.find?_cons_of_pos _ (by simpa using hk), if_pos hk]
      rfl
    · rw [List.find?_cons_of_neg _ (by simpa using hk), if_neg hk]
      have hgt : key < e.key := by
        have h1 : (decide (e.key < key)) = false := by
          refine pairwise_dropWhile_not_lt hs e ?_
          rw [hd]
          exact List.mem_cons_self e rest
        have h2 : ¬ e.key < key := by simpa using h1
        rcases lt_trichotomy e.key key with h | h | h
        · exact absurd h h2
        · exact absurd h hk
        · exact h
      have hnone : List.find? (fun x => decide (x.key = key)) rest = none := by
        rw [List.find?_eq_none]
        intro x hx
        have hdp : (keyGeDrop ms key).Pairwise (fun d e => d.key < e.key) :=
          hs.sublist (List.dropWhile_sublist _)
        rw [hd] at hdp
        have hex : e.key < x.key := (List.pairwise_cons.mp hdp).1 x hx
        simp only [decide_eq_true_eq]
        intro hxk
        rw [hxk] at hex
        exact absurd hex (not_lt.mpr (le_of_lt hgt))
      rw [hnone]
      rfl

/-- `get(key)` returns exactly the association of the abstract chain:
the value of the key when present, absent otherwise. -/
theorem get_spec {S : SL K V} {ms : List (Ent K V)} (hwf : Wf S ms) (key : K) :
    get S key = some (assocFind ms key) := by
  classical
  obtain ⟨upd2, n2, p2, hrun, h1, h2, h3, _⟩ := search_full hwf key
  have hgo : getGo S key S.level S.header = some (searchPred S ms key 0) := by
    rw [getGo_eq_searchGo S.level S.header updInit, hrun]
    rfl
  rw [assocFind_eq_drop_head hwf.sorted]
  cases hd : keyGeDrop ms key with
  | nil =>
    rw [hd] at h3
    cases h3
    simp only [get, hgo, h1, h2]
  | cons e rest =>
    rw [hd] at h3
    cases h3 with
    | cons hne hlen hget htail =>
      simp only [get, hgo, h1, h2, hne]
      by_cases hk : e.key = key
      · rw [if_pos hk, if_pos hk]
      · rw [if_neg hk, if_neg hk]

theorem heapWrite_self {h : Heap K V} {a : Nat} {n : Option (HNode K V)} :
    heapWrite h a n a = n := by
  simp [heapWrite]

theorem heapWrite_ne {h : Heap K V} {a b : Nat} {n : Option (HNode K V)}
    (hb : b ≠ a) : heapWrite h a n b = h b := by
  simp [heapWrite, hb]

theorem get_random_level_go_le (flips : Nat → Bool) :
    ∀ (rem k p : Nat), (get_random_level_go flips k p rem).1 ≤ k + rem := by
  intro rem
  induction rem with
  | zero => intro k p; simp [get_random_level_go]
  | succ rem ih =>
    intro k p
    simp only [get_random_level_go]
    by_cases hf : flips p
    · rw [if_pos hf]
      have := ih (k + 1) (p + 1)
      omega
    · rw [if_neg hf]
      simp

theorem get_random_level_le (S : SL K V) : (get_random_level S).1 ≤ S.maxLevel := by
  have := get_random_level_go_le S.flips S.maxLevel 0 S.fpos
  simpa [get_random_level] using this

/-- `get_random_level` changes only the stream cursor. -/
theorem get_random_level_state (S : SL K V) :
    (get_random_level S).2.maxLevel = S.maxLevel ∧
    (get_random_level S).2.level = S.level ∧
    (get_random_level S).2.header = S.header ∧
    (get_random_level S).2.count = S.count ∧
    (get_random_level S).2.heap = S.heap ∧
    (get_random_level S).2.next = S.next ∧
    (get_random_level S).2.flips = S.flips := by
  simp [get_random_level]

theorem searchPred_mem (S : SL K V) (ms : List (Ent K V)) (key : K) (j : Nat) :
    searchPred S ms key j = S.header ∨ searchPred S ms key j ∈ addrsOf ms := by
  cases hL : (levelKeep j (keyLtTake ms key)).getLast? with
  | none =>
    left
    rw [searchPred, List.getLastD_eq_getLast?, addrsOf, List.getLast?_map, hL]
    rfl
  | some f =>
    right
    have hf := mem_levelKeep (List.mem_of_mem_getLast? hL)
    have hmem : f ∈ ms := (List.takeWhile_sublist _).subset hf.1
    have : searchPred S ms key j = f.addr := by
      rw [searchPred, List.getLastD_eq_getLast?, addrsOf, List.getLast?_map, hL]
      rfl
    rw [this]
    exact List.mem_map_of_mem Ent.addr hmem

theorem searchPred_lt_next {S : SL K V} {ms : List (Ent K V)} (hwf : Wf S ms)
    (key : K) (j : Nat) : searchPred S ms key j < S.next := by
  rcases searchPred_mem S ms key j with h | h
  · rw [h]; exact hwf.hdr_lt
  · exact hwf.bounded _ h

/-- The search predecessor of each level satisfies the position invariant
at its own level. -/
theorem predSplit_searchPred {S : SL K V} {ms : List (Ent K V)} (key : K) (i : Nat) :
    PredSplit S ms key i (searchPred S ms key i) := by
  cases hL : (levelKeep i (keyLtTake ms key)).getLast? with
  | none =>
    have hnil : levelKeep i (keyLtTake ms key) = [] := by
      cases h : levelKeep i (keyLtTake ms key) with
      | nil => rfl
      | cons a l =>
        rw [h] at hL
        have h2 : (a :: l).getLast?.isSome = true := List.getLast?_isSome.mpr (by simp)
        rw [hL] at h2
        simp at h2
    have hsp : searchPred S ms key i = S.header := by
      rw [searchPred, hnil]
      rfl
    exact ⟨[], keyLtTake ms key, by simp, hnil, Or.inl ⟨hsp, rfl⟩⟩
  | some f =>
    have hL2 : (List.filter (fun e => decide (i ≤ e.lvl)) (keyLtTake ms key)).getLast?
        = some f := hL
    obtain ⟨l1, l2, hsplit, hl2⟩ := filter_getLast?_split hL2
    have hf := mem_levelKeep (List.mem_of_mem_getLast? hL)
    have haddr : searchPred S ms key i = f.addr := by
      rw [searchPred, List.getLastD_eq_getLast?, addrsOf, List.getLast?_map, hL]
      rfl
    refine ⟨l1 ++ [f], l2, by rw [hsplit]; simp, hl2,
      Or.inr ⟨f, ?_, haddr.symm, hf.2⟩⟩
    rw [List.getLast?_concat]

/-- For every level `j ≤ max_level_`: the level-`j` predecessor's node, its
level-`j` link, and the chain of at-or-above-key level-`j` entries it heads. -/
theorem searchPred_facts {S : SL K V} {ms : List (Ent K V)} (hwf : Wf S ms)
    (key : K) {j : Nat} (hj : j ≤ S.maxLevel) :
    ∃ (nj : HNode K V) (pj : Ptr),
      S.heap (searchPred S ms key j) = some nj ∧
      nj.forward.get? j = some pj ∧
      IsChain S.heap j pj (levelKeep j (keyGeDrop ms key)) := by
  obtain ⟨a2, n2, p2, _, ha2, _, hn2, hp2, hch2⟩ :=
    advance_level hwf key hj (predSplit_searchPred key (j + 1))
  exact ⟨n2, p2, ha2 ▸ hn2, hp2, hch2⟩

/-- The splice loop of `put`: starting from the heap holding the fresh node
at `w`, it terminates and produces the heap in which, at every level
`j ≤ nl`, the new node's link is the predecessor's old link and the
predecessor's link is the new node — all other cells and indices
untouched. -/
theorem spliceLoop_build (upd : Nat → Ptr) (w nl : Nat) (P : Nat → Nat)
    (F : Nat → Ptr) (h0 : Heap K V) (wn0 : HNode K V)
    (hupd : ∀ j, j ≤ nl → upd j = Ptr.addr (P j))
    (hPw : ∀ j, j ≤ nl → P j ≠ w)
    (hP : ∀ j, j ≤ nl → ∃ n, h0 (P j) = some n ∧ j < n.forward.length ∧
      n.forward.get? j = some (F j))
    (hw : h0 w = some wn0) (hwlen : wn0.forward.length = nl + 1) :
    ∃ h2, spliceLoop upd w 0 (nl + 1) h0 = some h2 ∧
      (∃ wn2 : HNode K V, h2 w = some wn2 ∧ wn2.key = wn0.key ∧
        wn2.value = wn0.value ∧ wn2.nodeLevel = wn0.nodeLevel ∧
        wn2.forward.length = nl + 1 ∧
        ∀ j, j ≤ nl → wn2.forward.get? j = some (F j)) ∧
      (∀ a, a ≠ w →
        (h0 a = none → h2 a = none) ∧
        (∀ n0 : HNode K V, h0 a = some n0 → ∃ n2, h2 a = some n2 ∧
          n2.key = n0.key ∧ n2.value = n0.value ∧ n2.nodeLevel = n0.nodeLevel ∧
          n2.forward.length = n0.forward.length ∧
          ∀ j, n2.forward.get? j =
            if j ≤ nl ∧ P j = a then some (Ptr.addr w) else n0.forward.get? j)) := by
  classical
  suffices hmain : ∀ (rem i : Nat), i + rem = nl + 1 → ∀ (h : Heap K V),
      (∃ wn2 : HNode K V, h w = some wn2 ∧ wn2.key = wn0.key ∧
        wn2.value = wn0.value ∧ wn2.nodeLevel = wn0.nodeLevel ∧
        wn2.forward.length = nl + 1 ∧
        (∀ j, j < i → wn2.forward.get? j = some (F j)) ∧
        (∀ j, i ≤ j → wn2.forward.get? j = wn0.forward.get? j)) →
      (∀ a, a ≠ w →
        (h0 a = none → h a = none) ∧
        (∀ n0 : HNode K V, h0 a = some n0 → ∃ n2, h a = some n2 ∧
          n2.key = n0.key ∧ n2.value = n0.value ∧ n2.nodeLevel = n0.nodeLevel ∧
          n2.forward.length = n0.forward.length ∧
          ∀ j, n2.forward.get? j =
            if j < i ∧ P j = a then some (Ptr.addr w) else n0.forward.get? j)) →
      ∃ h2, spliceLoop upd w i rem h = some h2 ∧
        (∃ wn2 : HNode K V, h2 w = some wn2 ∧ wn2.key = wn0.key ∧
          wn2.value = wn0.value ∧ wn2.nodeLevel = wn0.nodeLevel ∧
          wn2.forward.length = nl + 1 ∧
          ∀ j, j ≤ nl → wn2.forward.get? j = some (F j)) ∧
        (∀ a, a ≠ w →
          (h0 a = none → h2 a = none) ∧
          (∀ n0 : HNode K V, h0 a = some n0 → ∃ n2, h2 a = some n2 ∧
            n2.key = n0.key ∧ n2.value = n0.value ∧ n2.nodeLevel = n0.nodeLevel ∧
            n2.forward.length = n0.forward.length ∧
            ∀ j, n2.forward.get? j =
              if j ≤ nl ∧ P j = a then some (Ptr.addr w) else n0.forward.get? j)) by
    refine hmain (nl + 1) 0 (by omega) h0 ⟨wn0, hw, rfl, rfl, rfl, hwlen, ?_, ?_⟩ ?_
    · intro j hj; omega
    · intro j hj; rfl
    · intro a ha
      refine ⟨fun h => h, fun n0 hn0 => ⟨n0, hn0, rfl, rfl, rfl, rfl, ?_⟩⟩
      intro j
      rw [if_neg (by omega)]
  intro rem
  induction rem with
  | zero =>
    intro i hi h hWn hOther
    obtain ⟨wn2, h1, h2, h3, h4, h5, h6, _⟩ := hWn
    refine ⟨h, rfl, ⟨wn2, h1, h2, h3, h4, h5, fun j hj => h6 j (by omega)⟩, ?_⟩
    intro a ha
    obtain ⟨hnone, hsome⟩ := hOther a ha
    refine ⟨hnone, fun n0 hn0 => ?_⟩
    obtain ⟨n2, g1, g2, g3, g4, g5, g6⟩ := hsome n0 hn0
    refine ⟨n2, g1, g2, g3, g4, g5, fun j => ?_⟩
    rw [g6 j]
    by_cases hc : j ≤ nl ∧ P j = a
    · rw [if_pos hc, if_pos ⟨by omega, hc.2⟩]
    · rw [if_neg hc]
      by_cases hc2 : j < i ∧ P j = a
      · exact absurd ⟨by omega, hc2.2⟩ hc
      · rw [if_neg hc2]
  | succ rem ih =>
    intro i hi h hWn hOther
    have hile : i ≤ nl := by omega
    obtain ⟨wn2, hw2, hk2, hv2, hl2, hlen2, hlo, hhi⟩ := hWn
    obtain ⟨n0, hn0, hn0len, hn0get⟩ := hP i hile
    have hPine : P i ≠ w := hPw i hile
    obtain ⟨hnoneP, hsomeP⟩ := hOther (P i) hPine
    obtain ⟨un, hun, huk, huv, hul, hulen, hufwd⟩ := hsomeP n0 hn0
    have hunget : un.forward.get? i = some (F i) := by
      rw [hufwd i, if_neg (by omega)]
      exact hn0get
    have hiwlen : i < wn2.forward.length := by omega
    have hiulen : i < un.forward.length := by omega
    have hstep : spliceStep upd w h i = some
        (heapWrite (heapWrite h w (some { wn2 with forward := wn2.forward.set i (F i) }))
          (P i) (some { un with forward := un.forward.set i (Ptr.addr w) })) := by
      simp only [spliceStep, hupd i hile, hun, hunget, hw2, setForward,
        if_pos hiwlen, heapWrite_ne hPine, if_pos hiulen]
    have hrun : spliceLoop upd w i (rem + 1) h =
        spliceLoop upd w (i + 1) rem
          (heapWrite (heapWrite h w (some { wn2 with forward := wn2.forward.set i (F i) }))
            (P i) (some { un with forward := un.forward.set i (Ptr.addr w) })) := by
      simp only [spliceLoop, hstep]
    set hNext := heapWrite (heapWrite h w (some { wn2 with forward := wn2.forward.set i (F i) }))
      (P i) (some { un with forward := un.forward.set i (Ptr.addr w) }) with hNdef
    have hInvW : ∃ wn3 : HNode K V, hNext w = some wn3 ∧ wn3.key = wn0.key ∧
        wn3.value = wn0.value ∧ wn3.nodeLevel = wn0.nodeLevel ∧
        wn3.forward.length = nl + 1 ∧
        (∀ j, j < i + 1 → wn3.forward.get? j = some (F j)) ∧
        (∀ j, i + 1 ≤ j → wn3.forward.get? j = wn0.forward.get? j) := by
      refine ⟨{ wn2 with forward := wn2.forward.set i (F i) }, ?_, hk2, hv2, hl2, ?_, ?_, ?_⟩
      · rw [hNdef, heapWrite_ne hPine.symm, heapWrite_self]
      · simp only [List.length_set]
        exact hlen2
      · intro j hj
        show (wn2.forward.set i (F i)).get? j = some (F j)
        by_cases hji : j = i
        · rw [hji]
          exact List.get?_set_eq_of_lt (F i) hiwlen
        · rw [List.get?_set_ne _ _ (fun hc => hji hc.symm)]
          exact hlo j (by omega)
      · intro j hj
        show (wn2.forward.set i (F i)).get? j = wn0.forward.get? j
        rw [List.get?_set_ne _ _ (by omega)]
        exact hhi j (by omega)
    have hInvO : ∀ a, a ≠ w →
        (h0 a = none → hNext a = none) ∧
        (∀ n0a : HNode K V, h0 a = some n0a → ∃ n2, hNext a = some n2 ∧
          n2.key = n0a.key ∧ n2.value = n0a.value ∧ n2.nodeLevel = n0a.nodeLevel ∧
          n2.forward.length = n0a.forward.length ∧
          ∀ j, n2.forward.get? j =
            if j < i + 1 ∧ P j = a then some (Ptr.addr w) else n0a.forward.get? j) := by
      intro a ha
      by_cases haP : a = P i
      · subst haP
        constructor
        · intro h0a
          rw [h0a] at hn0
          simp at hn0
        · intro n0a hn0a
          rw [hn0a] at hn0
          obtain rfl : n0a = n0 := by injection hn0
          refine ⟨{ un with forward := un.forward.set i (Ptr.addr w) }, ?_, huk, huv, hul, ?_, ?_⟩
          · rw [hNdef, heapWrite_self]
          · simp only [List.length_set]
            exact hulen
          · intro j
            show (un.forward.set i (Ptr.addr w)).get? j = _
            by_cases hji : j = i
            · rw [hji, List.get?_set_eq_of_lt _ hiulen,
                if_pos ⟨Nat.lt_succ_self i, rfl⟩]
            · rw [List.get?_set_ne _ _ (fun hc => hji hc.symm), hufwd j]
              by_cases hc : j < i ∧ P j = P i
              · rw [if_pos hc, if_pos ⟨by omega, hc.2⟩]
              · rw [if_neg hc]
                by_cases hc2 : j < i + 1 ∧ P j = P i
                · exact absurd ⟨by omega, hc2.2⟩ hc
                · rw [if_neg hc2]
      · have hkeep : hNext a = h a := by
          rw [hNdef, heapWrite_ne haP, heapWrite_ne ha]
        obtain ⟨hnone2, hsome2⟩ := hOther a ha
        constructor
        · intro h0a
          rw [hkeep]
          exact hnone2 h0a
        · intro n0a hn0a
          obtain ⟨n2, g1, g2, g3, g4, g5, g6⟩ := hsome2 n0a hn0a
          refine ⟨n2, by rw [hkeep]; exact g1, g2, g3, g4, g5, fun j => ?_⟩
          rw [g6 j]
          by_cases hc : j < i ∧ P j = a
          · rw [if_pos hc, if_pos ⟨by omega, hc.2⟩]
          · rw [if_neg hc]
            by_cases hc2 : j < i + 1 ∧ P j = a
            · have hji : j = i := by omega
              rw [hji] at hc2
              exact absurd hc2.2.symm haP
            · rw [if_neg hc2]
    obtain ⟨h2, hrun2, hfin1, hfin2⟩ := ih (i + 1) (by omega) hNext hInvW hInvO
    exact ⟨h2, by rw [hrun]; exact hrun2, hfin1, hfin2⟩

/-- Rebuilding a level-`i` chain whose prefix `X` is kept, with the link of
`X`'s last node (address `tA`) redirected to a pointer `q` that heads the
chain `Z` in the new heap; all other `X` nodes keep their level-`i` links. -/
theorem IsChain_prefix_redirect {h h2 : Heap K V} {i : Nat} (tA : Nat) {q : Ptr}
    {Z : List (Ent K V)} :
    ∀ {X Y : List (Ent K V)} {p : Ptr},
      IsChain h i p (X ++ Y) →
      IsChain h2 i q Z →
      (addrsOf X).Nodup →
      (∀ e : Ent K V, X.getLast? = some e → e.addr = tA) →
      (∀ e ∈ X, ∀ n0 : HNode K V, h e.addr = some n0 → ∃ n2, h2 e.addr = some n2 ∧
        n2.key = n0.key ∧ n2.value = n0.value ∧ n2.nodeLevel = n0.nodeLevel ∧
        n2.forward.length = n0.forward.length ∧
        n2.forward.get? i = (if e.addr = tA then some q else n0.forward.get? i)) →
      IsChain h2 i (if X.isEmpty then q else p) (X ++ Z) := by
  intro X
  induction X with
  | nil =>
    intro Y p _ hZ _ _ _
    simpa using hZ
  | cons x X ih =>
    intro Y p hch hZ hnd hlast hag
    rw [List.cons_append] at hch
    cases hch with
    | cons hn hlen hget htail =>
      obtain ⟨n2, hn2, hk, hv, hl, hflen, hfget⟩ := hag x (List.mem_cons_self x X) _ hn
      have hn2eq : h2 x.addr = some (HNode.mk x.key x.value n2.forward x.lvl) := by
        rw [hn2]
        congr 1
        cases n2
        simp_all
      have hlen2 : n2.forward.length = x.lvl + 1 := by
        rw [hflen]
        exact hlen
      cases X with
      | nil =>
        have hxt : x.addr = tA := hlast x rfl
        rw [if_pos hxt] at hfget
        show IsChain h2 i (Ptr.addr x.addr) ((x :: []) ++ Z)
        exact IsChain.cons hn2eq hlen2 hfget hZ
      | cons y X2 =>
        have hyt : x.addr ≠ tA := by
          have hlast2 : (y :: X2).getLast? = some ((y :: X2).getLast (by simp)) :=
            List.getLast?_eq_getLast _ (by simp)
          have htA : ((y :: X2).getLast (by simp)).addr = tA := by
            refine hlast _ ?_
            rw [List.getLast?_cons_cons]
            exact hlast2
          have hmem : ((y :: X2).getLast (by simp)) ∈ y :: X2 := List.getLast_mem _
          have hnout : x.addr ∉ addrsOf (y :: X2) := by
            have := hnd
            simp only [addrsOf, List.map_cons, List.nodup_cons] at this
            exact this.1
          intro hc
          refine hnout ?_
          rw [← htA] at hc
          rw [hc]
          exact List.mem_map_of_mem Ent.addr hmem
        rw [if_neg hyt] at hfget
        rw [hget] at hfget
        have hih := ih htail hZ (by
            have := hnd
            simp only [addrsOf, List.map_cons, List.nodup_cons] at this ⊢
            exact this.2)
          (fun e he => hlast e (by rw [List.getLast?_cons_cons]; exact he))
          (fun e he n0 hn0 => hag e (List.mem_cons_of_mem x he) n0 hn0)
        simp only [List.isEmpty_cons] at hih
        show IsChain h2 i (Ptr.addr x.addr) ((x :: y :: X2) ++ Z)
        exact IsChain.cons hn2eq hlen2 hfget hih

/-- All at-or-above-key entries are strictly above the key once the head is
not an exact match. -/
theorem suf_all_gt {ms : List (Ent K V)} {key : K}
    (hs : ms.Pairwise (fun d e => d.key < e.key))
    (hhead : ∀ e : Ent K V, (keyGeDrop ms key).head? = some e → e.key ≠ key) :
    ∀ e ∈ keyGeDrop ms key, key < e.key := by
  intro e he
  cases hd : keyGeDrop ms key with
  | nil => rw [hd] at he; simp at he
  | cons f rest =>
    have hf : ¬ f.key < key := by
      have := pairwise_dropWhile_not_lt hs f (by rw [hd]; exact List.mem_cons_self f rest)
      simpa using this
    have hfk : f.key ≠ key := hhead f (by rw [hd]; rfl)
    have hfgt : key < f.key := lt_of_le_of_ne (not_lt.mp hf) (Ne.symm hfk)
    rw [hd] at he
    rcases List.mem_cons.mp he with rfl | he2
    · exact hfgt
    · have hdp : (keyGeDrop ms key).Pairwise (fun d e => d.key < e.key) :=
        hs.sublist (List.dropWhile_sublist _)
      rw [hd] at hdp
      exact lt_trans hfgt ((List.pairwise_cons.mp hdp).1 e he2)

/-- The search predecessor is the header or a below-key entry's address. -/
theorem searchPred_mem_pre (S : SL K V) (ms : List (Ent K V)) (key : K) (j : Nat) :
    searchPred S ms key j = S.header ∨
      searchPred S ms key j ∈ addrsOf (levelKeep j (keyLtTake ms key)) := by
  cases hL : (levelKeep j (keyLtTake ms key)).getLast? with
  | none =>
    left
    rw [searchPred, List.getLastD_eq_getLast?, addrsOf, List.getLast?_map, hL]
    rfl
  | some f =>
    right
    have : searchPred S ms key j = f.addr := by
      rw [searchPred, List.getLastD_eq_getLast?, addrsOf, List.getLast?_map, hL]
      rfl
    rw [this]
    exact List.mem_map_of_mem Ent.addr (List.mem_of_mem_getLast? hL)

/-- Above the current top level the search predecessor is the header. -/
theorem searchPred_eq_header_of_gt {S : SL K V} {ms : List (Ent K V)}
    (hwf : Wf S ms) (key : K) {j : Nat} (hj : S.level < j) :
    searchPred S ms key j = S.header := by
  have hnil : levelKeep j (keyLtTake ms key) = [] :=
    levelKeep_nil_of_lt
      (fun e he => hwf.lvls_le e ((List.takeWhile_sublist _).subset he)) hj
  rw [searchPred, hnil]
  rfl

/-- The outcome of `put`'s search-and-test phase, by the shape of the
at-or-above-key suffix. -/
theorem put_dispatch_spec {S : SL K V} {ms : List (Ent K V)} (hwf : Wf S ms)
    (key : K) :
    ∃ upd2 : Nat → Ptr,
      (∀ j, upd2 j = if j ≤ S.level then Ptr.addr (searchPred S ms key j) else Ptr.null) ∧
      ((keyGeDrop ms key = [] ∧ put_dispatch S key = some (PutPath.insert upd2)) ∨
       (∃ (e : Ent K V) (rest : List (Ent K V)), keyGeDrop ms key = e :: rest ∧
         e.key = key ∧ put_dispatch S key = some (PutPath.update e.addr)) ∨
       (∃ (e : Ent K V) (rest : List (Ent K V)), keyGeDrop ms key = e :: rest ∧
         e.key ≠ key ∧ put_dispatch S key = some (PutPath.insert upd2))) := by
  classical
  obtain ⟨upd2, n2, p2, hrun, h1, h2, h3, h4⟩ := search_full hwf key
  refine ⟨upd2, h4, ?_⟩
  cases hd : keyGeDrop ms key with
  | nil =>
    rw [hd] at h3
    cases h3
    left
    refine ⟨rfl, ?_⟩
    simp only [put_dispatch, hrun, h1, h2]
  | cons e rest =>
    rw [hd] at h3
    cases h3 with
    | cons hne hlen hget htail =>
      by_cases hk : e.key = key
      · right; left
        refine ⟨e, rest, rfl, hk, ?_⟩
        simp only [put_dispatch, hrun, h1, h2, hne]
        rw [if_pos hk]
      · right; right
        refine ⟨e, rest, rfl, hk, ?_⟩
        simp only [put_dispatch, hrun, h1, h2, hne]
        rw [if_neg hk]

theorem addrsOf_append (A B : List (Ent K V)) :
    addrsOf (A ++ B) = addrsOf A ++ addrsOf B :=
  List.map_append Ent.addr A B

theorem levelKeep_cons_of_le {i : Nat} {e : Ent K V} (l : List (Ent K V))
    (h : i ≤ e.lvl) : levelKeep i (e :: l) = e :: levelKeep i l := by
  simp [levelKeep, List.filter_cons, h]

theorem levelKeep_cons_of_gt {i : Nat} {e : Ent K V} (l : List (Ent K V))
    (h : e.lvl < i) : levelKeep i (e :: l) = levelKeep i l := by
  have h2 : ¬ i ≤ e.lvl := by omega
  simp [levelKeep, List.filter_cons, h2]

theorem levelKeep_keyLtTake_sublist (i : Nat) (ms : List (Ent K V)) (key : K) :
    (levelKeep i (keyLtTake ms key)).Sublist ms :=
  (List.filter_sublist _).trans (List.takeWhile_sublist _)

/-- The heart of `put`'s insert branch: with the update array holding the
per-level predecessors and all at-or-above entries strictly above the key,
the splice loop succeeds and any state carrying the resulting heap with the
bumped level, count and allocation cursor is well-formed over the chain
with the new entry spliced in. -/
theorem insert_core {S : SL K V} {ms : List (Ent K V)} (hwf : Wf S ms)
    (key : K) (value : V) {upd3 : Nat → Ptr} {nl : Nat} (hnl : nl ≤ S.maxLevel)
    (hupd3 : ∀ j, j ≤ nl → upd3 j = Ptr.addr (searchPred S ms key j))
    (hgt : ∀ e ∈ keyGeDrop ms key, key < e.key) {newLvl : Nat}
    (hnewLvl : newLvl = max S.level nl) :
    ∃ h2, spliceLoop upd3 S.next 0 (nl + 1)
        (heapWrite S.heap S.next (some (create_node key value nl))) = some h2 ∧
      ∀ S3 : SL K V, S3.maxLevel = S.maxLevel → S3.level = newLvl →
        S3.header = S.header → S3.count = S.count + 1 → S3.heap = h2 →
        S3.next = S.next + 1 →
        Wf S3 (keyLtTake ms key ++ Ent.mk S.next key value nl :: keyGeDrop ms key) := by
  classical
  have hfacts : ∀ j : Nat, j ≤ S.maxLevel → ∃ (nj : HNode K V) (pj : Ptr),
      S.heap (searchPred S ms key j) = some nj ∧
      nj.forward.get? j = some pj ∧
      IsChain S.heap j pj (levelKeep j (keyGeDrop ms key)) :=
    fun j hj => searchPred_facts hwf key hj
  choose N F hN hF hC using hfacts
  have hF2 : ∃ F2 : Nat → Ptr, ∀ j (hj : j ≤ S.maxLevel), F2 j = F j hj :=
    ⟨fun j => if hj : j ≤ S.maxLevel then F j hj else Ptr.null,
     fun j hj => dif_pos hj⟩
  obtain ⟨F2, hF2⟩ := hF2
  have hPlt : ∀ j, searchPred S ms key j < S.next := fun j => searchPred_lt_next hwf key j
  have hPw : ∀ j, j ≤ nl → searchPred S ms key j ≠ S.next :=
    fun j _ => Nat.ne_of_lt (hPlt j)
  have hbuild := spliceLoop_build upd3 S.next nl
    (fun j => searchPred S ms key j) F2
    (heapWrite S.heap S.next (some (create_node key value nl)))
    (create_node key value nl)
    hupd3 hPw
    (by
      intro j hj
      have hjm : j ≤ S.maxLevel := le_trans hj hnl
      refine ⟨N j hjm, ?_, ?_, ?_⟩
      · rw [heapWrite_ne (hPw j hj)]
        exact hN j hjm
      · by_contra hc
        push_neg at hc
        have hg1 : (N j hjm).forward.get? j = none := List.get?_eq_none.mpr hc
        have hg2 := hF j hjm
        rw [hg1] at hg2
        exact Option.noConfusion hg2
      · rw [hF2 j hjm]
        exact hF j hjm)
    heapWrite_self
    (by simp [create_node])
  obtain ⟨h2, hrun, ⟨wn2, hw2, hwk, hwv, hwl, hwlen, hwget⟩, hdesc⟩ := hbuild
  have hdesc2 : ∀ a, a ≠ S.next →
      (S.heap a = none → h2 a = none) ∧
      (∀ n0 : HNode K V, S.heap a = some n0 → ∃ n2, h2 a = some n2 ∧
        n2.key = n0.key ∧ n2.value = n0.value ∧ n2.nodeLevel = n0.nodeLevel ∧
        n2.forward.length = n0.forward.length ∧
        ∀ j, n2.forward.get? j =
          if j ≤ nl ∧ searchPred S ms key j = a then some (Ptr.addr S.next)
          else n0.forward.get? j) := by
    intro a ha
    obtain ⟨hm1, hm2⟩ := hdesc a ha
    constructor
    · intro h0a
      refine hm1 ?_
      rw [heapWrite_ne ha]
      exact h0a
    · intro n0 hn0
      refine hm2 n0 ?_
      rw [heapWrite_ne ha]
      exact hn0
  refine ⟨h2, hrun, ?_⟩
  intro S3 e1 e2 e3 e4 e5 e6
  -- shared abbreviations and facts
  have hms2 : keyLtTake ms key ++ Ent.mk S.next key value nl :: keyGeDrop ms key
      = keyLtTake ms key ++ Ent.mk S.next key value nl :: keyGeDrop ms key := rfl
  have hmseq := ms_eq_take_append_drop ms key
  have haddrs : addrsOf ms = addrsOf (keyLtTake ms key) ++ addrsOf (keyGeDrop ms key) := by
    conv_lhs => rw [hmseq]
    exact addrsOf_append _ _
  have hpredisj : ∀ b ∈ addrsOf (keyLtTake ms key),
      ∀ c ∈ addrsOf (keyGeDrop ms key), b ≠ c := by
    have hnd := hwf.nodup
    rw [haddrs] at hnd
    have hdj := (List.nodup_append.mp hnd).2.2
    intro b hb c hc hbc
    exact hdj hb (hbc ▸ hc)
  have hmem_ms2 : ∀ e : Ent K V, e ∈ ms →
      e ∈ keyLtTake ms key ++ Ent.mk S.next key value nl :: keyGeDrop ms key := by
    intro e he
    rw [hmseq] at he
    rcases List.mem_append.mp he with h | h
    · exact List.mem_append_left _ h
    · exact List.mem_append_right _ (List.mem_cons_of_mem _ h)
  have hwEnotms : ∀ a ∈ addrsOf ms, a ≠ S.next :=
    fun a ha => Nat.ne_of_lt (hwf.bounded a ha)
  have hhdrne : S.header ≠ S.next := Nat.ne_of_lt hwf.hdr_lt
  have hsufms : ∀ e ∈ keyGeDrop ms key, e ∈ ms := by
    intro e he
    exact (List.dropWhile_sublist _).subset he
  have hprems : ∀ e ∈ keyLtTake ms key, e ∈ ms := by
    intro e he
    exact (List.takeWhile_sublist _).subset he
  -- per-level chains in the new heap
  have hchains : ∀ i, i ≤ S.maxLevel → ∃ (hn2 : HNode K V) (p : Ptr),
      h2 S.header = some hn2 ∧ hn2.forward.get? i = some p ∧
      IsChain h2 i p (levelKeep i
        (keyLtTake ms key ++ Ent.mk S.next key value nl :: keyGeDrop ms key)) := by
    intro i hi
    obtain ⟨hn, p0, hheap, hget0, hchain0⟩ := hwf.chains i hi
    have hLK : levelKeep i ms =
        levelKeep i (keyLtTake ms key) ++ levelKeep i (keyGeDrop ms key) := by
      conv_lhs => rw [hmseq]
      exact levelKeep_append _ _ _
    rw [hLK] at hchain0
    obtain ⟨hn2, hhn2, hn2k, hn2v, hn2l, hn2len, hn2get⟩ :=
      ((hdesc2 S.header hhdrne).2 hn hheap)
    by_cases hinl : i ≤ nl
    · -- the new node participates at level i
      have hPne : ∀ e ∈ keyGeDrop ms key, searchPred S ms key i ≠ e.addr := by
        intro e he
        rcases searchPred_mem_pre S ms key i with h | h
        · rw [h]
          intro hc
          exact hwf.hdr_notin (by
            rw [hc]
            exact List.mem_map_of_mem Ent.addr (hsufms e he))
        · intro hc
          refine hpredisj _ ?_ e.addr (List.mem_map_of_mem Ent.addr he) hc
          have hsub : (addrsOf (levelKeep i (keyLtTake ms key))).Sublist
              (addrsOf (keyLtTake ms key)) := (List.filter_sublist _).map Ent.addr
          exact hsub.subset h
      have hYtrans : IsChain h2 i (F2 i)
          (levelKeep i (keyGeDrop ms key)) := by
        rw [hF2 i (le_trans hinl hnl)]
        refine IsChain.congr (hC i (le_trans hinl hnl)) ?_
        intro e he n0 hn0
        have hene : e.addr ≠ S.next :=
          hwEnotms e.addr (List.mem_map_of_mem Ent.addr (hsufms e (mem_levelKeep he).1))
        obtain ⟨n2, g1, g2, g3, g4, g5, g6⟩ := (hdesc2 e.addr hene).2 n0 hn0
        refine ⟨n2, g1, g2, g3, g4, g5, ?_⟩
        rw [g6 i, if_neg ?_]
        intro hc
        exact hPne e (mem_levelKeep he).1 hc.2
      have hZ : IsChain h2 i (Ptr.addr S.next)
          (Ent.mk S.next key value nl :: levelKeep i (keyGeDrop ms key)) := by
        have hwn2eq : h2 S.next = some (HNode.mk key value wn2.forward nl) := by
          rw [hw2]
          congr 1
          cases wn2 with
          | mk k0 v0 f0 l0 =>
            simp only [create_node] at hwk hwv hwl
            rw [hwk, hwv, hwl]
        refine IsChain.cons (e := Ent.mk S.next key value nl) hwn2eq hwlen ?_ hYtrans
        rw [hwget i hinl, hF2 i (le_trans hinl hnl)]
      have hX : IsChain h2 i
          (if (levelKeep i (keyLtTake ms key)).isEmpty then Ptr.addr S.next else p0)
          (levelKeep i (keyLtTake ms key) ++
            (Ent.mk S.next key value nl :: levelKeep i (keyGeDrop ms key))) := by
        refine IsChain_prefix_redirect (searchPred S ms key i) hchain0 hZ ?_ ?_ ?_
        · exact hwf.nodup.sublist
            ((levelKeep_keyLtTake_sublist i ms key).map Ent.addr)
        · intro e he
          rw [searchPred, List.getLastD_eq_getLast?, addrsOf, List.getLast?_map, he]
          rfl
        · intro e he n0 hn0
          have hene : e.addr ≠ S.next := hwEnotms e.addr
            (List.mem_map_of_mem Ent.addr (hprems e (mem_levelKeep he).1))
          obtain ⟨n2, g1, g2, g3, g4, g5, g6⟩ := (hdesc2 e.addr hene).2 n0 hn0
          refine ⟨n2, g1, g2, g3, g4, g5, ?_⟩
          rw [g6 i]
          by_cases hc : e.addr = searchPred S ms key i
          · rw [if_pos ⟨hinl, hc.symm⟩, if_pos hc]
          · rw [if_neg (fun hcc => hc hcc.2.symm), if_neg hc]
      have hms2keep : levelKeep i
          (keyLtTake ms key ++ Ent.mk S.next key value nl :: keyGeDrop ms key) =
          levelKeep i (keyLtTake ms key) ++
            (Ent.mk S.next key value nl :: levelKeep i (keyGeDrop ms key)) := by
        rw [levelKeep_append, levelKeep_cons_of_le _ hinl]
      refine ⟨hn2, if (levelKeep i (keyLtTake ms key)).isEmpty then Ptr.addr S.next
        else p0, hhn2, ?_, ?_⟩
      · rw [hn2get i]
        cases hXE : (levelKeep i (keyLtTake ms key)).isEmpty with
        | true =>
          have hXnil : levelKeep i (keyLtTake ms key) = [] :=
            List.isEmpty_iff.mp hXE
          have hPh : searchPred S ms key i = S.header := by
            rw [searchPred, hXnil]
            rfl
          rw [if_pos ⟨hinl, hPh⟩]
          simp
        | false =>
          have hXne : levelKeep i (keyLtTake ms key) ≠ [] := by
            intro hc
            rw [hc] at hXE
            simp at hXE
          have hPh : searchPred S ms key i ≠ S.header := by
            cases hL : (levelKeep i (keyLtTake ms key)).getLast? with
            | none =>
              obtain ⟨g, hg⟩ := Option.isSome_iff_exists.mp
                (List.getLast?_isSome.mpr hXne)
              rw [hL] at hg
              simp at hg
            | some f =>
              have hfeq : searchPred S ms key i = f.addr := by
                rw [searchPred, List.getLastD_eq_getLast?, addrsOf,
                  List.getLast?_map, hL]
                rfl
              rw [hfeq]
              intro hc
              refine hwf.hdr_notin ?_
              rw [← hc]
              exact List.mem_map_of_mem Ent.addr
                (hprems f (mem_levelKeep (List.mem_of_mem_getLast? hL)).1)
          rw [if_neg (fun hc => hPh hc.2), hget0]
          simp
      · rw [hms2keep]
        exact hX
    · -- the new node does not participate at level i
      have hms2keep : levelKeep i
          (keyLtTake ms key ++ Ent.mk S.next key value nl :: keyGeDrop ms key) =
          levelKeep i (keyLtTake ms key) ++ levelKeep i (keyGeDrop ms key) := by
        rw [levelKeep_append, levelKeep_cons_of_gt _ (show nl < i by omega)]
      refine ⟨hn2, p0, hhn2, ?_, ?_⟩
      · rw [hn2get i, if_neg (fun hc => hinl hc.1), hget0]
      · rw [hms2keep]
        refine IsChain.congr hchain0 ?_
        intro e he n0 hn0
        have hems : e ∈ ms := by
          rcases List.mem_append.mp he with h | h
          · exact hprems e (mem_levelKeep h).1
          · exact hsufms e (mem_levelKeep h).1
        have hene : e.addr ≠ S.next :=
          hwEnotms e.addr (List.mem_map_of_mem Ent.addr hems)
        obtain ⟨n2e, g1, g2, g3, g4, g5, g6⟩ := (hdesc2 e.addr hene).2 n0 hn0
        refine ⟨n2e, g1, g2, g3, g4, g5, ?_⟩
        rw [g6 i, if_neg (fun hc => hinl hc.1)]
  -- assemble well-formedness
  have haddr_ms2 : addrsOf (keyLtTake ms key ++ Ent.mk S.next key value nl ::
      keyGeDrop ms key) =
      addrsOf (keyLtTake ms key) ++ S.next :: addrsOf (keyGeDrop ms key) := by
    rw [addrsOf_append]
    rfl
  obtain ⟨hnh, hnheq, hnhlen, hnhlvl⟩ := hwf.hdr
  obtain ⟨hn2h, g1h, g2h, g3h, g4h, g5h, g6h⟩ := (hdesc2 S.header hhdrne).2 hnh hnheq
  refine { hdr_lt := ?_, hdr := ?_, chains := ?_, lvl_le := ?_, count_eq := ?_,
           lvls_le := ?_, sorted := ?_, hdr_notin := ?_, nodup := ?_,
           bounded := ?_, dom := ?_, top := ?_ }
  · rw [e3, e6]
    have := hwf.hdr_lt
    omega
  · refine ⟨hn2h, ?_, ?_, ?_⟩
    · rw [e5, e3]
      exact g1h
    · rw [e1, g5h, hnhlen]
    · rw [e1, g4h, hnhlvl]
  · intro i hi
    rw [e1] at hi
    obtain ⟨hn2, p, c1, c2, c3⟩ := hchains i hi
    exact ⟨hn2, p, by rw [e5, e3]; exact c1, c2, by rw [e5]; exact c3⟩
  · rw [e2, e1, hnewLvl]
    exact max_le hwf.lvl_le hnl
  · rw [e4, hwf.count_eq]
    have hlen := congrArg List.length hmseq
    simp only [List.length_append, List.length_cons] at hlen ⊢
    omega
  · intro e he
    rw [e2, hnewLvl]
    rcases List.mem_append.mp he with h | h
    · exact le_trans (hwf.lvls_le e (hprems e h)) (le_max_left _ _)
    · rcases List.mem_cons.mp h with rfl | h2
      · exact le_max_right _ _
      · exact le_trans (hwf.lvls_le e (hsufms e h2)) (le_max_left _ _)
  · rw [List.pairwise_append]
    have hsorted := hwf.sorted
    rw [hmseq] at hsorted
    obtain ⟨hp1, hp2, hp3⟩ := List.pairwise_append.mp hsorted
    refine ⟨hp1, ?_, ?_⟩
    · rw [List.pairwise_cons]
      exact ⟨fun e he => hgt e he, hp2⟩
    · intro a ha b hb
      rcases List.mem_cons.mp hb with rfl | hb2
      · exact keyLt_of_mem_keyLtTake ha
      · exact hp3 a ha b hb2
  · rw [e3, haddr_ms2]
    intro hc
    rcases List.mem_append.mp hc with h | h
    · refine hwf.hdr_notin ?_
      rw [haddrs]
      exact List.mem_append_left _ h
    · rcases List.mem_cons.mp h with h2 | h2
      · exact hhdrne h2
      · refine hwf.hdr_notin ?_
        rw [haddrs]
        exact List.mem_append_right _ h2
  · rw [haddr_ms2]
    rw [List.nodup_middle]
    rw [List.nodup_cons]
    constructor
    · intro hc
      rw [← haddrs] at hc
      exact hwEnotms S.next hc rfl
    · rw [← haddrs]
      exact hwf.nodup
  · intro a ha
    rw [e6]
    rw [haddr_ms2] at ha
    rcases List.mem_append.mp ha with h | h
    · have : a < S.next := hwf.bounded a (by rw [haddrs]; exact List.mem_append_left _ h)
      omega
    · rcases List.mem_cons.mp h with rfl | h2
      · omega
      · have : a < S.next := hwf.bounded a
          (by rw [haddrs]; exact List.mem_append_right _ h2)
        omega
  · intro a ha
    rw [e5] at ha
    rw [e3, haddr_ms2]
    by_cases haw : a = S.next
    · right
      rw [haw]
      exact List.mem_append_right _ (List.mem_cons_self _ _)
    · have hSa : S.heap a ≠ none := by
        intro hc
        exact ha ((hdesc2 a haw).1 hc)
      rcases hwf.dom a hSa with h | h
      · exact Or.inl h
      · right
        rw [haddrs] at h
        rcases List.mem_append.mp h with h2 | h2
        · exact List.mem_append_left _ h2
        · exact List.mem_append_right _ (List.mem_cons_of_mem _ h2)
  · rw [e2, hnewLvl]
    by_cases hcase : S.level ≤ nl
    · right
      rw [max_eq_right hcase]
      have hmem : Ent.mk S.next key value nl ∈ levelKeep nl
          (keyLtTake ms key ++ Ent.mk S.next key value nl :: keyGeDrop ms key) :=
        levelKeep_mem_of (List.mem_append_right _ (List.mem_cons_self _ _)) le_rfl
      exact List.ne_nil_of_mem hmem
    · rw [max_eq_left (by omega)]
      rcases hwf.top with h | h
      · exact Or.inl h
      · right
        obtain ⟨e, he⟩ := List.exists_mem_of_ne_nil _ h
        have he2 := mem_levelKeep he
        have : e ∈ levelKeep S.level
            (keyLtTake ms key ++ Ent.mk S.next key value nl :: keyGeDrop ms key) :=
          levelKeep_mem_of (hmem_ms2 e he2.1) he2.2
        exact List.ne_nil_of_mem this

/-- `insertPre` only raises the level and extends the update array with the
header for the new levels; heap, counters and cursor stay. -/
theorem insertPre_spec {S : SL K V} {ms : List (Ent K V)} (hwf : Wf S ms)
    (key : K) {upd2 : Nat → Ptr}
    (hupd : ∀ j, upd2 j = if j ≤ S.level then Ptr.addr (searchPred S ms key j)
      else Ptr.null) :
    ((insertPre S upd2).1.maxLevel = S.maxLevel ∧
     (insertPre S upd2).1.level = max S.level (get_random_level S).1 ∧
     (insertPre S upd2).1.header = S.header ∧
     (insertPre S upd2).1.count = S.count ∧
     (insertPre S upd2).1.heap = S.heap ∧
     (insertPre S upd2).1.next = S.next) ∧
    (insertPre S upd2).2.2 = (get_random_level S).1 ∧
    (∀ j, j ≤ (get_random_level S).1 →
      (insertPre S upd2).2.1 j = Ptr.addr (searchPred S ms key j)) := by
  classical
  simp only [insertPre]
  by_cases hb : (get_random_level S).2.level < (get_random_level S).1
  · rw [if_pos hb]
    have hlvl : (get_random_level S).2.level = S.level := rfl
    rw [hlvl] at hb
    refine ⟨⟨rfl, ?_, rfl, rfl, rfl, rfl⟩, rfl, ?_⟩
    · show (get_random_level S).1 = max S.level (get_random_level S).1
      omega
    · intro j hj
      show (if S.level + 1 ≤ j ∧ j ≤ (get_random_level S).1
          then Ptr.addr S.header else upd2 j) = _
      by_cases hjl : j ≤ S.level
      · rw [if_neg (by omega), hupd j, if_pos hjl]
      · rw [if_pos ⟨by omega, hj⟩,
          searchPred_eq_header_of_gt hwf key (show S.level < j by omega)]
  · rw [if_neg hb]
    have hlvl : (get_random_level S).2.level = S.level := rfl
    rw [hlvl] at hb
    refine ⟨⟨rfl, ?_, rfl, rfl, rfl, rfl⟩, rfl, ?_⟩
    · show S.level = max S.level (get_random_level S).1
      omega
    · intro j hj
      show upd2 j = _
      rw [hupd j, if_pos (by omega)]

/-- The insert branch of `put` succeeds and leaves a well-formed state over
the chain with the fresh entry in key position. -/
theorem insertFresh_spec {S : SL K V} {ms : List (Ent K V)} (hwf : Wf S ms)
    (key : K) (value : V) {upd2 : Nat → Ptr}
    (hupd : ∀ j, upd2 j = if j ≤ S.level then Ptr.addr (searchPred S ms key j)
      else Ptr.null)
    (hgt : ∀ e ∈ keyGeDrop ms key, key < e.key) :
    ∃ S3, insertFresh S key value upd2 = some S3 ∧
      Wf S3 (keyLtTake ms key ++ putEnt S key value :: keyGeDrop ms key) := by
  classical
  obtain ⟨⟨m1, m2, m3, m4, m5, m6⟩, mnl, mupd⟩ := insertPre_spec hwf key hupd
  have hupd3 : ∀ j, j ≤ (insertPre S upd2).2.2 →
      (insertPre S upd2).2.1 j = Ptr.addr (searchPred S ms key j) := by
    intro j hj
    rw [mnl] at hj
    exact mupd j hj
  have hnl2 : (insertPre S upd2).2.2 ≤ S.maxLevel := by
    rw [mnl]
    exact get_random_level_le S
  obtain ⟨h2, hrun, hWf⟩ := insert_core hwf key value hnl2 hupd3 hgt rfl
  refine ⟨{ (insertPre S upd2).1 with
      heap := h2, next := (insertPre S upd2).1.next + 1,
      count := (insertPre S upd2).1.count + 1 }, ?_, ?_⟩
  · simp only [insertFresh]
    rw [m5, m6, hrun]
  · have hput : Ent.mk S.next key value (insertPre S upd2).2.2 = putEnt S key value := by
      rw [mnl]
      rfl
    rw [← hput]
    refine hWf _ ?_ ?_ ?_ ?_ ?_ ?_
    · show (insertPre S upd2).1.maxLevel = S.maxLevel
      exact m1
    · show (insertPre S upd2).1.level = max S.level (insertPre S upd2).2.2
      rw [m2, mnl]
    · show (insertPre S upd2).1.header = S.header
      exact m3
    · show (insertPre S upd2).1.count + 1 = S.count + 1
      omega
    · rfl
    · show (insertPre S upd2).1.next + 1 = S.next + 1
      omega

/-- Lookup across a decomposition at an exact-key entry. -/
theorem assocFind_middle {pre rest : List (Ent K V)} {x : Ent K V} {key : K}
    (hpre : ∀ d ∈ pre, d.key < key) (hxk : x.key = key) (q : K) :
    assocFind (pre ++ x :: rest) q =
      if q = key then some x.value else assocFind (pre ++ rest) q := by
  classical
  by_cases hq : q = key
  · subst hq
    rw [if_pos rfl]
    rw [assocFind, List.find?_append]
    have hnone : pre.find? (fun e => decide (e.key = q)) = none := by
      rw [List.find?_eq_none]
      intro d hd
      simp only [decide_eq_true_eq]
      exact ne_of_lt (hpre d hd)
    rw [hnone, Option.none_or, List.find?_cons_of_pos _ (by simpa using hxk)]
    rfl
  · rw [if_neg hq]
    rw [assocFind, assocFind, List.find?_append, List.find?_append]
    rw [List.find?_cons_of_neg _ (by simp only [decide_eq_true_eq]; rw [hxk]; exact fun h => hq h.symm)]

/-- Overwriting one node's value in place preserves every chain, with the
corresponding entry's value updated. -/
theorem IsChain_value_update {h : Heap K V} {b : Nat} {nb : HNode K V} {v : V}
    (hb : h b = some nb) {i : Nat} :
    ∀ {l : List (Ent K V)} {p : Ptr}, IsChain h i p l →
      IsChain (heapWrite h b (some { nb with value := v })) i p
        (l.map (updVal b v)) := by
  intro l
  induction l with
  | nil =>
    intro p hch
    cases hch
    exact IsChain.nil
  | cons e l2 ih =>
    intro p hch
    cases hch with
    | @cons _ fw p2 _ hn hlen hget htail =>
      by_cases hea : e.addr = b
      · rw [List.map_cons]
        have hupdv : updVal b v e = Ent.mk e.addr e.key v e.lvl := by
          simp only [updVal, if_pos hea]
        rw [hupdv]
        subst hea
        have hnb : HNode.mk e.key e.value fw e.lvl = nb := by
          rw [hn] at hb
          exact Option.some.inj hb
        refine IsChain.cons (e := Ent.mk e.addr e.key v e.lvl) ?_ hlen hget (ih htail)
        rw [heapWrite_self, ← hnb]
      · rw [List.map_cons]
        have hupdv : updVal b v e = e := by
          simp only [updVal, if_neg hea]
        rw [hupdv]
        exact IsChain.cons (by rw [heapWrite_ne hea]; exact hn) hlen hget (ih htail)

theorem updVal_addr (b : Nat) (v : V) (x : Ent K V) : (updVal b v x).addr = x.addr := by
  simp only [updVal]
  by_cases h : x.addr = b
  · rw [if_pos h]
  · rw [if_neg h]

theorem updVal_key (b : Nat) (v : V) (x : Ent K V) : (updVal b v x).key = x.key := by
  simp only [updVal]
  by_cases h : x.addr = b
  · rw [if_pos h]
  · rw [if_neg h]

theorem updVal_lvl (b : Nat) (v : V) (x : Ent K V) : (updVal b v x).lvl = x.lvl := by
  simp only [updVal]
  by_cases h : x.addr = b
  · rw [if_pos h]
  · rw [if_neg h]

theorem addrsOf_map_updVal (b : Nat) (v : V) (ms : List (Ent K V)) :
    addrsOf (ms.map (updVal b v)) = addrsOf ms := by
  simp only [addrsOf, List.map_map]
  refine List.map_congr_left ?_
  intro x _
  exact updVal_addr b v x

theorem levelKeep_map_updVal (i : Nat) (b : Nat) (v : V) (ms : List (Ent K V)) :
    levelKeep i (ms.map (updVal b v)) = (levelKeep i ms).map (updVal b v) := by
  induction ms with
  | nil => rfl
  | cons x l ih =>
    rw [List.map_cons]
    by_cases h : i ≤ x.lvl
    · rw [levelKeep_cons_of_le _ (by rw [updVal_lvl]; exact h),
        levelKeep_cons_of_le _ h, List.map_cons, ih]
    · rw [levelKeep_cons_of_gt _ (by rw [updVal_lvl]; omega),
        levelKeep_cons_of_gt _ (by omega), ih]

/-- The update-in-place branch of `put`: the node at the matched address
gets the new value; the state stays well-formed over the value-updated
chain. -/
theorem writeValue_spec {S : SL K V} {ms : List (Ent K V)} (hwf : Wf S ms)
    {b : Nat} (hb : b ∈ addrsOf ms) (value : V) :
    ∃ S3, writeValue S b value = some S3 ∧ Wf S3 (ms.map (updVal b value)) := by
  classical
  -- the node exists
  obtain ⟨hn0, p0, hheap0, hget00, hchain0⟩ := hwf.chains 0 (Nat.zero_le _)
  rw [levelKeep_zero] at hchain0
  obtain ⟨e, hems, heb⟩ := List.mem_map.mp hb
  obtain ⟨fw, hfw, hfwlen⟩ := hchain0.entOk e hems
  rw [heb] at hfw
  refine ⟨{ S with heap := heapWrite S.heap b (some (HNode.mk e.key value fw e.lvl)) }, ?_, ?_⟩
  · simp only [writeValue, hfw]
  · have hwr : heapWrite S.heap b (some (HNode.mk e.key value fw e.lvl)) = heapWrite S.heap b (some { (HNode.mk e.key e.value fw e.lvl) with value := value }) := rfl
    have hbh : b ≠ S.header := by
      intro hc
      exact hwf.hdr_notin (hc ▸ hb)
    refine { hdr_lt := hwf.hdr_lt, hdr := ?_, chains := ?_, lvl_le := hwf.lvl_le,
             count_eq := ?_, lvls_le := ?_, sorted := ?_, hdr_notin := ?_,
             nodup := ?_, bounded := ?_, dom := ?_, top := ?_ }
    · obtain ⟨hn, e1, e2, e3⟩ := hwf.hdr
      exact ⟨hn, by rw [show ({ S with heap := heapWrite S.heap b _ } : SL K V).heap
        = heapWrite S.heap b _ from rfl]; rw [heapWrite_ne (fun hc => hbh hc.symm)]; exact e1,
        e2, e3⟩
    · intro i hi
      obtain ⟨hn, p, c1, c2, c3⟩ := hwf.chains i hi
      refine ⟨hn, p, ?_, c2, ?_⟩
      · show heapWrite S.heap b _ S.header = some hn
        rw [heapWrite_ne (fun hc => hbh hc.symm)]
        exact c1
      · show IsChain (heapWrite S.heap b _) i p (levelKeep i (ms.map (updVal b value)))
        rw [levelKeep_map_updVal, hwr]
        exact IsChain_value_update hfw c3
    · rw [hwf.count_eq, List.length_map]
    · intro x hx
      obtain ⟨y, hy, hyx⟩ := List.mem_map.mp hx
      rw [← hyx, updVal_lvl]
      exact hwf.lvls_le y hy
    · rw [List.pairwise_map]
      refine hwf.sorted.imp_of_mem ?_
      intro c d _ _ hcd
      rw [updVal_key, updVal_key]
      exact hcd
    · rw [addrsOf_map_updVal]
      exact hwf.hdr_notin
    · rw [addrsOf_map_updVal]
      exact hwf.nodup
    · rw [addrsOf_map_updVal]
      exact hwf.bounded
    · intro a ha
      rw [addrsOf_map_updVal]
      by_cases hab : a = b
      · exact Or.inr (hab ▸ hb)
      · refine hwf.dom a ?_
        show S.heap a ≠ none
        intro hc
        refine ha ?_
        show heapWrite S.heap b _ a = none
        rw [heapWrite_ne hab]
        exact hc
    · rcases hwf.top with h | h
      · exact Or.inl h
      · right
        rw [levelKeep_map_updVal]
        intro hc
        exact h (List.map_eq_nil.mp hc)

/-- `put` succeeds on any well-formed state, the result is well-formed,
and the association read off the chain is the point-update of the old. -/
theorem put_content {S : SL K V} {ms : List (Ent K V)} (hwf : Wf S ms)
    (key : K) (value : V) :
    ∃ (S3 : SL K V) (ms3 : List (Ent K V)), put S key value = some S3 ∧ Wf S3 ms3 ∧
      ∀ q, assocFind ms3 q = if q = key then some value else assocFind ms q := by
  classical
  have hpre : ∀ d ∈ keyLtTake ms key, d.key < key :=
    fun d hd2 => keyLt_of_mem_keyLtTake hd2
  obtain ⟨upd2, hupd, hcases⟩ := put_dispatch_spec hwf key
  rcases hcases with ⟨hd, hdisp⟩ | ⟨e, rest, hd, hek, hdisp⟩ | ⟨e, rest, hd, hek, hdisp⟩
  · -- key absent, empty suffix: insert at the end
    have hgt : ∀ x ∈ keyGeDrop ms key, key < x.key := by
      rw [hd]
      intro x hx
      simp at hx
    obtain ⟨S3, hrunI, hWf⟩ := insertFresh_spec hwf key value hupd hgt
    refine ⟨S3, _, ?_, hWf, ?_⟩
    · simp only [put, hdisp]
      exact hrunI
    · intro q
      have hmid : assocFind (keyLtTake ms key ++ putEnt S key value :: keyGeDrop ms key) q
          = if q = key then some (putEnt S key value).value
            else assocFind (keyLtTake ms key ++ keyGeDrop ms key) q :=
        assocFind_middle hpre rfl q
      rw [← ms_eq_take_append_drop ms key] at hmid
      rw [hmid]
      rfl
  · -- key present: overwrite in place
    have hems : e ∈ ms := by
      have hin : e ∈ keyGeDrop ms key := by
        rw [hd]
        exact List.mem_cons_self e rest
      exact (List.dropWhile_sublist _).subset hin
    have hbmem : e.addr ∈ addrsOf ms := List.mem_map_of_mem Ent.addr hems
    obtain ⟨S3, hrunW, hWf⟩ := writeValue_spec hwf hbmem value
    have hms : ms = keyLtTake ms key ++ e :: rest := by
      rw [← hd]
      exact ms_eq_take_append_drop ms key
    have hnd2 : (addrsOf (keyLtTake ms key) ++ addrsOf (e :: rest)).Nodup := by
      rw [← addrsOf_append, ← hms]
      exact hwf.nodup
    obtain ⟨hndA, hndB, hdisjAB⟩ := List.nodup_append.mp hnd2
    have hmap : ms.map (updVal e.addr value) =
        keyLtTake ms key ++ Ent.mk e.addr e.key value e.lvl :: rest := by
      conv_lhs => rw [hms]
      rw [List.map_append, List.map_cons]
      congr 1
      · refine (List.map_congr_left ?_).trans (List.map_id _)
        intro x hx
        have hxa : x.addr ≠ e.addr := by
          intro hc
          refine hdisjAB (a := x.addr) (List.mem_map_of_mem Ent.addr hx) ?_
          rw [hc]
          exact List.mem_cons_self _ _
        simp only [updVal, if_neg hxa]
        rfl
      · congr 1
        · simp [updVal]
        · refine (List.map_congr_left ?_).trans (List.map_id _)
          intro x hx
          have hxa : x.addr ≠ e.addr := by
            intro hc
            simp only [addrsOf, List.map_cons, List.nodup_cons] at hndB
            refine hndB.1 ?_
            rw [← hc]
            exact List.mem_map_of_mem Ent.addr hx
          simp only [updVal, if_neg hxa]
          rfl
    refine ⟨S3, _, ?_, hWf, ?_⟩
    · simp only [put, hdisp]
      exact hrunW
    · intro q
      have hmid : assocFind (keyLtTake ms key ++ Ent.mk e.addr e.key value e.lvl :: rest) q
          = if q = key then some (Ent.mk e.addr e.key value e.lvl).value
            else assocFind (keyLtTake ms key ++ rest) q :=
        assocFind_middle hpre (show (Ent.mk e.addr e.key value e.lvl).key = key from hek) q
      have hmid2 : assocFind (keyLtTake ms key ++ e :: rest) q
          = if q = key then some e.value
            else assocFind (keyLtTake ms key ++ rest) q :=
        assocFind_middle hpre hek q
      rw [← hms] at hmid2
      rw [hmap, hmid]
      by_cases hq : q = key
      · rw [if_pos hq, if_pos hq]
      · rw [if_neg hq, if_neg hq, hmid2, if_neg hq]
  · -- key absent, nonempty suffix strictly above it: insert in front
    have hgt : ∀ x ∈ keyGeDrop ms key, key < x.key := by
      refine suf_all_gt hwf.sorted ?_
      intro x hx
      rw [hd] at hx
      have hxe : e = x := by injection hx
      exact hxe ▸ hek
    obtain ⟨S3, hrunI, hWf⟩ := insertFresh_spec hwf key value hupd hgt
    refine ⟨S3, _, ?_, hWf, ?_⟩
    · simp only [put, hdisp]
      exact hrunI
    · intro q
      have hmid : assocFind (keyLtTake ms key ++ putEnt S key value :: keyGeDrop ms key) q
          = if q = key then some (putEnt S key value).value
            else assocFind (keyLtTake ms key ++ keyGeDrop ms key) q :=
        assocFind_middle hpre rfl q
      rw [← ms_eq_take_append_drop ms key] at hmid
      rw [hmid]
      rfl

/-- The unlink loop of `remove`: at every level `j ≤ L` where the
predecessor `P j` points to the doomed node `t`, the link is redirected to
`t`'s own level-`j` link `T j`; every other cell and index is untouched
(`t`'s cell included, since no predecessor is `t`). -/
theorem unlinkLoop_build (upd : Nat → Ptr) (t L : Nat) (P : Nat → Nat)
    (F T : Nat → Ptr) (h0 : Heap K V) (tn0 : HNode K V)
    (hupd : ∀ j, j ≤ L → upd j = Ptr.addr (P j))
    (hPt : ∀ j, j ≤ L → P j ≠ t)
    (hP : ∀ j, j ≤ L → ∃ n, h0 (P j) = some n ∧ j < n.forward.length ∧
      n.forward.get? j = some (F j))
    (ht : h0 t = some tn0)
    (hT : ∀ j, j ≤ L → F j = Ptr.addr t → tn0.forward.get? j = some (T j)) :
    ∃ h2, unlinkLoop upd t 0 (L + 1) h0 = some h2 ∧
      ∀ a : Nat,
        (h0 a = none → h2 a = none) ∧
        (∀ n0 : HNode K V, h0 a = some n0 → ∃ n2, h2 a = some n2 ∧
          n2.key = n0.key ∧ n2.value = n0.value ∧ n2.nodeLevel = n0.nodeLevel ∧
          n2.forward.length = n0.forward.length ∧
          ∀ j, n2.forward.get? j =
            if j ≤ L ∧ P j = a ∧ F j = Ptr.addr t then some (T j)
            else n0.forward.get? j) := by
  classical
  suffices hmain : ∀ (rem i : Nat), i + rem = L + 1 → ∀ (h : Heap K V),
      (∀ a : Nat,
        (h0 a = none → h a = none) ∧
        (∀ n0 : HNode K V, h0 a = some n0 → ∃ n2, h a = some n2 ∧
          n2.key = n0.key ∧ n2.value = n0.value ∧ n2.nodeLevel = n0.nodeLevel ∧
          n2.forward.length = n0.forward.length ∧
          ∀ j, n2.forward.get? j =
            if j < i ∧ P j = a ∧ F j = Ptr.addr t then some (T j)
            else n0.forward.get? j)) →
      ∃ h2, unlinkLoop upd t i rem h = some h2 ∧
        ∀ a : Nat,
          (h0 a = none → h2 a = none) ∧
          (∀ n0 : HNode K V, h0 a = some n0 → ∃ n2, h2 a = some n2 ∧
            n2.key = n0.key ∧ n2.value = n0.value ∧ n2.nodeLevel = n0.nodeLevel ∧
            n2.forward.length = n0.forward.length ∧
            ∀ j, n2.forward.get? j =
              if j ≤ L ∧ P j = a ∧ F j = Ptr.addr t then some (T j)
              else n0.forward.get? j) by
    refine hmain (L + 1) 0 (by omega) h0 ?_
    intro a
    refine ⟨fun h => h, fun n0 hn0 => ⟨n0, hn0, rfl, rfl, rfl, rfl, ?_⟩⟩
    intro j
    rw [if_neg (by omega)]
  intro rem
  induction rem with
  | zero =>
    intro i hi h hInv
    refine ⟨h, rfl, fun a => ?_⟩
    obtain ⟨hnone, hsome⟩ := hInv a
    refine ⟨hnone, fun n0 hn0 => ?_⟩
    obtain ⟨n2, g1, g2, g3, g4, g5, g6⟩ := hsome n0 hn0
    refine ⟨n2, g1, g2, g3, g4, g5, fun j => ?_⟩
    rw [g6 j]
    by_cases hc : j ≤ L ∧ P j = a ∧ F j = Ptr.addr t
    · obtain ⟨hc1, hcr⟩ := hc
      rw [if_pos ⟨by omega, hcr⟩, if_pos ⟨hc1, hcr⟩]
    · rw [if_neg hc]
      by_cases hc2 : j < i ∧ P j = a ∧ F j = Ptr.addr t
      · obtain ⟨hc21, hc2r⟩ := hc2
        exact absurd ⟨by omega, hc2r⟩ hc
      · rw [if_neg hc2]
  | succ rem ih =>
    intro i hi h hInv
    have hiL : i ≤ L := by omega
    obtain ⟨n0i, hn0i, hlen0i, hF0i⟩ := hP i hiL
    obtain ⟨un, hun, huk, huv, hul, hulen, hufwd⟩ := (hInv (P i)).2 n0i hn0i
    have hunget : un.forward.get? i = some (F i) := by
      rw [hufwd i, if_neg (by omega)]
      exact hF0i
    have hiulen : i < un.forward.length := by omega
    by_cases hFt : F i = Ptr.addr t
    · obtain ⟨tn, htn, htk, htv, htl, htlen, htfwd⟩ := (hInv t).2 tn0 ht
      have htnget : tn.forward.get? i = some (T i) := by
        rw [htfwd i, if_neg (fun hc => hPt i hiL hc.2.1)]
        exact hT i hiL hFt
      have hstep : unlinkStep upd t h i = some
          (heapWrite h (P i) (some { un with forward := un.forward.set i (T i) })) := by
        simp only [unlinkStep, hupd i hiL, hun, hunget, if_pos hFt, htn, htnget,
          setForward, if_pos hiulen]
      have hrun : unlinkLoop upd t i (rem + 1) h =
          unlinkLoop upd t (i + 1) rem
            (heapWrite h (P i) (some { un with forward := un.forward.set i (T i) })) := by
        simp only [unlinkLoop, hstep]
      set hNext := heapWrite h (P i)
        (some { un with forward := un.forward.set i (T i) }) with hNdef
      have hInv2 : ∀ a : Nat,
          (h0 a = none → hNext a = none) ∧
          (∀ n0 : HNode K V, h0 a = some n0 → ∃ n2, hNext a = some n2 ∧
            n2.key = n0.key ∧ n2.value = n0.value ∧ n2.nodeLevel = n0.nodeLevel ∧
            n2.forward.length = n0.forward.length ∧
            ∀ j, n2.forward.get? j =
              if j < i + 1 ∧ P j = a ∧ F j = Ptr.addr t then some (T j)
              else n0.forward.get? j) := by
        intro a
        by_cases haP : a = P i
        · subst haP
          constructor
          · intro h0a
            rw [h0a] at hn0i
            simp at hn0i
          · intro n0a hn0a
            rw [hn0a] at hn0i
            obtain rfl : n0a = n0i := by injection hn0i
            refine ⟨{ un with forward := un.forward.set i (T i) }, ?_, huk, huv, hul, ?_, ?_⟩
            · rw [hNdef, heapWrite_self]
            · simp only [List.length_set]
              exact hulen
            · intro j
              show (un.forward.set i (T i)).get? j = _
              by_cases hji : j = i
              · rw [hji, List.get?_set_eq_of_lt _ hiulen,
                  if_pos ⟨Nat.lt_succ_self i, rfl, hFt⟩]
              · rw [List.get?_set_ne _ _ (fun hc => hji hc.symm), hufwd j]
                by_cases hc : j < i ∧ P j = P i ∧ F j = Ptr.addr t
                · obtain ⟨hc1, hcr⟩ := hc
                  rw [if_pos ⟨hc1, hcr⟩, if_pos ⟨by omega, hcr⟩]
                · rw [if_neg hc]
                  by_cases hc2 : j < i + 1 ∧ P j = P i ∧ F j = Ptr.addr t
                  · exact absurd ⟨by omega, hc2.2⟩ hc
                  · rw [if_neg hc2]
        · have hkeep : hNext a = h a := by
            rw [hNdef, heapWrite_ne haP]
          obtain ⟨hnone2, hsome2⟩ := hInv a
          constructor
          · intro h0a
            rw [hkeep]
            exact hnone2 h0a
          · intro n0a hn0a
            obtain ⟨n2, g1, g2, g3, g4, g5, g6⟩ := hsome2 n0a hn0a
            refine ⟨n2, by rw [hkeep]; exact g1, g2, g3, g4, g5, fun j => ?_⟩
            rw [g6 j]
            by_cases hc : j < i ∧ P j = a ∧ F j = Ptr.addr t
            · obtain ⟨hc1, hcr⟩ := hc
              rw [if_pos ⟨hc1, hcr⟩, if_pos ⟨by omega, hcr⟩]
            · rw [if_neg hc]
              by_cases hc2 : j < i + 1 ∧ P j = a ∧ F j = Ptr.addr t
              · obtain ⟨hc21, hc2r⟩ := hc2
                have hji : j = i := by
                  have hni : ¬ j < i := fun hj => hc ⟨hj, hc2r⟩
                  omega
                rw [hji] at hc2r
                exact absurd hc2r.1.symm haP
              · rw [if_neg hc2]
      obtain ⟨h2, hrun2, hfin⟩ := ih (i + 1) (by omega) hNext hInv2
      exact ⟨h2, by rw [hrun]; exact hrun2, hfin⟩
    · have hstep : unlinkStep upd t h i = some h := by
        simp only [unlinkStep, hupd i hiL, hun, hunget, if_neg hFt]
      have hrun : unlinkLoop upd t i (rem + 1) h = unlinkLoop upd t (i + 1) rem h := by
        simp only [unlinkLoop, hstep]
      have hInv2 : ∀ a : Nat,
          (h0 a = none → h a = none) ∧
          (∀ n0 : HNode K V, h0 a = some n0 → ∃ n2, h a = some n2 ∧
            n2.key = n0.key ∧ n2.value = n0.value ∧ n2.nodeLevel = n0.nodeLevel ∧
            n2.forward.length = n0.forward.length ∧
            ∀ j, n2.forward.get? j =
              if j < i + 1 ∧ P j = a ∧ F j = Ptr.addr t then some (T j)
              else n0.forward.get? j) := by
        intro a
        obtain ⟨hnone2, hsome2⟩ := hInv a
        refine ⟨hnone2, fun n0a hn0a => ?_⟩
        obtain ⟨n2, g1, g2, g3, g4, g5, g6⟩ := hsome2 n0a hn0a
        refine ⟨n2, g1, g2, g3, g4, g5, fun j => ?_⟩
        rw [g6 j]
        by_cases hc : j < i ∧ P j = a ∧ F j = Ptr.addr t
        · obtain ⟨hc1, hcr⟩ := hc
          rw [if_pos ⟨hc1, hcr⟩, if_pos ⟨by omega, hcr⟩]
        · rw [if_neg hc]
          by_cases hc2 : j < i + 1 ∧ P j = a ∧ F j = Ptr.addr t
          · obtain ⟨hc21, hc2r⟩ := hc2
            have hji : j = i := by
              have hni : ¬ j < i := fun hj => hc ⟨hj, hc2r⟩
              omega
            rw [hji] at hc2r
            exact absurd hc2r.2 hFt
          · rw [if_neg hc2]
      obtain ⟨h2, hrun2, hfin⟩ := ih (i + 1) (by omega) h hInv2
      exact ⟨h2, by rw [hrun]; exact hrun2, hfin⟩

/-- The level-shrinking loop of `remove`: starting from level `L`, it stops
at the highest level at or below `L` whose header link is non-null (or 0),
and every level strictly between that and `L` has a null header link. -/
theorem shrinkLoop_spec {h : Heap K V} {hd : Nat} {hn : HNode K V}
    (hh : h hd = some hn) :
    ∀ L : Nat, L < hn.forward.length → ∃ l2, shrinkLoop h hd L = some l2 ∧
      l2 ≤ L ∧ (l2 = 0 ∨ hn.forward.get? l2 ≠ some Ptr.null) ∧
      ∀ j, l2 < j → j ≤ L → hn.forward.get? j = some Ptr.null := by
  intro L
  induction L with
  | zero =>
    intro _
    exact ⟨0, rfl, le_rfl, Or.inl rfl, fun j h1 h2 => by omega⟩
  | succ L ih =>
    intro hlen
    obtain ⟨pL, hpL⟩ := Option.isSome_iff_exists.mp
      (by rw [List.get?_eq_get hlen]; rfl :
        (hn.forward.get? (L + 1)).isSome = true)
    cases pL with
    | null =>
      obtain ⟨l2, hrun, hle, hnn, hnull⟩ := ih (by omega)
      refine ⟨l2, ?_, by omega, hnn, ?_⟩
      · simp only [shrinkLoop, hh, hpL]
        exact hrun
      · intro j h1 h2
        by_cases hj : j = L + 1
        · rw [hj]; exact hpL
        · exact hnull j h1 (by omega)
    | addr b =>
      refine ⟨L + 1, ?_, le_rfl, Or.inr (by rw [hpL]; simp), fun j h1 h2 => by omega⟩
      simp only [shrinkLoop, hh, hpL]

/-- A chain of no entries is headed by the null pointer. -/
theorem IsChain_nil_inv {h : Heap K V} {i : Nat} {p : Ptr}
    (hc : IsChain h i p ([] : List (Ent K V))) : p = Ptr.null := by
  cases hc
  rfl

/-- Inversion of a non-empty chain: the pointer addresses the first entry,
whose node carries its fields and links to a chain of the tail. -/
theorem IsChain_cons_inv {h : Heap K V} {i : Nat} {p : Ptr} {e : Ent K V}
    {l : List (Ent K V)} (hc : IsChain h i p (e :: l)) :
    p = Ptr.addr e.addr ∧ ∃ fw q,
      h e.addr = some { key := e.key, value := e.value, forward := fw, nodeLevel := e.lvl } ∧
      fw.length = e.lvl + 1 ∧ fw.get? i = some q ∧ IsChain h i q l := by
  cases hc with
  | cons hn hlen hget htail => exact ⟨rfl, _, _, hn, hlen, hget, htail⟩

/-- The heart of `remove` when the key is present: the search finds the
node, each level's predecessor link is redirected past it, the top level
shrinks to the highest surviving chain, the node is freed and the count
drops; the result is well-formed over the chain with the entry erased. -/
theorem remove_found {S : SL K V} {ms : List (Ent K V)} (hwf : Wf S ms)
    {key : K} {x : Ent K V} {rest : List (Ent K V)}
    (hd : keyGeDrop ms key = x :: rest) (hxk : x.key = key) :
    ∃ S3 : SL K V, remove S key = some S3 ∧
      Wf S3 (keyLtTake ms key ++ rest) ∧
      S3.maxLevel = S.maxLevel ∧ S3.header = S.header ∧
      S3.next = S.next ∧ S3.count = S.count - 1 := by
  classical
  obtain ⟨upd2, n2, p2, hrun, hn2heap, hn2get, hch0, hupd⟩ := search_full hwf key
  rw [hd] at hch0
  cases hch0 with
  | @cons _ fwE pE _ hne hlenE hgetE htailE =>
  -- shared membership and disjointness facts
  have hmseq := ms_eq_take_append_drop ms key
  have hms : ms = keyLtTake ms key ++ x :: rest := by
    rw [← hd]
    exact hmseq
  have hxms : x ∈ ms := by
    rw [hms]
    exact List.mem_append_right _ (List.mem_cons_self _ _)
  have hrestms : ∀ e ∈ rest, e ∈ ms := by
    intro e he
    rw [hms]
    exact List.mem_append_right _ (List.mem_cons_of_mem _ he)
  have hprems : ∀ e ∈ keyLtTake ms key, e ∈ ms :=
    fun e he => (List.takeWhile_sublist _).subset he
  have haddrs2 : addrsOf ms = addrsOf (keyLtTake ms key) ++ x.addr :: addrsOf rest := by
    conv_lhs => rw [hms]
    rw [addrsOf_append]
    rfl
  have hnd2 : (addrsOf (keyLtTake ms key) ++ x.addr :: addrsOf rest).Nodup := by
    rw [← haddrs2]
    exact hwf.nodup
  obtain ⟨hndA, hndB, hdisjAB⟩ := List.nodup_append.mp hnd2
  have hxa_pre : x.addr ∉ addrsOf (keyLtTake ms key) :=
    fun hc => hdisjAB hc (List.mem_cons_self _ _)
  have hxa_rest : x.addr ∉ addrsOf rest := (List.nodup_cons.mp hndB).1
  have hxhdr : S.header ≠ x.addr := by
    intro hc
    exact hwf.hdr_notin (hc ▸ List.mem_map_of_mem Ent.addr hxms)
  have hxlvl : x.lvl ≤ S.level := hwf.lvls_le x hxms
  have hPt : ∀ j, j ≤ S.level → searchPred S ms key j ≠ x.addr := by
    intro j _ hc
    rcases searchPred_mem_pre S ms key j with h | h
    · exact hxhdr (by rw [← h, hc])
    · have hsub : (addrsOf (levelKeep j (keyLtTake ms key))).Sublist
          (addrsOf (keyLtTake ms key)) := (List.filter_sublist _).map Ent.addr
      exact hxa_pre (hc ▸ hsub.subset h)
  -- per-level predecessor facts
  have hfacts : ∀ j : Nat, j ≤ S.maxLevel → ∃ (nj : HNode K V) (pj : Ptr),
      S.heap (searchPred S ms key j) = some nj ∧
      nj.forward.get? j = some pj ∧
      IsChain S.heap j pj (levelKeep j (keyGeDrop ms key)) :=
    fun j hj => searchPred_facts hwf key hj
  choose N F hN hF hC using hfacts
  have hF2ex : ∃ F2 : Nat → Ptr, ∀ j (hj : j ≤ S.maxLevel), F2 j = F j hj :=
    ⟨fun j => if hj : j ≤ S.maxLevel then F j hj else Ptr.null,
     fun j hj => dif_pos hj⟩
  obtain ⟨F2, hF2⟩ := hF2ex
  -- the doomed node's own links
  set T : Nat → Ptr := fun j => (fwE.get? j).getD Ptr.null with hTdefn
  have hTdef : ∀ j, j ≤ x.lvl → fwE.get? j = some (T j) := by
    intro j hj
    cases hg : fwE.get? j with
    | none =>
      have := List.get?_eq_none.mp hg
      omega
    | some v =>
      rw [hTdefn]
      show some v = some ((fwE.get? j).getD Ptr.null)
      rw [hg]
      rfl
  have hxlow : ∀ j, j ≤ S.maxLevel → j ≤ x.lvl →
      F2 j = Ptr.addr x.addr ∧ IsChain S.heap j (T j) (levelKeep j rest) := by
    intro j hjm hjx
    have hCj := hC j hjm
    rw [hd, levelKeep_cons_of_le _ hjx, ← hF2 j hjm] at hCj
    obtain ⟨hp, fw3, q3, hn3, hlen3, hget3, htail3⟩ := IsChain_cons_inv hCj
    refine ⟨hp, ?_⟩
    rw [hne] at hn3
    injection hn3 with hh
    injection hh with h1 h2 h3 h4
    rw [← h3, hTdef j hjx] at hget3
    have hq : T j = q3 := Option.some.inj hget3
    rw [hq]
    exact htail3
  have hxhigh : ∀ j, j ≤ S.maxLevel → x.lvl < j → F2 j ≠ Ptr.addr x.addr := by
    intro j hjm hjx hc
    have hCj := hC j hjm
    rw [hd, levelKeep_cons_of_gt _ hjx, ← hF2 j hjm, hc] at hCj
    cases hlk : levelKeep j rest with
    | nil =>
      rw [hlk] at hCj
      exact Ptr.noConfusion (IsChain_nil_inv hCj)
    | cons y ys =>
      rw [hlk] at hCj
      obtain ⟨hp, _⟩ := IsChain_cons_inv hCj
      have hyx : x.addr = y.addr := by injection hp
      have hyrest : y ∈ rest := by
        have : y ∈ levelKeep j rest := by
          rw [hlk]
          exact List.mem_cons_self y ys
        exact (mem_levelKeep this).1
      exact hxa_rest (hyx ▸ List.mem_map_of_mem Ent.addr hyrest)
  -- run the unlink loop
  obtain ⟨h1, hUL, hdesc⟩ := unlinkLoop_build upd2 x.addr S.level
    (fun j => searchPred S ms key j) F2 T S.heap
    (HNode.mk x.key x.value fwE x.lvl)
    (fun j hj => by rw [hupd j, if_pos hj])
    hPt
    (by
      intro j hj
      have hjm : j ≤ S.maxLevel := le_trans hj hwf.lvl_le
      refine ⟨N j hjm, hN j hjm, ?_, ?_⟩
      · by_contra hc
        push_neg at hc
        have hg1 : (N j hjm).forward.get? j = none := List.get?_eq_none.mpr hc
        have hg2 := hF j hjm
        rw [hg1] at hg2
        exact Option.noConfusion hg2
      · rw [hF2 j hjm]
        exact hF j hjm)
    hne
    (by
      intro j hj hFt
      have hjm : j ≤ S.maxLevel := le_trans hj hwf.lvl_le
      by_cases hjx : j ≤ x.lvl
      · exact hTdef j hjx
      · exact absurd hFt (hxhigh j hjm (by omega)))
  -- the header's node after the unlink loop, and the shrink loop
  obtain ⟨hn0, hhdr0, hhdr0len, hhdr0lvl⟩ := hwf.hdr
  obtain ⟨hn1, hhn1, hn1k, hn1v, hn1l, hn1len, hn1get⟩ := (hdesc S.header).2 hn0 hhdr0
  have hn1len2 : S.level < hn1.forward.length := by
    rw [hn1len, hhdr0len]
    have := hwf.lvl_le
    omega
  obtain ⟨lvl2, hSL, hlvl2le, hlvl2nn, hlvl2null⟩ := shrinkLoop_spec hhn1 S.level hn1len2
  -- the run of `remove`
  have hrem : remove S key = some
      { S with heap := heapWrite h1 x.addr none, level := lvl2, count := S.count - 1 } := by
    simp only [remove, hrun, hn2heap, hn2get, hne]
    rw [if_pos hxk]
    simp only [hUL, hSL]
  -- the freed heap agrees with the original off the freed address
  have hdesc2 : ∀ a, a ≠ x.addr →
      (S.heap a = none → heapWrite h1 x.addr none a = none) ∧
      (∀ n0 : HNode K V, S.heap a = some n0 → ∃ n1, heapWrite h1 x.addr none a = some n1 ∧
        n1.key = n0.key ∧ n1.value = n0.value ∧ n1.nodeLevel = n0.nodeLevel ∧
        n1.forward.length = n0.forward.length ∧
        ∀ j, n1.forward.get? j =
          if j ≤ S.level ∧ searchPred S ms key j = a ∧ F2 j = Ptr.addr x.addr
          then some (T j) else n0.forward.get? j) := by
    intro a ha
    obtain ⟨hm1, hm2⟩ := hdesc a
    refine ⟨fun h0 => ?_, fun n0 hn0a => ?_⟩
    · rw [heapWrite_ne ha]
      exact hm1 h0
    · rw [heapWrite_ne ha]
      exact hm2 n0 hn0a
  -- per-level chains in the final heap, read off the header's node
  have hchains2 : ∀ i, i ≤ S.maxLevel →
      ∃ p : Ptr, hn1.forward.get? i = some p ∧
        IsChain (heapWrite h1 x.addr none) i p
          (levelKeep i (keyLtTake ms key ++ rest)) := by
    intro i hi
    obtain ⟨hnC, p0, hheapC, hget0, hchain0⟩ := hwf.chains i hi
    obtain rfl : hnC = hn0 := by
      rw [hhdr0] at hheapC
      injection hheapC with hh
      exact hh.symm
    have hLK : levelKeep i ms =
        levelKeep i (keyLtTake ms key) ++ levelKeep i (x :: rest) := by
      conv_lhs => rw [hms]
      exact levelKeep_append _ _ _
    rw [hLK] at hchain0
    have hkeep2 : levelKeep i (keyLtTake ms key ++ rest) =
        levelKeep i (keyLtTake ms key) ++ levelKeep i rest := levelKeep_append _ _ _
    by_cases hix : i ≤ x.lvl
    · -- the freed node participated at level i: redirect past it
      obtain ⟨hFi, hZ0⟩ := hxlow i hi hix
      have hiL : i ≤ S.level := le_trans hix hxlvl
      have hZ : IsChain (heapWrite h1 x.addr none) i (T i) (levelKeep i rest) := by
        refine IsChain.congr hZ0 ?_
        intro e he n0 hn0e
        have herest : e ∈ rest := (mem_levelKeep he).1
        have hene : e.addr ≠ x.addr := by
          intro hc
          exact hxa_rest (hc ▸ List.mem_map_of_mem Ent.addr herest)
        obtain ⟨n1g, g1, g2, g3, g4, g5, g6⟩ := (hdesc2 e.addr hene).2 n0 hn0e
        refine ⟨n1g, g1, g2, g3, g4, g5, ?_⟩
        rw [g6 i, if_neg ?_]
        intro hc
        rcases searchPred_mem_pre S ms key i with hsp | hsp
        · refine hwf.hdr_notin ?_
          rw [← hsp, hc.2.1]
          exact List.mem_map_of_mem Ent.addr (hrestms e herest)
        · have hsub : (addrsOf (levelKeep i (keyLtTake ms key))).Sublist
              (addrsOf (keyLtTake ms key)) := (List.filter_sublist _).map Ent.addr
          have hepre : e.addr ∈ addrsOf (keyLtTake ms key) := by
            rw [← hc.2.1]
            exact hsub.subset hsp
          exact hdisjAB hepre
            (List.mem_cons_of_mem _ (List.mem_map_of_mem Ent.addr herest))
      have hchain0b : IsChain S.heap i p0
          (levelKeep i (keyLtTake ms key) ++ (x :: levelKeep i rest)) := by
        rw [levelKeep_cons_of_le _ hix] at hchain0
        exact hchain0
      have hX : IsChain (heapWrite h1 x.addr none) i
          (if (levelKeep i (keyLtTake ms key)).isEmpty then T i else p0)
          (levelKeep i (keyLtTake ms key) ++ levelKeep i rest) := by
        refine IsChain_prefix_redirect (searchPred S ms key i) hchain0b hZ ?_ ?_ ?_
        · exact hwf.nodup.sublist ((levelKeep_keyLtTake_sublist i ms key).map Ent.addr)
        · intro e he
          rw [searchPred, List.getLastD_eq_getLast?, addrsOf, List.getLast?_map, he]
          rfl
        · intro e he n0 hn0e
          have hepre : e ∈ keyLtTake ms key := (mem_levelKeep he).1
          have hene : e.addr ≠ x.addr := by
            intro hc
            exact hxa_pre (hc ▸ List.mem_map_of_mem Ent.addr hepre)
          obtain ⟨n1g, g1, g2, g3, g4, g5, g6⟩ := (hdesc2 e.addr hene).2 n0 hn0e
          refine ⟨n1g, g1, g2, g3, g4, g5, ?_⟩
          rw [g6 i]
          by_cases hcc : e.addr = searchPred S ms key i
          · rw [if_pos ⟨hiL, hcc.symm, hFi⟩, if_pos hcc]
          · rw [if_neg (fun hc3 => hcc hc3.2.1.symm), if_neg hcc]
      refine ⟨if (levelKeep i (keyLtTake ms key)).isEmpty then T i else p0, ?_, ?_⟩
      · rw [hn1get i]
        cases hXE : (levelKeep i (keyLtTake ms key)).isEmpty with
        | true =>
          have hXnil : levelKeep i (keyLtTake ms key) = [] := List.isEmpty_iff.mp hXE
          have hPh : searchPred S ms key i = S.header := by
            rw [searchPred, hXnil]
            rfl
          rw [if_pos ⟨hiL, hPh, hFi⟩]
          simp
        | false =>
          have hXne : levelKeep i (keyLtTake ms key) ≠ [] := by
            intro hc
            rw [hc] at hXE
            simp at hXE
          have hPh : searchPred S ms key i ≠ S.header := by
            cases hL : (levelKeep i (keyLtTake ms key)).getLast? with
            | none =>
              obtain ⟨g, hg⟩ := Option.isSome_iff_exists.mp
                (List.getLast?_isSome.mpr hXne)
              rw [hL] at hg
              simp at hg
            | some f =>
              have hfeq : searchPred S ms key i = f.addr := by
                rw [searchPred, List.getLastD_eq_getLast?, addrsOf,
                  List.getLast?_map, hL]
                rfl
              rw [hfeq]
              intro hc
              refine hwf.hdr_notin ?_
              rw [← hc]
              exact List.mem_map_of_mem Ent.addr
                (hprems f (mem_levelKeep (List.mem_of_mem_getLast? hL)).1)
          rw [if_neg (fun hc => hPh hc.2.1), hget0]
          simp
      · rw [hkeep2]
        exact hX
    · -- the freed node was absent from level i: the chain is untouched
      have hhigh : F2 i ≠ Ptr.addr x.addr := hxhigh i hi (by omega)
      have hchain0b : IsChain S.heap i p0
          (levelKeep i (keyLtTake ms key) ++ levelKeep i rest) := by
        rw [levelKeep_cons_of_gt _ (by omega)] at hchain0
        exact hchain0
      refine ⟨p0, ?_, ?_⟩
      · rw [hn1get i, if_neg (fun hc => hhigh hc.2.2), hget0]
      · rw [hkeep2]
        refine IsChain.congr hchain0b ?_
        intro e he n0 hn0e
        have hene : e.addr ≠ x.addr := by
          intro hc
          rcases List.mem_append.mp he with h | h
          · exact hxa_pre (hc ▸ List.mem_map_of_mem Ent.addr (mem_levelKeep h).1)
          · exact hxa_rest (hc ▸ List.mem_map_of_mem Ent.addr (mem_levelKeep h).1)
        obtain ⟨n1g, g1, g2, g3, g4, g5, g6⟩ := (hdesc2 e.addr hene).2 n0 hn0e
        refine ⟨n1g, g1, g2, g3, g4, g5, ?_⟩
        rw [g6 i, if_neg (fun hc => hhigh hc.2.2)]
  -- the erased chain is a sublist of the original
  have hsubl : (keyLtTake ms key ++ rest).Sublist ms := by
    conv_rhs => rw [hms]
    exact (List.sublist_cons_self x rest).append_left (keyLtTake ms key)
  have hmem2 : ∀ e ∈ keyLtTake ms key ++ rest, e ∈ ms := fun e he => hsubl.subset he
  refine ⟨{ S with heap := heapWrite h1 x.addr none, level := lvl2, count := S.count - 1 }, hrem, ?_, rfl, rfl, rfl, rfl⟩
  refine { hdr_lt := hwf.hdr_lt, hdr := ?_, chains := ?_, lvl_le := ?_,
           count_eq := ?_, lvls_le := ?_, sorted := ?_, hdr_notin := ?_,
           nodup := ?_, bounded := ?_, dom := ?_, top := ?_ }
  · refine ⟨hn1, ?_, ?_, ?_⟩
    · show heapWrite h1 x.addr none S.header = some hn1
      rw [heapWrite_ne hxhdr]
      exact hhn1
    · rw [hn1len]
      exact hhdr0len
    · rw [hn1l]
      exact hhdr0lvl
  · intro i hi
    obtain ⟨p, hp, hch⟩ := hchains2 i hi
    refine ⟨hn1, p, ?_, hp, hch⟩
    show heapWrite h1 x.addr none S.header = some hn1
    rw [heapWrite_ne hxhdr]
    exact hhn1
  · exact le_trans hlvl2le hwf.lvl_le
  · show S.count - 1 = (keyLtTake ms key ++ rest).length
    have hc1 := hwf.count_eq
    have hc2 : ms.length = (keyLtTake ms key).length + (rest.length + 1) := by
      conv_lhs => rw [hms]
      simp [List.length_append]
    rw [List.length_append]
    omega
  · intro e he
    by_contra hc
    push_neg at hc
    have hjle : e.lvl ≤ S.level := hwf.lvls_le e (hmem2 e he)
    obtain ⟨p, hp, hch⟩ := hchains2 e.lvl (le_trans hjle hwf.lvl_le)
    have hemem : e ∈ levelKeep e.lvl (keyLtTake ms key ++ rest) :=
      levelKeep_mem_of he le_rfl
    have hnull := hlvl2null e.lvl hc hjle
    cases hlk : levelKeep e.lvl (keyLtTake ms key ++ rest) with
    | nil =>
      rw [hlk] at hemem
      simp at hemem
    | cons y ys =>
      rw [hlk] at hch
      obtain ⟨hpy, _⟩ := IsChain_cons_inv hch
      rw [hpy, hnull] at hp
      simp at hp
  · exact hwf.sorted.sublist hsubl
  · intro hc
    exact hwf.hdr_notin ((hsubl.map Ent.addr).subset hc)
  · exact hwf.nodup.sublist (hsubl.map Ent.addr)
  · intro a ha
    exact hwf.bounded a ((hsubl.map Ent.addr).subset ha)
  · intro a hne2
    have hax : a ≠ x.addr := by
      intro hc
      refine hne2 ?_
      show heapWrite h1 x.addr none a = none
      rw [hc]
      exact heapWrite_self
    have hSa : S.heap a ≠ none := by
      intro h0
      refine hne2 ?_
      show heapWrite h1 x.addr none a = none
      rw [heapWrite_ne hax]
      exact (hdesc a).1 h0
    rcases hwf.dom a hSa with h | h
    · exact Or.inl h
    · right
      rw [haddrs2] at h
      rw [addrsOf_append]
      rcases List.mem_append.mp h with h2 | h2
      · exact List.mem_append_left _ h2
      · rcases List.mem_cons.mp h2 with h3 | h3
        · exact absurd h3 hax
        · exact List.mem_append_right _ h3
  · rcases hlvl2nn with h0 | hnn
    · exact Or.inl h0
    · right
      intro hc
      obtain ⟨p, hp, hch⟩ := hchains2 lvl2 (le_trans hlvl2le hwf.lvl_le)
      rw [hc] at hch
      rw [IsChain_nil_inv hch] at hp
      exact hnn hp

/-- `remove` always succeeds on a well-formed state, preserves
well-formedness, and erases exactly the requested key from the content. -/
theorem remove_content {S : SL K V} {ms : List (Ent K V)} (hwf : Wf S ms)
    (key : K) :
    ∃ (S3 : SL K V) (ms3 : List (Ent K V)), remove S key = some S3 ∧ Wf S3 ms3 ∧
      ∀ q, assocFind ms3 q = if q = key then none else assocFind ms q := by
  classical
  obtain ⟨upd2, n2, p2, hrun, hn2heap, hn2get, hch0, hupd⟩ := search_full hwf key
  cases hd : keyGeDrop ms key with
  | nil =>
    rw [hd] at hch0
    obtain rfl : p2 = Ptr.null := IsChain_nil_inv hch0
    refine ⟨S, ms, ?_, hwf, ?_⟩
    · simp only [remove, hrun, hn2heap, hn2get]
    · intro q
      by_cases hq : q = key
      · rw [if_pos hq, hq, assocFind_eq_drop_head hwf.sorted, hd]
      · rw [if_neg hq]
  | cons x rest =>
    have hms : ms = keyLtTake ms key ++ x :: rest := by
      rw [← hd]
      exact ms_eq_take_append_drop ms key
    have hpre : ∀ d ∈ keyLtTake ms key, d.key < key :=
      fun d hd2 => keyLt_of_mem_keyLtTake hd2
    by_cases hxk : x.key = key
    · obtain ⟨S3, hrem, hWf, _, _, _, _⟩ := remove_found hwf hd hxk
      have hrestgt : ∀ d ∈ rest, key < d.key := by
        have hp := hwf.sorted
        rw [hms] at hp
        have hp2 := (List.pairwise_append.mp hp).2.1
        have hp3 := (List.pairwise_cons.mp hp2).1
        intro d hd3
        exact hxk ▸ hp3 d hd3
      have hnone2 : assocFind (keyLtTake ms key ++ rest) key = none := by
        rw [assocFind, List.find?_append]
        have h1 : (keyLtTake ms key).find? (fun e => decide (e.key = key)) = none := by
          rw [List.find?_eq_none]
          intro d hd2
          simp only [decide_eq_true_eq]
          exact ne_of_lt (hpre d hd2)
        have h2 : rest.find? (fun e => decide (e.key = key)) = none := by
          rw [List.find?_eq_none]
          intro d hd2
          simp only [decide_eq_true_eq]
          exact ne_of_gt (hrestgt d hd2)
        rw [h1, h2]
        rfl
      refine ⟨S3, keyLtTake ms key ++ rest, hrem, hWf, ?_⟩
      intro q
      have hmid : assocFind (keyLtTake ms key ++ x :: rest) q =
          if q = key then some x.value else assocFind (keyLtTake ms key ++ rest) q :=
        assocFind_middle hpre hxk q
      rw [← hms] at hmid
      by_cases hq : q = key
      · rw [if_pos hq, hq]
        exact hnone2
      · rw [if_neg hq, hmid, if_neg hq]
    · rw [hd] at hch0
      obtain ⟨hp2, fwE, pE, hne, hlenE, hgetE, htailE⟩ := IsChain_cons_inv hch0
      subst hp2
      refine ⟨S, ms, ?_, hwf, ?_⟩
      · simp only [remove, hrun, hn2heap, hn2get, hne]
        rw [if_neg hxk]
      · intro q
        by_cases hq : q = key
        · rw [if_pos hq, hq, assocFind_eq_drop_head hwf.sorted, hd]
          simp only [if_neg hxk]
        · rw [if_neg hq]

/-- The freshly constructed engine is well-formed over the empty chain. -/
theorem wf_mkSL (K V : Type) [Inhabited K] [Inhabited V] [LinearOrder K]
    (maxLevel : Nat) (flips : Nat → Bool) :
    Wf (mkSL K V maxLevel flips) ([] : List (Ent K V)) := by
  refine { hdr_lt := Nat.zero_lt_one, hdr := ?_, chains := ?_, lvl_le := Nat.zero_le _,
           count_eq := rfl, lvls_le := ?_, sorted := List.Pairwise.nil,
           hdr_notin := ?_, nodup := List.nodup_nil, bounded := ?_, dom := ?_,
           top := Or.inl rfl }
  · refine ⟨create_node default default maxLevel, ?_, ?_, rfl⟩
    · show heapWrite (fun _ => none) 0 (some (create_node default default maxLevel)) 0
        = some (create_node default default maxLevel)
      exact heapWrite_self
    · simp [create_node, mkSL]
  · intro i hi
    refine ⟨create_node default default maxLevel, Ptr.null, ?_, ?_, IsChain.nil⟩
    · show heapWrite (fun _ => none) 0 (some (create_node default default maxLevel)) 0
        = some (create_node default default maxLevel)
      exact heapWrite_self
    · show (List.replicate (maxLevel + 1) Ptr.null).get? i = some Ptr.null
      rw [List.get?_eq_get (by simpa using Nat.lt_succ_of_le hi)]
      simp
  · intro e he
    simp at he
  · simp [addrsOf]
  · intro a ha
    simp [addrsOf] at ha
  · intro a ha
    show a = 0 ∨ a ∈ addrsOf []
    left
    by_contra hc
    refine ha ?_
    show heapWrite (fun _ => none) 0 (some (create_node default default maxLevel)) a = none
    rw [heapWrite_ne hc]

/-- Folding the denoted operations over pointwise-equal maps gives
pointwise-equal maps. -/
theorem specFold_congr {m1 m2 : K → Option V} (h : ∀ q, m1 q = m2 q) :
    ∀ ops : List (Op K V), ∀ q, (ops.foldl specApply m1) q = (ops.foldl specApply m2) q := by
  intro ops
  induction ops generalizing m1 m2 with
  | nil => exact h
  | cons o os ih =>
    intro q
    refine ih ?_ q
    intro r
    cases o with
    | put k v =>
      show (if r = k then some v else m1 r) = (if r = k then some v else m2 r)
      rw [h r]
    | remove k =>
      show (if r = k then none else m1 r) = (if r = k then none else m2 r)
      rw [h r]
    | get k => exact h r

/-- Running any operation sequence from a well-formed state succeeds,
preserves well-formedness, and realizes the denoted map. -/
theorem runOps_wf {S : SL K V} {ms : List (Ent K V)} (hwf : Wf S ms)
    (ops : List (Op K V)) :
    ∃ (S2 : SL K V) (ms2 : List (Ent K V)), runOps S ops = some S2 ∧ Wf S2 ms2 ∧
      ∀ q, assocFind ms2 q = (ops.foldl specApply (assocFind ms)) q := by
  induction ops generalizing S ms with
  | nil => exact ⟨S, ms, rfl, hwf, fun q => rfl⟩
  | cons o os ih =>
    cases o with
    | put k v =>
      obtain ⟨S3, ms3, hrun3, hwf3, hc3⟩ := put_content hwf k v
      obtain ⟨S2, ms2, hrun2, hwf2, hc2⟩ := ih hwf3
      refine ⟨S2, ms2, ?_, hwf2, ?_⟩
      · simp only [runOps, runOp, hrun3]
        exact hrun2
      · intro q
        rw [hc2 q]
        exact specFold_congr (fun r => by rw [hc3 r]; rfl) os q
    | remove k =>
      obtain ⟨S3, ms3, hrun3, hwf3, hc3⟩ := remove_content hwf k
      obtain ⟨S2, ms2, hrun2, hwf2, hc2⟩ := ih hwf3
      refine ⟨S2, ms2, ?_, hwf2, ?_⟩
      · simp only [runOps, runOp, hrun3]
        exact hrun2
      · intro q
        rw [hc2 q]
        exact specFold_congr (fun r => by rw [hc3 r]; rfl) os q
    | get k =>
      obtain ⟨S2, ms2, hrun2, hwf2, hc2⟩ := ih hwf
      refine ⟨S2, ms2, ?_, hwf2, ?_⟩
      · simp only [runOps, runOp, get_spec hwf k, Option.map_some]
        exact hrun2
      · intro q
        exact hc2 q

/-- Every reachable state is well-formed over some abstract chain whose
content is the denoted map of the operations that built it. -/
theorem reachable_wf [Inhabited K] [Inhabited V] {S : SL K V} (h : Reachable S) :
    ∃ ms : List (Ent K V), Wf S ms := by
  obtain ⟨maxLevel, flips, ops, hrun⟩ := h
  obtain ⟨S2, ms2, hrun2, hwf2, _⟩ := runOps_wf (wf_mkSL K V maxLevel flips) ops
  rw [hrun] at hrun2
  obtain rfl : S2 = S := by injection hrun2 with hh; exact hh.symm
  exact ⟨ms2, hwf2⟩

/-- `chainGo` follows a level-0 chain and returns exactly its entries. -/
theorem chainGo_spec {S : SL K V} :
    ∀ (l : List (Ent K V)) (p : Ptr) (fuel : Nat),
      IsChain S.heap 0 p l → l.length < fuel →
      chainGo S p fuel = some (l.map (fun e => (e.addr, e.key, e.value))) := by
  intro l
  induction l with
  | nil =>
    intro p fuel hc _
    obtain rfl := IsChain_nil_inv hc
    cases fuel <;> rfl
  | cons e t ih =>
    intro p fuel hc hlen
    obtain ⟨rfl, fw, q, hn, hlenf, hget, htail⟩ := IsChain_cons_inv hc
    cases fuel with
    | zero => omega
    | succ f =>
      have hlt : t.length < f := by
        simp only [List.length_cons] at hlen
        omega
      have hrec := ih q f htail hlt
      simp only [chainGo, hn, hget, hrec, Option.map_some]
      rfl

/-- The level-0 walk of `chainEnts` reads off the abstract chain of a
well-formed state. -/
theorem chainEnts_spec {S : SL K V} {ms : List (Ent K V)} (hwf : Wf S ms) :
    chainEnts S = some (ms.map (fun e => (e.addr, e.key, e.value))) := by
  obtain ⟨hn, p, hheap, hget, hch⟩ := hwf.chains 0 (Nat.zero_le _)
  rw [levelKeep_zero] at hch
  simp only [chainEnts, hheap, hget]
  exact chainGo_spec ms p (searchFuel S) hch (wf_ms_length_lt hwf)

/-- The recursive `clear` on a chain of `l` entries nests `l.length` call
frames and frees the nodes in reverse chain order. -/
theorem clearGo_spec {S : SL K V} :
    ∀ (l : List (Ent K V)) (b : Nat) (fuel : Nat),
      IsChain S.heap 0 (Ptr.addr b) l → l.length ≤ fuel →
      clearGo S.heap b fuel = some (l.length, (addrsOf l).reverse) := by
  intro l
  induction l with
  | nil =>
    intro b fuel hc _
    exact absurd (IsChain_nil_inv hc) (by simp)
  | cons e t ih =>
    intro b fuel hc hlen
    obtain ⟨hpb, fw, q, hn, hlenf, hget, htail⟩ := IsChain_cons_inv hc
    obtain rfl : b = e.addr := by injection hpb
    cases fuel with
    | zero => simp at hlen
    | succ f =>
      cases t with
      | nil =>
        obtain rfl := IsChain_nil_inv htail
        simp only [clearGo, hn, hget]
        rfl
      | cons e2 t2 =>
        obtain ⟨hq2, _⟩ := IsChain_cons_inv htail
        subst hq2
        have hlt : (e2 :: t2).length ≤ f := by
          simp only [List.length_cons] at hlen ⊢
          omega
        have hrec := ih e2.addr f htail hlt
        simp only [clearGo, hn, hget, hrec]
        simp [addrsOf]

/-- The destructor of a well-formed state: the `clear` recursion is as deep
as the element count, frees the nodes from the deepest frame back (reverse
chain order), then deletes the header. -/
theorem destructor_spec {S : SL K V} {ms : List (Ent K V)} (hwf : Wf S ms) :
    destructor S = some (ms.length, (addrsOf ms).reverse ++ [S.header]) := by
  obtain ⟨hn, p, hheap, hget, hch⟩ := hwf.chains 0 (Nat.zero_le _)
  rw [levelKeep_zero] at hch
  cases ms with
  | nil =>
    obtain rfl := IsChain_nil_inv hch
    simp only [destructor, hheap, hget]
    rfl
  | cons e t =>
    obtain ⟨rfl, _⟩ := IsChain_cons_inv hch
    have hlen := wf_ms_length_lt hwf
    have hcg := clearGo_spec (e :: t) e.addr (searchFuel S) hch (by omega)
    simp only [destructor, hheap, hget, hcg]

/-- Overwriting the header's placeholder key and value preserves
well-formedness over the same chain: no operation depends on them. -/
theorem wf_setHeaderKV {S : SL K V} {ms : List (Ent K V)} (hwf : Wf S ms)
    (hk : K) (hv : V) : Wf (setHeaderKV S hk hv) ms := by
  obtain ⟨hn0, hh0, hlen0, hlvl0⟩ := hwf.hdr
  have hSH : setHeaderKV S hk hv = { S with heap := heapWrite S.heap S.header (some (HNode.mk hk hv hn0.forward hn0.nodeLevel)) } := by
    simp only [setHeaderKV, hh0]
  rw [hSH]
  have hagree : ∀ e : Ent K V, e ∈ ms → ∀ n : HNode K V, S.heap e.addr = some n →
      heapWrite S.heap S.header (some (HNode.mk hk hv hn0.forward hn0.nodeLevel)) e.addr
        = some n := by
    intro e he n hn
    have hene : e.addr ≠ S.header :=
      fun hc => hwf.hdr_notin (hc ▸ List.mem_map_of_mem Ent.addr he)
    rw [heapWrite_ne hene]
    exact hn
  refine { hdr_lt := hwf.hdr_lt, hdr := ?_, chains := ?_, lvl_le := hwf.lvl_le,
           count_eq := hwf.count_eq, lvls_le := hwf.lvls_le, sorted := hwf.sorted,
           hdr_notin := hwf.hdr_notin, nodup := hwf.nodup, bounded := hwf.bounded,
           dom := ?_, top := hwf.top }
  · exact ⟨HNode.mk hk hv hn0.forward hn0.nodeLevel, heapWrite_self, hlen0, hlvl0⟩
  · intro i hi
    obtain ⟨hnC, p, hheap, hget, hch⟩ := hwf.chains i hi
    have heq : hnC = hn0 := by
      rw [hh0] at hheap
      exact (Option.some.inj hheap).symm
    rw [heq] at hget
    refine ⟨HNode.mk hk hv hn0.forward hn0.nodeLevel, p, heapWrite_self, hget, ?_⟩
    refine IsChain.congr hch ?_
    intro e he n hn
    exact ⟨n, hagree e (mem_levelKeep he).1 n hn, rfl, rfl, rfl, rfl, rfl⟩
  · intro a ha
    by_cases hah : a = S.header
    · exact Or.inl hah
    · refine hwf.dom a ?_
      intro h0
      refine ha ?_
      show heapWrite S.heap S.header (some (HNode.mk hk hv hn0.forward hn0.nodeLevel)) a = none
      rw [heapWrite_ne hah]
      exact h0

/-- C1: for every finite sequence of put, get and remove operations from an
empty skip list, get(key) returns exactly the value of the most recent
put(key, v) not followed by a remove(key), and no value when none exists —
the denoted map of the sequence. -/
theorem C1_sequential_get_semantics (K V : Type) [Inhabited K] [Inhabited V]
    [LinearOrder K] (maxLevel : Nat) (flips : Nat → Bool) (ops : List (Op K V))
    (key : K) :
    ∃ S2 : SL K V, runOps (mkSL K V maxLevel flips) ops = some S2 ∧
      get S2 key = some (specOf ops key) := by
  obtain ⟨S2, ms2, hrun, hwf, hc⟩ := runOps_wf (wf_mkSL K V maxLevel flips) ops
  refine ⟨S2, hrun, ?_⟩
  rw [get_spec hwf key, hc key]
  exact congrArg some (specFold_congr (fun q => rfl) ops key)

/-- C2: in every reachable state the level-0 chain is strictly increasing
in key, hence duplicate-free, and its length is the value size() returns. -/
theorem C2_level0_chain_sorted_counted {K V : Type} [Inhabited K] [Inhabited V]
    [LinearOrder K] {S : SL K V} (h : Reachable S) :
    ∃ l : List (K × V), chain0 S = some l ∧
      (l.map Prod.fst).Pairwise (fun a b => a < b) ∧
      (l.map Prod.fst).Nodup ∧ l.length = size S := by
  obtain ⟨ms, hwf⟩ := reachable_wf h
  have hkeys : (ms.map (fun e => (e.key, e.value))).map Prod.fst = ms.map Ent.key := by
    rw [List.map_map]
    rfl
  have hpw : ((ms.map (fun e => (e.key, e.value))).map Prod.fst).Pairwise
      (fun a b => a < b) := by
    rw [hkeys, List.pairwise_map]
    exact hwf.sorted
  refine ⟨ms.map (fun e => (e.key, e.value)), ?_, hpw, ?_, ?_⟩
  · rw [chain0, chainEnts_spec hwf]
    simp [List.map_map]
  · exact hpw.imp ne_of_lt
  · rw [List.length_map]
    exact hwf.count_eq.symm

theorem C2_level0_chain_sorted_counted_witness :
    ∃ l : List (Nat × Nat), chain0 (mkSL Nat Nat 2 flipsZero) = some l ∧
      (l.map Prod.fst).Pairwise (fun a b => a < b) ∧
      (l.map Prod.fst).Nodup ∧ l.length = size (mkSL Nat Nat 2 flipsZero) :=
  C2_level0_chain_sorted_counted ⟨2, flipsZero, [], rfl⟩

/-- C3 (amended): when `put` takes its insert path, the engine state at the
moment `create_node` runs still carries the original heap, element count,
allocation cursor, header and capacity — allocation precedes every forward
pointer and count mutation — but `skip_list_level_` may already have been
raised, so the claimed "no mutation of the current top level before
allocation" does not hold. -/
theorem C3_allocation_precedes_mutation {S : SL K V} {key : K} {Spre : SL K V}
    (h : put_preAllocState S key = some Spre) :
    Spre.heap = S.heap ∧ Spre.count = S.count ∧ Spre.next = S.next ∧
    Spre.header = S.header ∧ Spre.maxLevel = S.maxLevel := by
  unfold put_preAllocState at h
  cases hpd : put_dispatch S key with
  | none =>
    rw [hpd] at h
    exact Option.noConfusion h
  | some path =>
    rw [hpd] at h
    cases path with
    | update b => exact Option.noConfusion h
    | insert upd =>
      obtain rfl : (insertPre S upd).1 = Spre := Option.some.inj h
      unfold insertPre
      dsimp only
      split
      · exact ⟨rfl, rfl, rfl, rfl, rfl⟩
      · exact ⟨rfl, rfl, rfl, rfl, rfl⟩

/-- C3 (counterexample): on a fresh two-level list whose first coin is
heads, `put` of an absent key raises `skip_list_level_` from 0 to 1 before
`create_node` runs — the top level is mutated ahead of the allocation. -/
theorem C3_level_mutated_before_allocation :
    Option.map SL.level (put_preAllocState (mkSL Nat Nat 2 flipsOne) 9) = some 1 ∧
    (mkSL Nat Nat 2 flipsOne).level = 0 := by
  exact ⟨by decide, rfl⟩

theorem C3_allocation_precedes_mutation_witness :
    ∃ Spre : SL Nat Nat,
      put_preAllocState (mkSL Nat Nat 2 flipsOne) 9 = some Spre ∧
      Spre.count = (mkSL Nat Nat 2 flipsOne).count ∧
      Spre.next = (mkSL Nat Nat 2 flipsOne).next := by
  obtain ⟨Spre, hSpre⟩ : ∃ Spre, put_preAllocState (mkSL Nat Nat 2 flipsOne) 9 = some Spre :=
    Option.isSome_iff_exists.mp (by decide)
  obtain ⟨h1, h2, h3, h4, h5⟩ := C3_allocation_precedes_mutation hSpre
  exact ⟨Spre, hSpre, h2, h3⟩

/-- C6: the generator is a deterministic function of its seed — two engines
seeded equally yield identical level sequences of any length. -/
theorem C6_seeded_generator_deterministic (K V : Type) [Inhabited K] [Inhabited V]
    (stream : Nat → Nat → Bool) (maxLevel s1 s2 : Nat) (h : s1 = s2) (n : Nat) :
    levelSeq (mkSeeded K V stream maxLevel s1) n
      = levelSeq (mkSeeded K V stream maxLevel s2) n := by
  rw [h]

theorem C6_seeded_generator_deterministic_witness :
    levelSeq (mkSeeded Nat Nat (fun s i => (s + i) % 2 = 0) 3 5) 4
      = levelSeq (mkSeeded Nat Nat (fun s i => (s + i) % 2 = 0) 3 5) 4 :=
  C6_seeded_generator_deterministic Nat Nat (fun s i => (s + i) % 2 = 0) 3 5 5 rfl 4

/-- C7 (as the code behaves): teardown frees every node reachable from the
header plus the header, but by a self-recursive `clear` whose nesting depth
equals the element count — the stack growth is linear in the size, not
bounded — and the frees happen in reverse level-0 order. -/
theorem C7_teardown_recursion_depth {K V : Type} [Inhabited K] [Inhabited V]
    [LinearOrder K] {S : SL K V} (h : Reachable S) :
    ∃ as : List Nat, chainAddrs S = some as ∧
      destructor S = some (size S, as.reverse ++ [S.header]) := by
  obtain ⟨ms, hwf⟩ := reachable_wf h
  refine ⟨addrsOf ms, ?_, ?_⟩
  · rw [chainAddrs, chainEnts_spec hwf]
    simp [List.map_map]
    rfl
  · rw [destructor_spec hwf]
    have : size S = ms.length := hwf.count_eq
    rw [this]

theorem C7_teardown_recursion_depth_witness :
    ∃ as : List Nat, chainAddrs (mkSL Nat Nat 1 flipsZero) = some as ∧
      destructor (mkSL Nat Nat 1 flipsZero)
        = some (size (mkSL Nat Nat 1 flipsZero), as.reverse ++ [(mkSL Nat Nat 1 flipsZero).header]) :=
  C7_teardown_recursion_depth ⟨1, flipsZero, [], rfl⟩

/-- C8 (as the code behaves): `put`, `remove`, `insert_element` and the
momu `get` bracket their bodies with the single mutex, but `XSFSkipList::get`,
`SkipList::search_element`, `size` and `dump_file` touch the lock nowhere —
reads can run concurrently with a relinking or freeing write. -/
theorem C8_lock_coverage :
    put_lockEvents = [LockEv.acquire, LockEv.release] ∧
    remove_lockEvents = [LockEv.acquire, LockEv.release] ∧
    insert_element_lockEvents = [LockEv.acquire, LockEv.release] ∧
    momu_get_lockEvents = [LockEv.acquire, LockEv.release] ∧
    get_lockEvents = [] ∧
    search_element_lockEvents = [] ∧
    size_lockEvents = [] ∧
    dump_file_lockEvents = [] :=
  ⟨rfl, rfl, rfl, rfl, rfl, rfl, rfl, rfl⟩

/-- C9: in every reachable state the top level is capped by max_level,
every allocated node's forward array has exactly node_level + 1 slots with
node_level capped by max_level, the generator respects the cap, and no
search, splice or unlink of put, get, or remove ever indexes a forward
array out of bounds (the operations, which fault on any such access in
this model, always succeed). -/
theorem C9_forward_index_in_bounds {K V : Type} [Inhabited K] [Inhabited V]
    [LinearOrder K] {S : SL K V} (h : Reachable S) :
    S.level ≤ S.maxLevel ∧
    (∀ (a : Nat) (n : HNode K V), S.heap a = some n →
      n.nodeLevel ≤ S.maxLevel ∧ n.forward.length = n.nodeLevel + 1) ∧
    (get_random_level S).1 ≤ S.maxLevel ∧
    (∀ key value, (put S key value).isSome = true) ∧
    (∀ key, (get S key).isSome = true ∧ (remove S key).isSome = true) := by
  obtain ⟨ms, hwf⟩ := reachable_wf h
  refine ⟨hwf.lvl_le, ?_, get_random_level_le S, ?_, ?_⟩
  · intro a n hn
    have hne2 : S.heap a ≠ none := by
      rw [hn]
      simp
    rcases hwf.dom a hne2 with rfl | hmem
    · obtain ⟨hn0, hh0, hl0, hv0⟩ := hwf.hdr
      rw [hh0] at hn
      obtain rfl : hn0 = n := Option.some.inj hn
      exact ⟨le_of_eq hv0, by rw [hl0, hv0]⟩
    · obtain ⟨e, he, hea⟩ := List.mem_map.mp hmem
      obtain ⟨hnh, p, hheap, hget, hch⟩ := hwf.chains 0 (Nat.zero_le _)
      rw [levelKeep_zero] at hch
      obtain ⟨fw, hfe, hflen⟩ := hch.entOk e he
      rw [hea, hn] at hfe
      obtain rfl : n = HNode.mk e.key e.value fw e.lvl := Option.some.inj hfe
      refine ⟨le_trans (hwf.lvls_le e he) hwf.lvl_le, ?_⟩
      show fw.length = e.lvl + 1
      exact hflen
  · intro key value
    obtain ⟨S3, ms3, hput, _, _⟩ := put_content hwf key value
    rw [hput]
    rfl
  · intro key
    refine ⟨?_, ?_⟩
    · rw [get_spec hwf key]
      rfl
    · obtain ⟨S3, ms3, hrem, _, _⟩ := remove_content hwf key
      rw [hrem]
      rfl

theorem C9_forward_index_in_bounds_witness :
    (mkSL Nat Nat 2 flipsZero).level ≤ (mkSL Nat Nat 2 flipsZero).maxLevel ∧
    (∀ (a : Nat) (n : HNode Nat Nat), (mkSL Nat Nat 2 flipsZero).heap a = some n →
      n.nodeLevel ≤ (mkSL Nat Nat 2 flipsZero).maxLevel ∧
      n.forward.length = n.nodeLevel + 1) ∧
    (get_random_level (mkSL Nat Nat 2 flipsZero)).1 ≤ (mkSL Nat Nat 2 flipsZero).maxLevel ∧
    (∀ key value, (put (mkSL Nat Nat 2 flipsZero) key value).isSome = true) ∧
    (∀ key, (get (mkSL Nat Nat 2 flipsZero) key).isSome = true ∧
      (remove (mkSL Nat Nat 2 flipsZero) key).isSome = true) :=
  C9_forward_index_in_bounds ⟨2, flipsZero, [], rfl⟩

/-- C10: the header's placeholder key and value are never read — replacing
them is invisible to get, and put and remove from the altered state succeed
and produce content-identical results; in particular operations on the
default-constructed key behave like any other. -/
theorem C10_header_placeholder_never_read {K V : Type} [Inhabited K] [Inhabited V]
    [LinearOrder K] {S : SL K V} (h : Reachable S) (hk : K) (hv : V) :
    (∀ k, get (setHeaderKV S hk hv) k = get S k) ∧
    (∀ k v, ∃ S1 S2, put (setHeaderKV S hk hv) k v = some S1 ∧
      put S k v = some S2 ∧ sameContent S1 S2) ∧
    (∀ k, ∃ S1 S2, remove (setHeaderKV S hk hv) k = some S1 ∧
      remove S k = some S2 ∧ sameContent S1 S2) := by
  obtain ⟨ms, hwf⟩ := reachable_wf h
  have hwf2 := wf_setHeaderKV hwf hk hv
  refine ⟨?_, ?_, ?_⟩
  · intro k
    rw [get_spec hwf2 k, get_spec hwf k]
  · intro k v
    obtain ⟨S1, ms1, h1, hw1, hc1⟩ := put_content hwf2 k v
    obtain ⟨S2, ms2, h2, hw2, hc2⟩ := put_content hwf k v
    refine ⟨S1, S2, h1, h2, ?_⟩
    intro q
    rw [get_spec hw1 q, get_spec hw2 q, hc1 q, hc2 q]
  · intro k
    obtain ⟨S1, ms1, h1, hw1, hc1⟩ := remove_content hwf2 k
    obtain ⟨S2, ms2, h2, hw2, hc2⟩ := remove_content hwf k
    refine ⟨S1, S2, h1, h2, ?_⟩
    intro q
    rw [get_spec hw1 q, get_spec hw2 q, hc1 q, hc2 q]

theorem C10_header_placeholder_never_read_witness :
    (∀ k, get (setHeaderKV (mkSL Nat Nat 1 flipsZero) 5 7) k
      = get (mkSL Nat Nat 1 flipsZero) k) ∧
    (∀ k v, ∃ S1 S2, put (setHeaderKV (mkSL Nat Nat 1 flipsZero) 5 7) k v = some S1 ∧
      put (mkSL Nat Nat 1 flipsZero) k v = some S2 ∧ sameContent S1 S2) ∧
    (∀ k, ∃ S1 S2, remove (setHeaderKV (mkSL Nat Nat 1 flipsZero) 5 7) k = some S1 ∧
      remove (mkSL Nat Nat 1 flipsZero) k = some S2 ∧ sameContent S1 S2) :=
  C10_header_placeholder_never_read ⟨1, flipsZero, [], rfl⟩ 5 7

/-- The characters `operator<<` writes for digits are never a sign, space
or the delimiter. -/
theorem digitChar_not_special (d : Nat) :
    digitChar d ≠ '-' ∧ digitChar d ≠ '+' ∧ digitChar d ≠ ' ' ∧ digitChar d ≠ ':' := by
  match d with
  | 0 => decide
  | 1 => decide
  | 2 => decide
  | 3 => decide
  | 4 => decide
  | 5 => decide
  | 6 => decide
  | 7 => decide
  | 8 => decide
  | 9 => decide
  | n + 10 =>
    rw [show digitChar (n + 10) = Char.ofNat 42 from rfl]
    decide

theorem charDigit_digitChar {d : Nat} (hd : d < 10) : charDigit (digitChar d) = some d := by
  interval_cases d <;> decide

theorem natRepr_ne_nil (n : Nat) : natRepr n ≠ [] := by
  intro hc
  rw [natRepr] at hc
  by_cases h0 : n = 0
  · rw [if_pos h0] at hc
    cases hc
  · rw [if_neg h0] at hc
    rw [List.map_eq_nil, List.reverse_eq_nil_iff] at hc
    exact Nat.digits_ne_nil_iff_ne_zero.mpr h0 hc

theorem natRepr_all (n : Nat) : ∀ c ∈ natRepr n, ∃ d, d < 10 ∧ c = digitChar d := by
  intro c hc
  rw [natRepr] at hc
  by_cases h0 : n = 0
  · rw [if_pos h0] at hc
    simp at hc
    exact ⟨0, by omega, by rw [hc]; rfl⟩
  · rw [if_neg h0] at hc
    obtain ⟨d, hd, rfl⟩ := List.mem_map.mp hc
    exact ⟨d, Nat.digits_lt_base' (List.mem_reverse.mp hd), rfl⟩

theorem natRepr_digits (n : Nat) : ∀ c ∈ natRepr n, (charDigit c).isSome = true := by
  intro c hc
  obtain ⟨d, hd, rfl⟩ := natRepr_all n c hc
  rw [charDigit_digitChar hd]
  rfl

/-- `takeWhile`/`dropWhile` split an all-satisfying prefix at the first
failing element. -/
theorem takeWhile_append_cons {α : Type} {p : α → Bool} {A : List α} {b : α}
    {B : List α} (hA : ∀ x ∈ A, p x = true) (hb : p b = false) :
    (A ++ b :: B).takeWhile p = A ∧ (A ++ b :: B).dropWhile p = b :: B := by
  induction A with
  | nil =>
    simp only [List.nil_append]
    constructor
    · rw [List.takeWhile_cons]
      simp [hb]
    · rw [List.dropWhile_cons]
      simp [hb]
  | cons a A ih =>
    have hpa : p a = true := hA a (List.mem_cons_self _ _)
    obtain ⟨ih1, ih2⟩ := ih (fun x hx => hA x (List.mem_cons_of_mem _ hx))
    constructor
    · rw [List.cons_append, List.takeWhile_cons_of_pos hpa, ih1]
    · rw [List.cons_append, List.dropWhile_cons]
      simp only [hpa]
      exact ih2

theorem takeWhile_all {α : Type} {p : α → Bool} :
    ∀ {l : List α}, (∀ x ∈ l, p x = true) → l.takeWhile p = l := by
  intro l
  induction l with
  | nil => intro _; rfl
  | cons a t ih =>
    intro h
    rw [List.takeWhile_cons_of_pos (h a (List.mem_cons_self _ _)),
      ih (fun x hx => h x (List.mem_cons_of_mem _ hx))]

theorem filterMap_digitChar (l : List Nat) (hl : ∀ d ∈ l, d < 10) :
    (l.map digitChar).filterMap charDigit = l := by
  induction l with
  | nil => rfl
  | cons d t ih =>
    rw [List.map_cons, List.filterMap_cons,
      charDigit_digitChar (hl d (List.mem_cons_self _ _)),
      ih (fun x hx => hl x (List.mem_cons_of_mem _ hx))]

theorem digitsVal_reverse (l : List Nat) : digitsVal l.reverse = Nat.ofDigits 10 l := by
  induction l with
  | nil => rfl
  | cons d t ih =>
    rw [List.reverse_cons, digitsVal, List.foldl_append]
    simp only [List.foldl_cons, List.foldl_nil]
    rw [show t.reverse.foldl (fun a d => 10 * a + d) 0 = digitsVal t.reverse from rfl,
      ih, Nat.ofDigits_cons]
    push_cast
    ring

theorem digitsVal_natRepr (n : Nat) :
    digitsVal ((natRepr n).filterMap charDigit) = n := by
  by_cases h0 : n = 0
  · subst h0
    decide
  · rw [natRepr, if_neg h0,
      filterMap_digitChar _ (fun d hd => Nat.digits_lt_base' (List.mem_reverse.mp hd)),
      digitsVal_reverse, Nat.ofDigits_digits]

/-- `stoi` on a string headed by anything but a sign or space: the longest
digit prefix, or the throw. -/
theorem stoi_cons_plain {c : Char} {cs : List Char}
    (hd : c ≠ '-') (hp : c ≠ '+') (hs : c ≠ ' ') :
    stoi (c :: cs) =
      (if ((c :: cs).takeWhile (fun x => (charDigit x).isSome)).isEmpty then none
       else some ((digitsVal (((c :: cs).takeWhile
         (fun x => (charDigit x).isSome)).filterMap charDigit) : Int))) := by
  unfold stoi
  have hdw : (c :: cs).dropWhile (fun x => decide (x = ' ')) = c :: cs := by
    rw [List.dropWhile_cons]
    simp [hs]
  rw [hdw]
  split
  · rename_i rest heq
    injection heq with h1 _
    exact absurd h1 hd
  · rename_i rest heq
    injection heq with h1 _
    exact absurd h1 hp
  · rfl

/-- `stoi` accepts an all-digit string and returns its value. -/
theorem stoi_all_digits (cs : List Char) (hne : cs ≠ [])
    (hall : ∀ x ∈ cs, (charDigit x).isSome = true) :
    stoi cs = some ((digitsVal (cs.filterMap charDigit) : Int)) := by
  obtain ⟨c0, cs2, rfl⟩ := List.exists_cons_of_ne_nil hne
  have hc0 := hall c0 (List.mem_cons_self _ _)
  have hd : c0 ≠ '-' := by
    intro h
    rw [h] at hc0
    exact absurd hc0 (by decide)
  have hp : c0 ≠ '+' := by
    intro h
    rw [h] at hc0
    exact absurd hc0 (by decide)
  have hs : c0 ≠ ' ' := by
    intro h
    rw [h] at hc0
    exact absurd hc0 (by decide)
  rw [stoi_cons_plain hd hp hs, takeWhile_all hall]
  rw [if_neg (by simp)]

theorem stoi_natRepr (n : Nat) : stoi (natRepr n) = some ((n : Int)) := by
  rw [stoi_all_digits (natRepr n) (natRepr_ne_nil n) (natRepr_digits n),
    digitsVal_natRepr]

/-- `stoi` accepts a minus sign followed by digits. -/
theorem stoi_minus (cs : List Char) (hne : cs ≠ [])
    (hall : ∀ x ∈ cs, (charDigit x).isSome = true) :
    stoi ('-' :: cs) = some (-(digitsVal (cs.filterMap charDigit) : Int)) := by
  unfold stoi
  have hdw : ('-' :: cs).dropWhile (fun x => decide (x = ' ')) = '-' :: cs := by
    rw [List.dropWhile_cons]
    simp
  rw [hdw]
  split
  · rename_i rest heq
    injection heq with h1 h2
    subst h2
    rw [takeWhile_all hall]
    rw [if_neg (by simp [hne])]
  · rename_i rest heq
    injection heq with h1 _
    exact absurd h1 (by decide)
  · rename_i hn1 hn2
    exact absurd rfl (hn1 cs)

theorem stoi_intRepr (n : Int) : stoi (intRepr n) = some n := by
  rw [intRepr]
  by_cases hneg : n < 0
  · rw [if_pos hneg, stoi_minus _ (natRepr_ne_nil _) (natRepr_digits _),
      digitsVal_natRepr, Int.ofNat_natAbs_of_nonpos (by omega)]
    rw [neg_neg]
  · rw [if_neg hneg, stoi_natRepr, Int.toNat_of_nonneg (by omega)]

theorem intRepr_ne_nil (n : Int) : intRepr n ≠ [] := by
  rw [intRepr]
  by_cases hneg : n < 0
  · rw [if_pos hneg]
    simp
  · rw [if_neg hneg]
    exact natRepr_ne_nil _

theorem intRepr_no_colon (n : Int) : ∀ c ∈ intRepr n, c ≠ ':' := by
  intro c hc
  rw [intRepr] at hc
  by_cases hneg : n < 0
  · rw [if_pos hneg] at hc
    rcases List.mem_cons.mp hc with rfl | hc2
    · decide
    · obtain ⟨d, hd, rfl⟩ := natRepr_all _ c hc2
      exact (digitChar_not_special d).2.2.2
  · rw [if_neg hneg] at hc
    obtain ⟨d, hd, rfl⟩ := natRepr_all _ c hc
    exact (digitChar_not_special d).2.2.2

/-- A dumped line splits at its delimiter into its two numerals. -/
theorem line_of_split (k v : Int) :
    (line_of k v).takeWhile (fun c => decide (c ≠ ':')) = intRepr k ∧
    (line_of k v).dropWhile (fun c => decide (c ≠ ':')) = ':' :: intRepr v := by
  rw [line_of]
  exact takeWhile_append_cons
    (fun x hx => decide_eq_true (intRepr_no_colon k x hx)) (by decide)

theorem is_valid_line_of (k v : Int) : is_valid_string (line_of k v) = true := by
  rw [is_valid_string, Bool.and_eq_true]
  constructor
  · have hni : line_of k v ≠ [] := by
      rw [line_of]
      intro hc
      have hlen := congrArg List.length hc
      simp only [List.length_append, List.length_cons, List.length_nil] at hlen
      omega
    rw [Bool.not_eq_true']
    cases hE : (line_of k v).isEmpty with
    | false => rfl
    | true => exact absurd (List.isEmpty_iff.mp hE) hni
  · exact List.any_eq_true.mpr ⟨':', by rw [line_of]; exact List.mem_append_right _ (List.mem_cons_self _ _), by decide⟩

/-- Every dumped line parses back to its pair. -/
theorem parseLine_line_of (k v : Int) : parseLine (line_of k v) = some (k, v) := by
  obtain ⟨htw, hdw⟩ := line_of_split k v
  rw [parseLine, if_pos (is_valid_line_of k v)]
  simp only [htw, hdw, List.tail_cons]
  rw [if_neg ?_, stoi_intRepr, stoi_intRepr]
  · rw [Bool.or_eq_true]
    push_neg
    constructor
    · simp [intRepr_ne_nil k]
    · simp [intRepr_ne_nil v]

/-- Every dumped line is safe for the loader's `std::stoi` calls. -/
theorem lineSafe_line_of (k v : Int) : lineSafe (line_of k v) := by
  obtain ⟨htw, hdw⟩ := line_of_split k v
  intro _ _ _
  rw [htw, hdw, List.tail_cons, stoi_intRepr, stoi_intRepr]
  exact ⟨rfl, rfl⟩

/-- `specLoad` over pointwise-equal maps stays pointwise equal. -/
theorem specLoad_congr {m1 m2 : Int → Option Int} (h : ∀ q, m1 q = m2 q) :
    ∀ (lines : List (List Char)) (q : Int),
      specLoad m1 lines q = specLoad m2 lines q := by
  intro lines
  induction lines generalizing m1 m2 with
  | nil => exact h
  | cons line rest ih =>
    intro q
    simp only [specLoad]
    cases hp : parseLine line with
    | none => exact ih h q
    | some kv =>
      refine ih ?_ q
      intro r
      show (if r = kv.1 then some kv.2 else m1 r) = (if r = kv.1 then some kv.2 else m2 r)
      rw [h r]

/-- The loop of `load_file`, from any loop state whose persistent `key` and
`value` strings — when both nonempty — hold the numerals of a pair the map
already binds: it succeeds and computes exactly the spec-side map.  The
stale-string invariant is what makes the re-inserted pair of a skipped line
invisible in the content. -/
theorem load_steps_content :
    ∀ (lines : List (List Char)), (∀ l ∈ lines, lineSafe l) →
    ∀ (st : LoadState) (ms : List (Ent Int Int)), Wf st.sl ms →
      (st.key.isEmpty = false → st.value.isEmpty = false →
        ∃ k v, stoi st.key = some k ∧ stoi st.value = some v ∧ assocFind ms k = some v) →
      ∃ (st2 : LoadState) (ms2 : List (Ent Int Int)),
        List.foldlM load_step st lines = some st2 ∧ Wf st2.sl ms2 ∧
        ∀ q, assocFind ms2 q = specLoad (assocFind ms) lines q := by
  intro lines
  induction lines with
  | nil =>
    intro _ st ms hwf _
    exact ⟨st, ms, rfl, hwf, fun q => rfl⟩
  | cons line rest ih =>
    intro hsafe st ms hwf hstale
    have hsaferest : ∀ l ∈ rest, lineSafe l :=
      fun l hl => hsafe l (List.mem_cons_of_mem _ hl)
    by_cases hval : is_valid_string line = true
    · -- the line has a delimiter: fresh segments replace the strings
      set kt := line.takeWhile (fun c => decide (c ≠ ':')) with hktdef
      set vt := (line.dropWhile (fun c => decide (c ≠ ':'))).tail with hvtdef
      have hkv : get_key_value_from_string line st.key st.value = (kt, vt) := by
        rw [hktdef, hvtdef, get_key_value_from_string, if_pos hval]
      by_cases hcond : (kt.isEmpty || vt.isEmpty) = true
      · -- an empty segment: the line is skipped, the strings are replaced
        have hstep : load_step st line = some { st with key := kt, value := vt } := by
          simp only [load_step, hkv]
          rw [if_pos hcond]
        have hparse : parseLine line = none := by
          rw [parseLine, if_pos hval]
          simp only [← hktdef, ← hvtdef]
          rw [if_pos hcond]
        obtain ⟨st2, ms2, hrun, hwf2, hc⟩ := ih hsaferest
          { st with key := kt, value := vt } ms hwf
          (by
            intro h1 h2
            have h1b : kt.isEmpty = false := h1
            have h2b : vt.isEmpty = false := h2
            rw [h1b, h2b] at hcond
            simp at hcond)
        refine ⟨st2, ms2, ?_, hwf2, ?_⟩
        · show (load_step st line >>= fun b => List.foldlM load_step b rest) = some st2
          rw [hstep]
          exact hrun
        · intro q
          rw [hc q]
          simp only [specLoad, hparse]
      · -- both segments nonempty: the line parses and is applied
        have hke : kt.isEmpty = false :=
          (Bool.or_eq_false_iff.mp (Bool.eq_false_iff.mpr hcond)).1
        have hve : vt.isEmpty = false :=
          (Bool.or_eq_false_iff.mp (Bool.eq_false_iff.mpr hcond)).2
        obtain ⟨hks, hvs⟩ := hsafe line (List.mem_cons_self _ _) hval hke hve
        obtain ⟨k, hk⟩ := Option.isSome_iff_exists.mp hks
        obtain ⟨v, hv⟩ := Option.isSome_iff_exists.mp hvs
        have hk2 : stoi kt = some k := hk
        have hv2 : stoi vt = some v := hv
        obtain ⟨S3, ms3, hput, hwf3, hc3⟩ := put_content hwf k v
        have hstep : load_step st line = some { sl := S3, key := kt, value := vt, applied := st.applied ++ [(k, v)] } := by
          simp only [load_step, hkv]
          rw [if_neg hcond]
          simp only [hk2, hv2, hput]
        have hparse : parseLine line = some (k, v) := by
          rw [parseLine, if_pos hval]
          simp only [← hktdef, ← hvtdef]
          rw [if_neg hcond]
          simp only [hk2, hv2]
        obtain ⟨st2, ms2, hrun, hwf2, hc⟩ := ih hsaferest
          { sl := S3, key := kt, value := vt, applied := st.applied ++ [(k, v)] } ms3 hwf3
          (by
            intro _ _
            refine ⟨k, v, hk2, hv2, ?_⟩
            rw [hc3 k, if_pos rfl])
        refine ⟨st2, ms2, ?_, hwf2, ?_⟩
        · show (load_step st line >>= fun b => List.foldlM load_step b rest) = some st2
          rw [hstep]
          exact hrun
        · intro q
          rw [hc q]
          simp only [specLoad, hparse]
          refine specLoad_congr ?_ rest q
          intro r
          rw [hc3 r]
    · -- no delimiter: the strings keep their previous (stale) contents
      have hkv : get_key_value_from_string line st.key st.value = (st.key, st.value) := by
        rw [get_key_value_from_string, if_neg hval]
      have hparse : parseLine line = none := by
        rw [parseLine, if_neg hval]
      by_cases hcond : (st.key.isEmpty || st.value.isEmpty) = true
      · -- a stale segment is empty: skipped
        have hstep : load_step st line = some { st with key := st.key, value := st.value } := by
          simp only [load_step, hkv]
          rw [if_pos hcond]
        obtain ⟨st2, ms2, hrun, hwf2, hc⟩ := ih hsaferest
          { st with key := st.key, value := st.value } ms hwf hstale
        refine ⟨st2, ms2, ?_, hwf2, ?_⟩
        · show (load_step st line >>= fun b => List.foldlM load_step b rest) = some st2
          rw [hstep]
          exact hrun
        · intro q
          rw [hc q]
          simp only [specLoad, hparse]
      · -- both stale strings nonempty: the previous pair is re-inserted,
        -- which the invariant shows is invisible in the content
        have hke : st.key.isEmpty = false :=
          (Bool.or_eq_false_iff.mp (Bool.eq_false_iff.mpr hcond)).1
        have hve : st.value.isEmpty = false :=
          (Bool.or_eq_false_iff.mp (Bool.eq_false_iff.mpr hcond)).2
        obtain ⟨k, v, hk, hv, hbound⟩ := hstale hke hve
        obtain ⟨S3, ms3, hput, hwf3, hc3⟩ := put_content hwf k v
        have hstep : load_step st line = some { sl := S3, key := st.key, value := st.value, applied := st.applied ++ [(k, v)] } := by
          simp only [load_step, hkv]
          rw [if_neg hcond]
          simp only [hk, hv, hput]
        have hagree : ∀ r, assocFind ms3 r = assocFind ms r := by
          intro r
          rw [hc3 r]
          by_cases hr : r = k
          · rw [if_pos hr, hr]
            exact hbound.symm
          · rw [if_neg hr]
        obtain ⟨st2, ms2, hrun, hwf2, hc⟩ := ih hsaferest
          { sl := S3, key := st.key, value := st.value, applied := st.applied ++ [(k, v)] } ms3 hwf3
          (by
            intro _ _
            refine ⟨k, v, hk, hv, ?_⟩
            rw [hagree k]
            exact hbound)
        refine ⟨st2, ms2, ?_, hwf2, ?_⟩
        · show (load_step st line >>= fun b => List.foldlM load_step b rest) = some st2
          rw [hstep]
          exact hrun
        · intro q
          rw [hc q]
          simp only [specLoad, hparse]
          exact specLoad_congr hagree rest q

/-- `load_file` on safe lines: it succeeds and the resulting content is the
spec-side last-write-wins reading of the parsed lines. -/
theorem load_file_content {S : SL Int Int} {ms : List (Ent Int Int)}
    (hwf : Wf S ms) (lines : List (List Char))
    (hsafe : ∀ l ∈ lines, lineSafe l) :
    ∃ (S2 : SL Int Int) (applied : List (Int × Int)) (ms2 : List (Ent Int Int)),
      load_file S lines = some (S2, applied) ∧ Wf S2 ms2 ∧
      ∀ q, assocFind ms2 q = specLoad (assocFind ms) lines q := by
  obtain ⟨st2, ms2, hfold, hwf2, hc⟩ := load_steps_content lines hsafe
    { sl := S, key := [], value := [], applied := [] } ms hwf
    (by
      intro h1 _
      have h1b : ([] : List Char).isEmpty = false := h1
      simp at h1b)
  refine ⟨st2.sl, st2.applied, ms2, ?_, hwf2, hc⟩
  simp only [load_file, hfold]

/-- The spec-side load of the dump of a sorted chain binds exactly the
chain's pairs over the initial map. -/
theorem specLoad_entries :
    ∀ (ms : List (Ent Int Int)) (m : Int → Option Int),
      ms.Pairwise (fun d e => d.key < e.key) → ∀ q,
      specLoad m (ms.map (fun e => line_of e.key e.value)) q
        = (assocFind ms q).or (m q) := by
  intro ms
  induction ms with
  | nil => intro m _ q; rfl
  | cons e t ih =>
    intro m hpw q
    have hkeys := (List.pairwise_cons.mp hpw).1
    have hpt := (List.pairwise_cons.mp hpw).2
    simp only [List.map_cons, specLoad, parseLine_line_of]
    rw [ih (fun r => if r = e.key then some e.value else m r) hpt q]
    by_cases hq : q = e.key
    · have ht : assocFind t q = none := by
        rw [assocFind, List.find?_eq_none.mpr ?_]
        · rfl
        · intro d hd
          simp only [decide_eq_true_eq]
          rw [hq]
          exact ne_of_gt (hkeys d hd)
      have h2 : assocFind (e :: t) q = some e.value := by
        rw [assocFind, List.find?_cons_of_pos _ (by simp [hq])]
        rfl
      rw [ht, h2, if_pos hq]
      rfl
    · rw [if_neg hq]
      have h2 : assocFind (e :: t) q = assocFind t q := by
        rw [assocFind, assocFind,
          List.find?_cons_of_neg _ (by simp; exact fun hc => hq hc.symm)]
      rw [h2]

/-- C4 (amended): a line that parses is applied via `insert_element`, and
later parsed lines sharing a key overwrite earlier ones — the final content
is the spec-side last-write-wins reading of the file.  The skip behaviour
of the claim is what fails (see the counterexample): nothing is printed for
a skipped line, and a line with no delimiter re-runs the insert on the
stale previous key and value — harmless for the content only because that
pair is already bound. -/
theorem C4_load_last_write_wins {S : SL Int Int} {ms : List (Ent Int Int)}
    (hwf : Wf S ms) (lines : List (List Char))
    (hsafe : ∀ l ∈ lines, lineSafe l) :
    ∃ (S2 : SL Int Int) (applied : List (Int × Int)) (ms2 : List (Ent Int Int)),
      load_file S lines = some (S2, applied) ∧ Wf S2 ms2 ∧
      ∀ q, assocFind ms2 q = specLoad (assocFind ms) lines q :=
  load_file_content hwf lines hsafe

/-- C4 (counterexample): loading `"5:50"` followed by an empty line runs
`insert_element` twice — the empty line is not skipped, it re-inserts the
stale pair and prints the success diagnostic; while loading only `":40"`
(empty key segment) runs no insert and prints nothing — no diagnostic is
reported for the skipped line. -/
theorem C4_no_colon_line_reinserts :
    (load_file (mkSL Int Int 1 flipsZero)
        [['5', ':', '5', '0'], []]).map Prod.snd = some [(5, 50), (5, 50)] ∧
    (load_file (mkSL Int Int 1 flipsZero)
        [[':', '4', '0']]).map Prod.snd = some [] := by
  decide

theorem C4_load_last_write_wins_witness :
    ∃ (S2 : SL Int Int) (applied : List (Int × Int)) (ms2 : List (Ent Int Int)),
      load_file (mkSL Int Int 1 flipsZero) [['7', ':', '7', '0']] = some (S2, applied) ∧
      Wf S2 ms2 ∧
      ∀ q, assocFind ms2 q = specLoad (assocFind []) [['7', ':', '7', '0']] q := by
  refine C4_load_last_write_wins (wf_mkSL Int Int 1 flipsZero) _ ?_
  intro l hl
  rw [List.mem_singleton.mp hl]
  intro _ _ _
  exact ⟨by decide, by decide⟩

/-- C5: dumping any state and loading the lines into a fresh empty list of
the same type reproduces an identical key-to-value set (no serialized int
contains the delimiter, so the claim's proviso always holds). -/
theorem C5_dump_load_roundtrip {S S0 : SL Int Int} {ms ms0 : List (Ent Int Int)}
    (hwf : Wf S ms) (hwf0 : Wf S0 ms0) (hempty : ∀ q, assocFind ms0 q = none) :
    ∃ (lines : List (List Char)) (S2 : SL Int Int) (applied : List (Int × Int)),
      dump_file S = some lines ∧ load_file S0 lines = some (S2, applied) ∧
      sameContent S2 S := by
  have hlines : dump_file S = some (ms.map (fun e => line_of e.key e.value)) := by
    rw [dump_file, chainEnts_spec hwf]
    show some ((ms.map (fun e => (e.addr, e.key, e.value))).map (fun e => line_of e.2.1 e.2.2)) = _
    rw [List.map_map]
    rfl
  have hsafe : ∀ l ∈ ms.map (fun e => line_of e.key e.value), lineSafe l := by
    intro l hl
    obtain ⟨e, he, rfl⟩ := List.mem_map.mp hl
    exact lineSafe_line_of e.key e.value
  obtain ⟨S2, applied, ms2, hload, hwf2, hc⟩ := load_file_content hwf0 _ hsafe
  refine ⟨ms.map (fun e => line_of e.key e.value), S2, applied, hlines, hload, ?_⟩
  intro q
  rw [get_spec hwf2 q, get_spec hwf q, hc q,
    specLoad_entries ms (assocFind ms0) hwf.sorted q, hempty q, Option.or_none]

theorem C5_dump_load_roundtrip_witness :
    ∃ (lines : List (List Char)) (S2 : SL Int Int) (applied : List (Int × Int)),
      dump_file (mkSL Int Int 1 flipsZero) = some lines ∧
      load_file (mkSL Int Int 1 flipsZero) lines = some (S2, applied) ∧
      sameContent S2 (mkSL Int Int 1 flipsZero) :=
  C5_dump_load_roundtrip (wf_mkSL Int Int 1 flipsZero) (wf_mkSL Int Int 1 flipsZero)
    (fun q => rfl)

end xsf_skip_list
